import Mathlib

/-!
Verification of the versio release planner against its natural-language
specification.  The Rust sources under `src/` (mono.rs, commands.rs, git.rs,
opts.rs, scan/xml.rs) are shallowly embedded as executable Lean definitions;
parts of the crate that are not among the provided sources (config.rs,
github.rs, the scanner part helpers) are modelled from the specification and
marked as such in their doc comments.
-/

set_option maxRecDepth 10000

namespace Versio

/-- Increment size lattice.  Modelled from the spec: `Size` lives in the
missing config.rs; the spec fixes the total order
`None < Empty < Patch < Minor < Major`. -/
inductive Size where
| None
| Empty
| Patch
| Minor
| Major
deriving DecidableEq, Repr, Fintype

/-- Numeric rank realizing the spec's total order on `Size`. -/
def Size.rank : Size → Nat
| .None => 0
| .Empty => 1
| .Patch => 2
| .Minor => 3
| .Major => 4

/-- The order on sizes (`derive Ord` in the source, per the spec's listing). -/
def Size.le (a b : Size) : Prop := a.rank ≤ b.rank

instance : DecidablePred fun p : Size × Size => Size.le p.1 p.2 := fun p =>
  inferInstanceAs (Decidable (p.1.rank ≤ p.2.rank))

instance Size.decLe (a b : Size) : Decidable (Size.le a b) :=
  inferInstanceAs (Decidable (a.rank ≤ b.rank))

/-- `std::cmp::max` on sizes. -/
def Size.max (a b : Size) : Size := if a.rank ≤ b.rank then b else a

/-- Maximum of a list of sizes, as `Iterator::max` (none on an empty list). -/
def maxSizeList : List Size → Option Size
| [] => Option.none
| s :: t =>
  match maxSizeList t with
  | Option.none => some s
  | some m => some (Size.max s m)

/-- Association-list lookup with `Nat` keys (the `HashMap::get` of the model). -/
def alookup {β : Type} : List (Nat × β) → Nat → Option β
| [], _ => Option.none
| e :: t, x => if e.1 = x then some e.2 else alookup t x

/-- `HashMap::insert`: overwrite the value at a key, appending when absent. -/
def setEntry {β : Type} : List (Nat × β) → Nat → β → List (Nat × β)
| [], k, v => [(k, v)]
| e :: t, k, v => if e.1 = k then (k, v) :: t else e :: setEntry t k v

/-- `HashMap::entry(k).or_insert(dflt)` followed by an in-place update `f`. -/
def modEntry {β : Type} : List (Nat × β) → Nat → β → (β → β) → List (Nat × β)
| [], k, d, f => [(k, f d)]
| e :: t, k, d, f => if e.1 = k then (k, f e.2) :: t else e :: modEntry t k d f

/-- String-keyed association-list lookup. -/
def slookup : List (String × String) → String → Option String
| [], _ => Option.none
| e :: t, x => if e.1 = x then some e.2 else slookup t x

/-- String-keyed `HashMap::insert`. -/
def ssetEntry : List (String × String) → String → String → List (String × String)
| [], k, v => [(k, v)]
| e :: t, k, v => if e.1 = k then (k, v) :: t else e :: ssetEntry t k v

/-- A project of the current or a sliced configuration.  Modelled from the
spec: the `Project` type lives in the missing config.rs.  Glob matching of
`covers`/`excludes` is abstracted into a decidable set of covered paths, and
the version value readable through `StateRead` is carried as a field. -/
structure Project where
  id : Nat
  name : String
  version : String
  covers : List String
  depends : List Nat
deriving DecidableEq, Repr

/-- `Project::does_cover`: whether the project owns a path.  Modelled from the
spec (glob engine abstracted to membership in the covered-path set). -/
def Project.doesCover (p : Project) (path : String) : Bool := p.covers.contains path

/-- A configuration file.  Modelled from the spec: `ConfigFile` lives in the
missing config.rs; only the data the planner reads is kept. -/
structure ConfigFile where
  projects : List Project
  sizes : List (String × Size)
deriving DecidableEq, Repr

/-- `Config::get_project` — find a project by id. -/
def getProject (cfg : ConfigFile) (pid : Nat) : Option Project :=
  cfg.projects.find? (fun p => p.id == pid)

/-- Size-table lookup for a commit kind.  Modelled from the spec: the lookup
lives in the missing config.rs; kinds absent from the table are treated as
contributing no bump. -/
def sizeFor (cfg : ConfigFile) (kind : String) : Size :=
  match cfg.sizes.find? (fun e => e.1 == kind) with
  | Option.none => Size.None
  | some e => e.2

/-- The repository, as the planner sees it: the configuration file as-of any
commit oid.  Modelled from the spec: `ConfigFile::from_slice` re-reads the
config at a historical commit; parsing is abstracted as always succeeding. -/
abbrev Slices : Type := String → ConfigFile

/- ===================== C7: the run command's update policy ============== -/

/-- A semver version as a `MAJOR.MINOR.PATCH` triple.  Modelled from the
spec (version parsing lives outside the provided sources). -/
abbrev Version : Type := Nat × Nat × Nat

/-- `Size::apply` — bump a version by a size.  Modelled from the spec:
Major bumps the major part, Minor the minor part, Patch the patch part;
`Empty` leaves the version unchanged. -/
def Size.apply : Size → Version → Version
| .Major, v => (v.1 + 1, 0, 0)
| .Minor, v => (v.1, v.2.1 + 1, 0)
| .Patch, v => (v.1, v.2.1, v.2.2 + 1)
| _, v => v

/-- `Size::less_than` — semver comparison of two versions.  Modelled from the
spec: lexicographic on the `MAJOR.MINOR.PATCH` triple. -/
def semverLess (a b : Version) : Bool :=
  a.1 < b.1 || (a.1 == b.1 && (a.2.1 < b.2.1 || (a.2.1 == b.2.1 && a.2.2 < b.2.2)))

/-- What `run` did for one project: which version the project restrictions
were verified against, which value (if any) was staged as a mark rewrite via
`set_by_id`, and which value (if any) the per-project anchor tag was
forwarded to via `forward_by_id`. -/
structure RunAction where
  verified : Option Version
  staged : Option Version
  forwarded : Option Version
deriving DecidableEq, Repr

/-- The per-project body of `commands::run` (its version-update policy),
from commands.rs lines 205-222. -/
def runProject (size : Size) (prevVers : Option Version) (curtVers : Version) :
    RunAction :=
  if size = Size.Empty then
    { verified := Option.none, staged := Option.none, forwarded := Option.none }
  else
    match prevVers with
    | some pv =>
      let target := size.apply pv
      if semverLess curtVers target then
        { verified := some target, staged := some target, forwarded := Option.none }
      else
        { verified := some curtVers, staged := Option.none, forwarded := some curtVers }
    | Option.none =>
      { verified := some curtVers, staged := Option.none, forwarded := some curtVers }

/- ===================== C9: fast-forward-only merge ====================== -/

/-- The outcome of `repo.merge_analysis`, as the flags do_merge inspects. -/
structure MergeAnalysis where
  fastForward : Bool
  normal : Bool
deriving DecidableEq, Repr

/-- The refs and HEAD of the local repository, as far as do_merge touches
them: named references with their commit oids, plus the current HEAD ref. -/
structure GitState where
  refs : List (String × String)
  head : String
deriving DecidableEq, Repr

/-- The merge error do_merge raises on a non-fast-forward analysis. -/
inductive MergeErr where
| notFastForward
deriving DecidableEq, Repr

/-- `git::do_merge` (git.rs lines 118-144): fast-forward sets the branch
reference to the fetched commit (creating it in an empty repository) and sets
HEAD; a normal merge analysis fails; anything else changes nothing. -/
def doMerge (analysis : MergeAnalysis) (remoteBranch : String)
    (fetchOid : String) (st : GitState) : Except MergeErr GitState :=
  if analysis.fastForward then
    let refname := "refs/heads/" ++ remoteBranch
    match slookup st.refs refname with
    | some _ =>
      .ok { refs := ssetEntry st.refs refname fetchOid, head := refname }
    | Option.none =>
      .ok { refs := ssetEntry st.refs refname fetchOid, head := refname }
  else if analysis.normal then
    .error MergeErr.notFastForward
  else
    .ok st

/- ===================== C10: get with neither --id nor --name ============ -/

/-- One output row of the `get`/`show` commands. -/
structure ProjLine where
  id : Nat
  name : String
  version : String
deriving DecidableEq, Repr

/-- `ProjLine::from` — render a project as its output line.  Modelled from
the spec: the value read through `StateRead` is the project's version
field. -/
def ProjLine.fromProject (p : Project) : ProjLine :=
  { id := p.id, name := p.name, version := p.version }

/-- `Config::find_unique` — resolve a project name to its id, failing when
the name is absent or ambiguous.  Modelled from the spec (config.rs is not
among the provided sources). -/
def findUnique (cfg : ConfigFile) (name : String) : Except String Nat :=
  match (cfg.projects.filter (fun p => p.name == name)).map (fun p => p.id) with
  | [i] => .ok i
  | [] => .error "No such project."
  | _ => .error "Ambiguous project name."

/-- `commands::get_using_cfg` (commands.rs lines 57-81): select a project by
id, by name, or — with neither — the sole project of the configuration.  The
returned list is the project output written before `output.commit`. -/
def getUsingCfg (cfg : ConfigFile) (id : Option Nat) (name : Option String) :
    Except String (List ProjLine) :=
  match id with
  | some i =>
    match getProject cfg i with
    | some p => .ok [ProjLine.fromProject p]
    | Option.none => .error "No such project."
  | Option.none =>
    match name with
    | some n =>
      match findUnique cfg n with
      | .error e => .error e
      | .ok i =>
        match getProject cfg i with
        | some p => .ok [ProjLine.fromProject p]
        | Option.none => .error "No such project."
    | Option.none =>
      if cfg.projects.length ≠ 1 then .error "No solo project."
      else
        match (cfg.projects.get? 0).bind (fun p0 => getProject cfg p0.id) with
        | some p => .ok [ProjLine.fromProject p]
        | Option.none => .error "No such project."

/- ===================== C8: the XML scanner ============================== -/

/-- A token of the xmlparser stream, as far as scan_xml inspects it.  The
tokenizer itself is an external crate; scan_xml is embedded over the
already-lexed token list.  `elemEndOpen` is the non-ending `ElementEnd`
variant (the closing bracket of a start tag), which scan_xml ignores. -/
inductive XmlToken where
| elemStart (name : String)
| elemEndClose
| elemEndEmpty
| elemEndOpen
| text (value : String) (start : Nat)
| other
deriving DecidableEq, Repr

/-- A located version string: the scanner's output. -/
structure Mark where
  value : String
  start : Nat
deriving DecidableEq, Repr

/-- Errors of scan_xml.  `notFound` carries the path parts still expected
(in original path order; the Rust code stores them reversed and prints that
storage). -/
inductive XmlErr where
| noParts
| notFound (remaining : List String)
deriving DecidableEq, Repr

/-- `parts::is_match_str`.  Modelled from the spec: a path component matches
an element of the same name; with no component left nothing matches. -/
def isMatchStr (s : String) : Option String → Bool
| some p => s == p
| Option.none => false

/-- The token loop of `scan_xml` (scan/xml.rs lines 42-67).  `parts` keeps
the components still to match (the Rust code pops from the end of a reversed
vector; here they are consumed from the front). -/
def scanXmlLoop : List String → Nat → Bool → List XmlToken → Except XmlErr Mark
| parts, _, _, [] => .error (XmlErr.notFound parts)
| parts, extraDepth, onTarget, tok :: rest =>
  match tok with
  | .elemStart nm =>
    if extraDepth == 0 && isMatchStr nm parts.head? then
      scanXmlLoop parts.tail extraDepth (onTarget || parts.tail.isEmpty) rest
    else
      scanXmlLoop parts (extraDepth + 1) onTarget rest
  | .elemEndClose =>
    if extraDepth > 0 then scanXmlLoop parts (extraDepth - 1) onTarget rest
    else .error (XmlErr.notFound parts)
  | .elemEndEmpty =>
    if extraDepth > 0 then scanXmlLoop parts (extraDepth - 1) onTarget rest
    else .error (XmlErr.notFound parts)
  | .text v off =>
    if onTarget then .ok { value := v, start := off }
    else scanXmlLoop parts extraDepth onTarget rest
  | _ => scanXmlLoop parts extraDepth onTarget rest

/-- `scan_xml` (scan/xml.rs lines 31-71). -/
def scanXml (loc : List String) (toks : List XmlToken) : Except XmlErr Mark :=
  if loc.isEmpty then .error XmlErr.noParts
  else scanXmlLoop loc 0 false toks

/- ===================== C4: the last-commit index ======================== -/

/-- A commit of the line-commit and PR streams: oid, the kind token parsed
from the summary, the summary itself, and the file paths its diff touches. -/
structure CommitInfoBuf where
  id : String
  kind : String
  summary : String
  files : List String
deriving DecidableEq, Repr

/-- `LastCommitBuilder::start_line_file` for one path (mono.rs 440-450):
every prev-project of the sliced config that covers the path and whose id is
also a current project records this commit — `HashMap::insert`, so a later
walked commit overwrites an earlier one. -/
def lastCommitFileStep (cfg : ConfigFile) (prev : ConfigFile) (oid : String)
    (lc : List (Nat × String)) (path : String) : List (Nat × String) :=
  prev.projects.foldl
    (fun acc q =>
      if (getProject cfg q.id).isSome && q.doesCover path then setEntry acc q.id oid
      else acc)
    lc

/-- One line commit of `find_last_commits`: slice to the commit, then walk
its files (mono.rs 431-436 and 440-450). -/
def lastCommitStep (cfg : ConfigFile) (slices : Slices)
    (lc : List (Nat × String)) (c : CommitInfoBuf) : List (Nat × String) :=
  c.files.foldl (lastCommitFileStep cfg (slices c.id) c.id) lc

/-- `find_last_commits` (mono.rs 156-172).  The commit list is the
line-commit stream in the order `line_commits_head` yields it; modelled from
the spec: commits are walked from newest to oldest. -/
def findLastCommits (cfg : ConfigFile) (slices : Slices)
    (commits : List CommitInfoBuf) : List (Nat × String) :=
  commits.foldl (lastCommitStep cfg slices) []

instance {e a : Type} [DecidableEq e] [DecidableEq a] : DecidableEq (Except e a) := fun x y =>
  match x, y with
  | .ok v, .ok w =>
    if h : v = w then isTrue (by rw [h]) else isFalse (by intro hc; cases hc; exact h rfl)
  | .error v, .error w =>
    if h : v = w then isTrue (by rw [h]) else isFalse (by intro hc; cases hc; exact h rfl)
  | .ok _, .error _ => isFalse (by intro hc; cases hc)
  | .error _, .ok _ => isFalse (by intro hc; cases hc)

/- ===================== the plan builder ================================= -/

/-- A commit as logged into a change log (mono.rs 248-267). -/
structure LoggedCommit where
  oid : String
  message : String
  size : Size
  applies : Bool
  duplicate : Bool
deriving DecidableEq, Repr

/-- `LoggedCommit::new`. -/
def LoggedCommit.new (oid message : String) (size : Size) : LoggedCommit :=
  { oid := oid, message := message, size := size, applies := false,
    duplicate := false }

/-- `LoggedCommit::included`. -/
def LoggedCommit.included (c : LoggedCommit) : Bool := c.applies && !c.duplicate

/-- A PR as logged into a change log (mono.rs 228-246); `closed_at` is the
timestamp as an integer. -/
structure LoggedPr where
  number : Nat
  closedAt : Int
  commits : List LoggedCommit
deriving DecidableEq, Repr

/-- `ChangeLog` (mono.rs 217-226): the entry vector. -/
abbrev ChangeLog := List (LoggedPr × Size)

/-- A PR group as the plan builder consumes it: number, closed-at time and
its `included_commits()`.  Base/head oids, excludes and the best-guess flag
live in the missing github.rs and are not read by the builder. -/
structure FullPr where
  number : Nat
  closedAt : Int
  commits : List CommitInfoBuf
deriving DecidableEq, Repr

/-- `LoggedPr::capture`. -/
def LoggedPr.capture (pr : FullPr) : LoggedPr :=
  { number := pr.number, closedAt := pr.closedAt, commits := [] }

/-- `Plan` (mono.rs 207-215). -/
structure Plan where
  incrs : List (Nat × (Size × ChangeLog))
  ineffective : List LoggedPr
deriving DecidableEq, Repr

/-- Errors out of the plan builder: the spec's `PlanProtocol` class, the
slicer's not-sliced error, and a panic (`unwrap` failure). -/
inductive PlanErr where
| planProtocol (msg : String)
| notSliced
| panicked
deriving DecidableEq, Repr

/-- `PlanBuilder` (mono.rs 269-277).  The slicer state is the sliced config
when sliced (`Slicer::Orig` is `none`). -/
structure PlanBuilder where
  onPrSizes : List (Nat × LoggedPr)
  onIneffective : Option LoggedPr
  onCommit : Option CommitInfoBuf
  prevCfg : Option ConfigFile
  incrs : List (Nat × (Size × ChangeLog))
  ineffective : List LoggedPr
deriving DecidableEq, Repr

/-- `PlanBuilder::create`. -/
def PlanBuilder.create : PlanBuilder :=
  { onPrSizes := [], onIneffective := Option.none, onCommit := Option.none,
    prevCfg := Option.none, incrs := [], ineffective := [] }

/-- `PlanBuilder::start_pr` (mono.rs 294-298). -/
def startPr (cfg : ConfigFile) (pr : FullPr) (b : PlanBuilder) : PlanBuilder :=
  { b with onPrSizes := cfg.projects.map (fun p => (p.id, LoggedPr.capture pr)),
           onIneffective := some (LoggedPr.capture pr) }

/-- The loop body of `start_commit`: push a tentative logged commit for a
project that exists in the current config. -/
def pushCommit (cfg : ConfigFile) (c : CommitInfoBuf) (e : Nat × LoggedPr) :
    Nat × LoggedPr :=
  match getProject cfg e.1 with
  | some _ =>
    (e.1, { e.2 with commits :=
      e.2.commits ++ [LoggedCommit.new c.id c.summary (sizeFor cfg c.kind)] })
  | Option.none => e

/-- `PlanBuilder::start_commit` (mono.rs 320-335): remember the commit,
slice the previous config to it, and push a tentative logged commit for
every current project.  Slicing and size lookup are modelled as total (their
failures live outside the provided sources), so no protocol check occurs
here. -/
def startCommit (cfg : ConfigFile) (slices : Slices) (c : CommitInfoBuf)
    (b : PlanBuilder) : Except PlanErr PlanBuilder :=
  pure { b with onCommit := some c, prevCfg := some (slices c.id),
                onPrSizes := b.onPrSizes.map (pushCommit cfg c) }

/-- Find the tentative commit with the given oid and set its applies flag
(`.find(..).unwrap()`; `none` models the unwrap panic). -/
def setApplies (oid : String) : List LoggedCommit → Option (List LoggedCommit)
| [] => Option.none
| c :: t =>
  if c.oid = oid then some ({ c with applies := true } :: t)
  else (setApplies oid t).map (fun t1 => c :: t1)

/-- One prev-project of the `start_file` loop (mono.rs 343-350): if the
prev-project's id has a tentative PR and the project covers the path, set
the applies flag on the tentative commit with the current oid. -/
def startFileStep (oid path : String) (acc : List (Nat × LoggedPr))
    (q : Project) : Except PlanErr (List (Nat × LoggedPr)) :=
  match alookup acc q.id with
  | some lp =>
    if q.doesCover path then
      match setApplies oid lp.commits with
      | some cs => pure (setEntry acc q.id { lp with commits := cs })
      | Option.none => throw PlanErr.panicked
    else pure acc
  | Option.none => pure acc

/-- The prev-project loop of `start_file` (mono.rs 343-350). -/
def startFileOps (prev : ConfigFile) (oid path : String)
    (ops : List (Nat × LoggedPr)) : Except PlanErr (List (Nat × LoggedPr)) :=
  prev.projects.foldlM (startFileStep oid path) ops

/-- `PlanBuilder::start_file` (mono.rs 339-352). -/
def startFile (b : PlanBuilder) (path : String) : Except PlanErr PlanBuilder :=
  match b.onCommit with
  | Option.none => throw (PlanErr.planProtocol "Not on a commit")
  | some c =>
    match b.prevCfg with
    | Option.none => throw PlanErr.notSliced
    | some prev => do
      let ops ← startFileOps prev c.id path b.onPrSizes
      pure { b with onPrSizes := ops }

/-- `PlanBuilder::finish_file` — a no-op. -/
def finishFile (b : PlanBuilder) : PlanBuilder := b

/-- `PlanBuilder::finish_commit` — a no-op; in particular it does NOT clear
`on_commit`. -/
def finishCommit (b : PlanBuilder) : PlanBuilder := b

/-- The PR contribution size of a project: the maximum commit size over the
tentative commits whose applies flag is set. -/
def maxApplying (cs : List LoggedCommit) : Option Size :=
  maxSizeList ((cs.filter (fun c => c.applies)).map (fun c => c.size))

/-- The body of the drain loop of `finish_pr`. -/
def finishPrStep (st : (List (Nat × (Size × ChangeLog))) × Bool)
    (e : Nat × LoggedPr) : (List (Nat × (Size × ChangeLog))) × Bool :=
  match maxApplying e.2.commits with
  | some s =>
    (modEntry st.1 e.1 (Size.None, [])
      (fun v => (Size.max v.1 s, v.2 ++ [(e.2, s)])), true)
  | Option.none => (modEntry st.1 e.1 (Size.None, []) (fun v => v), st.2)

/-- The drain loop of `finish_pr` over the per-project tentative PRs,
threading the `found` flag. -/
def finishPrFold (drained : List (Nat × LoggedPr))
    (incrs0 : List (Nat × (Size × ChangeLog))) :
    (List (Nat × (Size × ChangeLog))) × Bool :=
  drained.foldl finishPrStep (incrs0, false)

/-- `PlanBuilder::finish_pr` (mono.rs 300-318). -/
def finishPr (b : PlanBuilder) : Except PlanErr PlanBuilder :=
  match b.onIneffective with
  | Option.none => throw PlanErr.panicked
  | some ineff =>
    let st := finishPrFold b.onPrSizes b.incrs
    pure { b with onPrSizes := [], onIneffective := Option.none, incrs := st.1,
                  ineffective :=
                    if st.2 then b.ineffective else b.ineffective ++ [ineff] }

/- ======== handle_deps: dependency propagation (mono.rs 356-394) ========= -/

/-- `dependents.entry(dep).or_insert_with(HashSet::new).insert(pid)`. -/
def addDependent (deps : List (Nat × List Nat)) (dep pid : Nat) :
    List (Nat × List Nat) :=
  modEntry deps dep [] (fun l => if l.contains pid then l else l ++ [pid])

/-- One project of the seeding pass of handle_deps: record its edges in the
reverse adjacency and, when it has no dependencies, enqueue it with its
rolled-up size (or None when it has no incrs entry). -/
def initStep (incrs : List (Nat × (Size × ChangeLog)))
    (st : (List (Nat × List Nat)) × List (Nat × Size)) (p : Project) :
    (List (Nat × List Nat)) × List (Nat × Size) :=
  let deps1 := p.depends.foldl (fun d dep => addDependent d dep p.id) st.1
  if p.depends.isEmpty then
    match alookup incrs p.id with
    | some v => (deps1, st.2 ++ [(p.id, v.1)])
    | Option.none => (deps1, st.2 ++ [(p.id, Size.None)])
  else (deps1, st.2)

/-- The seeding pass of handle_deps over all current projects. -/
def initDeps (cfg : ConfigFile) (incrs : List (Nat × (Size × ChangeLog))) :
    (List (Nat × List Nat)) × List (Nat × Size) :=
  cfg.projects.foldl (initStep incrs) ([], [])

/-- The mutable state of the handle_deps loop.  The `popped` field records
the ids processed so far; it is verification instrumentation absent from the
Rust code, and no output reads it. -/
structure DepState where
  incrs : List (Nat × (Size × ChangeLog))
  dependents : List (Nat × List Nat)
  queue : List (Nat × Size)
  popped : List Nat
deriving DecidableEq, Repr

/-- `incrs.entry(pid).or_insert((Size::None, ..)).0 = max(existing, sz)`. -/
def bumpSize (incrs : List (Nat × (Size × ChangeLog))) (pid : Nat) (sz : Size) :
    List (Nat × (Size × ChangeLog)) :=
  modEntry incrs pid (Size.None, []) (fun v => (Size.max v.1 sz, v.2))

/-- The size component of a project's incrs entry (None when absent). -/
def sizeAt (incrs : List (Nat × (Size × ChangeLog))) (pid : Nat) : Size :=
  ((alookup incrs pid).getD (Size.None, [])).1

/-- The log component of a project's incrs entry (empty when absent). -/
def logAt (incrs : List (Nat × (Size × ChangeLog))) (pid : Nat) : ChangeLog :=
  ((alookup incrs pid).getD (Size.None, [])).2

/-- `dependents.get_mut(&id).unwrap().remove(&depd)`. -/
def removeDependent (deps : List (Nat × List Nat)) (id depd : Nat) :
    List (Nat × List Nat) :=
  deps.map (fun e => if e.1 = id then (e.1, e.2.filter (fun x => x ≠ depd)) else e)

/-- `dependents.values().all(|ds| !ds.contains(&depd))`, negated. -/
def inAnyDependents (deps : List (Nat × List Nat)) (x : Nat) : Bool :=
  deps.any (fun e => e.2.contains x)

/-- The inner loop of a pop: for each cloned dependent, remove the edge,
bump the dependent's size with the popped size, and enqueue it — with its
current, freshly bumped size — once it appears in no remaining dependent
set. -/
def processDepds (size : Size) (id : Nat) : List Nat → DepState → DepState
| [], s => s
| d :: rest, s =>
  let deps1 := removeDependent s.dependents id d
  let incrs1 := bumpSize s.incrs d size
  let v := sizeAt incrs1 d
  let s1 : DepState := { s with dependents := deps1, incrs := incrs1 }
  let s2 : DepState :=
    if inAnyDependents deps1 d then s1
    else { s1 with queue := s1.queue ++ [(d, v)] }
  processDepds size id rest s2

/-- One pop of the Kahn queue (the body of the while-let loop). -/
def depStep (s : DepState) : DepState :=
  match s.queue with
  | [] => s
  | (id, size) :: rest =>
    let s0 : DepState := { s with queue := rest, popped := s.popped ++ [id],
                                  incrs := bumpSize s.incrs id size }
    match alookup s.dependents id with
    | Option.none => s0
    | some depds => processDepds size id depds s0

/-- Run the while-let loop for a bounded number of pops. -/
def depLoop : Nat → DepState → DepState
| 0, s => s
| n + 1, s => if s.queue.isEmpty then s else depLoop n (depStep s)

/-- Fuel bound: the queue length plus the total size of the dependent sets
strictly decreases at every pop, so this many pops empty the queue. -/
def depFuel (s : DepState) : Nat :=
  s.queue.length + (s.dependents.map (fun e => e.2.length)).sum

/-- `PlanBuilder::handle_deps` (mono.rs 356-394). -/
def handleDeps (cfg : ConfigFile) (incrs : List (Nat × (Size × ChangeLog))) :
    List (Nat × (Size × ChangeLog)) :=
  let st := initDeps cfg incrs
  let s0 : DepState :=
    { incrs := incrs, dependents := st.1, queue := st.2, popped := [] }
  (depLoop (depFuel s0) s0).incrs

/- ========= sort_and_dedup (mono.rs 396-412) ============================= -/

/-- The sort key order of `sort_by_key(|(pr, _)| *pr.closed_at())`. -/
def logLe (a b : LoggedPr × Size) : Prop := a.1.closedAt ≤ b.1.closedAt

instance logLe.dec : DecidableRel logLe := fun a b =>
  inferInstanceAs (Decidable (a.1.closedAt ≤ b.1.closedAt))

/-- The commit loop of sort_and_dedup: mark a commit duplicate when its oid
was already seen, and record every oid into the seen set. -/
def markCommits : List String → List LoggedCommit → List LoggedCommit × List String
| seen, [] => ([], seen)
| seen, c :: t =>
  let c1 := if seen.contains c.oid then { c with duplicate := true } else c
  let seen1 := if seen.contains c.oid then seen else c.oid :: seen
  let r := markCommits seen1 t
  (c1 :: r.1, r.2)

/-- The entry loop of sort_and_dedup: thread the seen set through the
(sorted) entries, and recompute each entry's persisted size as the maximum
over its included commits (None when no commit is included). -/
def dedupEntries : List String → ChangeLog → ChangeLog
| _, [] => []
| seen, e :: t =>
  let r := markCommits seen e.1.commits
  let pr1 : LoggedPr := { e.1 with commits := r.1 }
  let s1 := (maxSizeList ((r.1.filter (fun c => c.included)).map
    (fun c => c.size))).getD Size.None
  (pr1, s1) :: dedupEntries r.2 t

/-- `PlanBuilder::sort_and_dedup` (mono.rs 396-412): per project, stable-sort
the change log by closed-at (`sort_by_key` is a stable sort; the model's
insertion sort is the same stable sort) and run the duplicate marking with a
seen set that is reset for every project. -/
def sortAndDedup (incrs : List (Nat × (Size × ChangeLog))) :
    List (Nat × (Size × ChangeLog)) :=
  incrs.map (fun e => (e.1, (e.2.1, dedupEntries [] (List.insertionSort logLe e.2.2))))

/- ========= the build_plan event loop (mono.rs 122-146) ================== -/

/-- The per-commit part of the loop: start_commit, then start_file and
finish_file for every file, then finish_commit. -/
def processCommit (cfg : ConfigFile) (slices : Slices) (b : PlanBuilder)
    (c : CommitInfoBuf) : Except PlanErr PlanBuilder := do
  let b1 ← startCommit cfg slices c b
  let b2 ← c.files.foldlM (fun bb path => do
    let bb1 ← startFile bb path
    pure (finishFile bb1)) b1
  pure (finishCommit b2)

/-- The per-PR part of the loop: start_pr, the commits, finish_pr. -/
def processPr (cfg : ConfigFile) (slices : Slices) (b : PlanBuilder)
    (pr : FullPr) : Except PlanErr PlanBuilder := do
  let b1 := startPr cfg pr b
  let b2 ← pr.commits.foldlM (processCommit cfg slices) b1
  finishPr b2

/-- `Mono::build_plan` (mono.rs 122-146) over an explicitly ordered list of
PR groups (the Rust code walks `changes().groups().values()`, whose order a
HashMap leaves unspecified). -/
def buildPlanList (cfg : ConfigFile) (slices : Slices) (prs : List FullPr) :
    Except PlanErr Plan := do
  let b ← prs.foldlM (processPr cfg slices) PlanBuilder.create
  let incrs1 := handleDeps cfg b.incrs
  let incrs2 := sortAndDedup incrs1
  pure { incrs := incrs2, ineffective := b.ineffective }

/-- Pure form of `startFileStep`: the unreachable unwrap-panic branch keeps
the accumulator.  Used to state the effect of the event loop; the
correspondence is proved below. -/
def fileStepP (oid path : String) (acc : List (Nat × LoggedPr)) (q : Project) :
    List (Nat × LoggedPr) :=
  match alookup acc q.id with
  | some lp =>
    if q.doesCover path then
      match setApplies oid lp.commits with
      | some cs => setEntry acc q.id { lp with commits := cs }
      | Option.none => acc
    else acc
  | Option.none => acc

/-- Pure form of the `start_file` prev-project loop. -/
def fileOpsP (prev : ConfigFile) (oid path : String)
    (ops : List (Nat × LoggedPr)) : List (Nat × LoggedPr) :=
  prev.projects.foldl (fileStepP oid path) ops

/-- Pure form of one commit of the PR loop: push the tentative commits, then
run the file loop for each touched path. -/
def commitOps (cfg : ConfigFile) (slices : Slices) (c : CommitInfoBuf)
    (ops : List (Nat × LoggedPr)) : List (Nat × LoggedPr) :=
  c.files.foldl (fun acc path => fileOpsP (slices c.id) c.id path acc)
    (ops.map (pushCommit cfg c))

/-- The tentative per-project PRs a PR group leaves in `on_pr_sizes` when
`finish_pr` runs: the fresh captures of `start_pr` threaded through every
commit of the group. -/
def prOpsP (cfg : ConfigFile) (slices : Slices) (pr : FullPr) :
    List (Nat × LoggedPr) :=
  pr.commits.foldl (fun ops c => commitOps cfg slices c ops)
    (cfg.projects.map (fun p => (p.id, LoggedPr.capture pr)))

/-- Pure form of the whole per-PR round of the event loop (start_pr, the
commits, finish_pr); `processPr` always succeeds with exactly this result. -/
def prStepP (cfg : ConfigFile) (slices : Slices) (b : PlanBuilder)
    (pr : FullPr) : PlanBuilder :=
  let drained := prOpsP cfg slices pr
  let st := finishPrFold drained b.incrs
  { onPrSizes := [],
    onIneffective := Option.none,
    onCommit := pr.commits.foldl (fun _ c => some c) b.onCommit,
    prevCfg := pr.commits.foldl (fun _ c => some (slices c.id)) b.prevCfg,
    incrs := st.1,
    ineffective := if st.2 then b.ineffective else b.ineffective ++ [LoggedPr.capture pr] }

/-- The keys of a tentative-PR list are covered by current projects. -/
def KeysOk (cfg : ConfigFile) (ops : List (Nat × LoggedPr)) : Prop :=
  ∀ e ∈ ops, (getProject cfg e.1).isSome = true

/-- Every tentative PR carries a commit with the given oid. -/
def HasOid (oid : String) (ops : List (Nat × LoggedPr)) : Prop :=
  ∀ e ∈ ops, ∃ x ∈ e.2.commits, x.oid = oid

/-- The ids currently in the Kahn queue. -/
def qids (s : DepState) : List Nat := s.queue.map Prod.fst

/-- `x` is recorded as a dependent of `c` in the reverse adjacency. -/
def memDep (deps : List (Nat × List Nat)) (c x : Nat) : Prop :=
  ∃ e ∈ deps, e.1 = c ∧ x ∈ e.2

/-- A dependency edge of the configuration: project `b` depends on `a`. -/
def IsEdge (cfg : ConfigFile) (a b : Nat) : Prop :=
  ∃ p ∈ cfg.projects, p.id = b ∧ a ∈ p.depends

/-- The loop invariant of handle_deps.  `w1`: queued sizes are current;
`w2`: enqueued or popped ids appear in no dependent set; `w3`: an id is
enqueued at most once and never re-enqueued after its pop; `w4`: a popped
id has all outgoing edges removed and its (now frozen) size propagated to
every dependent; `w5`: every project still has a pending incoming edge, or
is queued, or was popped; `w6`: dependent-set members follow real edges;
`w7`/`w9`: adjacency keys and dependent lists are duplicate-free; `w8`:
edges of un-popped ids are still recorded. -/
structure DepInv (cfg : ConfigFile) (s : DepState) : Prop where
  w1 : ∀ x qs, (x, qs) ∈ s.queue → sizeAt s.incrs x = qs
  w2 : ∀ x, (x ∈ qids s ∨ x ∈ s.popped) → ∀ c, ¬ memDep s.dependents c x
  w3 : (qids s ++ s.popped).Nodup
  w4 : ∀ a ∈ s.popped, (∀ b, ¬ memDep s.dependents a b) ∧
        (∀ b, IsEdge cfg a b → Size.le (sizeAt s.incrs a) (sizeAt s.incrs b))
  w5 : ∀ p ∈ cfg.projects, (∃ c ∈ p.depends, memDep s.dependents c p.id) ∨
        p.id ∈ qids s ∨ p.id ∈ s.popped
  w6 : ∀ c x, memDep s.dependents c x →
        ∃ p ∈ cfg.projects, p.id = x ∧ c ∈ p.depends
  w7 : (s.dependents.map Prod.fst).Nodup
  w8 : ∀ a b, IsEdge cfg a b → a ∉ s.popped → memDep s.dependents a b
  w9 : ∀ e ∈ s.dependents, e.2.Nodup

/-- The mid-pop invariant while the cloned dependents of the popped id are
being processed: the global invariant with the popped id `i` exempted from
`w4`, plus book-keeping for the remaining clone `depds`. -/
structure DepMid (cfg : ConfigFile) (i : Nat) (size : Size)
    (depds : List Nat) (s : DepState) : Prop where
  w1 : ∀ x qs, (x, qs) ∈ s.queue → sizeAt s.incrs x = qs
  w2 : ∀ x, (x ∈ qids s ∨ x ∈ s.popped) → ∀ c, ¬ memDep s.dependents c x
  w3 : (qids s ++ s.popped).Nodup
  w4m : ∀ a ∈ s.popped, a ≠ i → (∀ b, ¬ memDep s.dependents a b) ∧
        (∀ b, IsEdge cfg a b → Size.le (sizeAt s.incrs a) (sizeAt s.incrs b))
  w5 : ∀ p ∈ cfg.projects, (∃ c ∈ p.depends, memDep s.dependents c p.id) ∨
        p.id ∈ qids s ∨ p.id ∈ s.popped
  w6 : ∀ c x, memDep s.dependents c x →
        ∃ p ∈ cfg.projects, p.id = x ∧ c ∈ p.depends
  w7 : (s.dependents.map Prod.fst).Nodup
  w8m : ∀ a b, IsEdge cfg a b → a ∉ s.popped → memDep s.dependents a b
  w9 : ∀ e ∈ s.dependents, e.2.Nodup
  hpop : i ∈ s.popped
  hsize : sizeAt s.incrs i = size
  hedges : ∀ b, IsEdge cfg i b →
        memDep s.dependents i b ∨ Size.le size (sizeAt s.incrs b)
  hentry : ∀ b, memDep s.dependents i b → b ∈ depds
  hin : ∀ d ∈ depds, memDep s.dependents i d
  hnd : depds.Nodup

/-- Whether a builder call succeeded. -/
def isOkE {α : Type} : Except PlanErr α → Bool
| .ok _ => true
| .error _ => false

/-- Whether a builder call failed with the PlanProtocol error class. -/
def isPlanProtocol {α : Type} : Except PlanErr α → Bool
| .error (PlanErr.planProtocol _) => true
| _ => false

/-- Number of entries of one change log in which a commit oid appears with
included = true. -/
def countIncludedEntries (l : ChangeLog) (oid : String) : Nat :=
  (l.filter (fun e => e.1.commits.any (fun c => c.oid == oid && c.included))).length

/-- Number of change-log entries across a whole built plan in which a commit
oid appears with included = true. -/
def planIncludedCount (r : Except PlanErr Plan) (oid : String) : Nat :=
  match r with
  | .ok pl => (pl.incrs.map (fun e => countIncludedEntries e.2.2 oid)).sum
  | .error _ => 0


/-- A two-project configuration for evaluating handle_deps concretely:
project 2 depends on project 1. -/
def depsDemoCfg : ConfigFile :=
  ⟨[⟨1, "lib", "1.0.0", ["lib/"], []⟩, ⟨2, "app", "1.0.0", ["app/"], [1]⟩], []⟩

/-- Seed increments for the demo: a Minor bump recorded on project 1 only. -/
def depsDemoIncrs : List (Nat × (Size × ChangeLog)) := [(1, (Size.Minor, []))]


/-- Key effect of a HashMap entry-or-insert on the key sequence: keep the
keys, appending the new one when absent. -/
def addKey (ks : List Nat) (k : Nat) : List Nat :=
  if ks.contains k then ks else ks ++ [k]

/-- Value-level relation between incrs entries built by two walk orders:
same project, same size, change logs equal up to order. -/
def entryRel (e1 e2 : Nat × (Size × ChangeLog)) : Prop :=
  e1.1 = e2.1 ∧ e1.2.1 = e2.2.1 ∧ List.Perm e1.2.2 e2.2.2

/-- Pointwise relation between incrs maps built by two walk orders: same
key sequence and, per project, same presence and size and a permuted
change log. -/
def IncrsRel (l1 l2 : List (Nat × (Size × ChangeLog))) : Prop :=
  l1.map Prod.fst = l2.map Prod.fst ∧
  ∀ pid, (alookup l1 pid).map Prod.fst = (alookup l2 pid).map Prod.fst ∧
    List.Perm (logAt l1 pid) (logAt l2 pid)

/-- Builder relation between two walk orders: related incrs and permuted
ineffective lists. -/
def BuilderRel (b1 b2 : PlanBuilder) : Prop :=
  IncrsRel b1.incrs b2.incrs ∧ List.Perm b1.ineffective b2.ineffective

/-- Lockstep relation between two Kahn states whose incrs came from two
walk orders: identical control data, entrywise-related incrs. -/
def StateRel (s1 s2 : DepState) : Prop :=
  List.Forall₂ entryRel s1.incrs s2.incrs ∧ s1.dependents = s2.dependents ∧
  s1.queue = s2.queue ∧ s1.popped = s2.popped

/-- Every entry of an incrs map carries a change log with pairwise-distinct
closed-at stamps. -/
def EntryLogsDistinct (l : List (Nat × (Size × ChangeLog))) : Prop :=
  ∀ e ∈ l, List.Pairwise (fun a b => a.1.closedAt ≠ b.1.closedAt) e.2.2

instance logLe.total : IsTotal (LoggedPr × Size) logLe :=
  ⟨fun a b => Int.le_total a.1.closedAt b.1.closedAt⟩

instance logLe.transitive : IsTrans (LoggedPr × Size) logLe :=
  ⟨fun _ _ _ h1 h2 => le_trans h1 h2⟩

/-- One-project configuration for the walk-order counterexample. -/
def ordCfg : ConfigFile :=
  ⟨[⟨1, "p", "1.0.0", ["src/f"], []⟩], [("feat", Size.Minor)]⟩

/-- The as-of config is constant in the counterexample. -/
def ordSlices : Slices := fun _ => ordCfg

/-- A commit with oid X touching the covered file. -/
def ordCommit : CommitInfoBuf := ⟨"X", "feat", "feat: x", ["src/f"]⟩

/-- First of two distinct PRs that closed at the same instant and share
commit X. -/
def ordPrA : FullPr := ⟨1, 5, [ordCommit]⟩

/-- Second PR of the tie. -/
def ordPrB : FullPr := ⟨2, 5, [ordCommit]⟩

/- ===================== theorems ======================================== -/

theorem Size.le_refl (a : Size) : Size.le a a := Nat.le_refl _

theorem Size.le_trans {a b c : Size} (h1 : Size.le a b) (h2 : Size.le b c) :
    Size.le a c := Nat.le_trans h1 h2

theorem Size.max_comm (a b : Size) : Size.max a b = Size.max b a := by
  revert a b; decide

theorem Size.max_assoc (a b c : Size) :
    Size.max (Size.max a b) c = Size.max a (Size.max b c) := by
  revert a b c; decide

theorem Size.le_max_left (a b : Size) : Size.le a (Size.max a b) := by
  revert a b; decide

theorem Size.le_max_right (a b : Size) : Size.le b (Size.max a b) := by
  revert a b; decide

theorem Size.max_le_iff (a b c : Size) :
    Size.le (Size.max a b) c ↔ Size.le a c ∧ Size.le b c := by
  revert a b c; decide

theorem Size.le_of_max_eq (a b : Size) (h : Size.max a b = b) : Size.le a b := by
  revert a b h; decide

theorem alookup_setEntry_self {β : Type} (m : List (Nat × β)) (k : Nat) (v : β) :
    alookup (setEntry m k v) k = some v := by
  induction m with
  | nil => simp [setEntry, alookup]
  | cons e t ih =>
    by_cases h : e.1 = k
    · simp [setEntry, h, alookup]
    · simp [setEntry, h, alookup, ih]

theorem alookup_setEntry_ne {β : Type} (m : List (Nat × β)) (k k' : Nat) (v : β)
    (h : k ≠ k') : alookup (setEntry m k v) k' = alookup m k' := by
  induction m with
  | nil => simp [setEntry, alookup, h]
  | cons e t ih =>
    by_cases he : e.1 = k
    · simp [setEntry, he, alookup, h]
    · simp [setEntry, he, alookup, ih]

theorem alookup_modEntry_self {β : Type} (m : List (Nat × β)) (k : Nat) (d : β)
    (f : β → β) :
    alookup (modEntry m k d f) k = some (f ((alookup m k).getD d)) := by
  induction m with
  | nil => simp [modEntry, alookup]
  | cons e t ih =>
    by_cases h : e.1 = k
    · simp [modEntry, h, alookup]
    · simp [modEntry, h, alookup, ih]

theorem alookup_modEntry_ne {β : Type} (m : List (Nat × β)) (k k' : Nat) (d : β)
    (f : β → β) (h : k ≠ k') : alookup (modEntry m k d f) k' = alookup m k' := by
  induction m with
  | nil => simp [modEntry, alookup, h]
  | cons e t ih =>
    by_cases he : e.1 = k
    · simp [modEntry, he, alookup, h]
    · simp [modEntry, he, alookup, ih]

/-- A non-empty list has a false `isEmpty`. -/
theorem isEmpty_false_of_ne_nil {α : Type} {l : List α} (h : l ≠ []) :
    l.isEmpty = false := by
  cases l with
  | nil => exact absurd rfl h
  | cons a t => rfl

/-- C7: in `run`, for a planned project whose size is not Empty and whose
previous version exists, with `target = size.apply(prev_vers)`: when
`curt_vers` is semver-less-than `target` the restrictions are verified
against `target` and a mark rewrite to `target` is staged (and no anchor-tag
forward happens); otherwise the restrictions are verified against
`curt_vers`, no rewrite is staged, and the anchor tag is forwarded to
`curt_vers`. -/
theorem run_update_policy (s : Size) (pv cv : Version) (hne : s ≠ Size.Empty) :
    (semverLess cv (s.apply pv) = true →
      runProject s (some pv) cv =
        { verified := some (s.apply pv), staged := some (s.apply pv),
          forwarded := Option.none }) ∧
    (semverLess cv (s.apply pv) = false →
      runProject s (some pv) cv =
        { verified := some cv, staged := Option.none, forwarded := some cv }) := by
  constructor <;> intro h <;> simp [runProject, hne, h]

/-- Witness for `run_update_policy` at size Patch, previous 1.2.0, current
1.2.0 (so the computed target 1.2.1 is ahead of the current version). -/
theorem run_update_policy_app :
    Size.Patch ≠ Size.Empty ∧
    semverLess (1, 2, 0) (Size.apply Size.Patch (1, 2, 0)) = true ∧
    runProject Size.Patch (some (1, 2, 0)) (1, 2, 0) =
      { verified := some (1, 2, 1), staged := some (1, 2, 1),
        forwarded := Option.none } :=
  ⟨by decide, by decide,
    (run_update_policy Size.Patch (1, 2, 0) (1, 2, 0) (by decide)).1 (by decide)⟩

/-- C9: the merge step after a fetch updates the local branch only on a
fast-forward analysis; a normal-merge analysis fails with an explicit error
(no merge commit is ever created), and any other analysis (up to date,
unborn, none) leaves the repository unchanged. -/
theorem merge_ff_only (a : MergeAnalysis) (br oid : String) (st : GitState) :
    (a.fastForward = false → a.normal = true →
      doMerge a br oid st = .error MergeErr.notFastForward) ∧
    (a.fastForward = false → a.normal = false → doMerge a br oid st = .ok st) ∧
    (∀ st', doMerge a br oid st = .ok st' → st' ≠ st → a.fastForward = true) := by
  refine ⟨?_, ?_, ?_⟩
  · intro h1 h2; simp [doMerge, h1, h2]
  · intro h1 h2; simp [doMerge, h1, h2]
  · intro st' hok hne
    by_cases hff : a.fastForward = true
    · exact hff
    · rw [Bool.not_eq_true] at hff
      by_cases hn : a.normal = true
      · simp [doMerge, hff, hn] at hok
      · rw [Bool.not_eq_true] at hn
        simp [doMerge, hff, hn] at hok
        exact absurd hok.symm hne

/-- Witness for `merge_ff_only`: a normal (non-fast-forward) analysis is
rejected. -/
theorem merge_ff_only_app :
    doMerge { fastForward := false, normal := true } "main" "abc"
      { refs := [ ("refs/heads/main", "old") ], head := "refs/heads/main" } =
      .error MergeErr.notFastForward :=
  (merge_ff_only { fastForward := false, normal := true } "main" "abc"
    { refs := [ ("refs/heads/main", "old") ], head := "refs/heads/main" }).1 rfl rfl

/-- C10: `get` with neither --id nor --name prints the sole project's line
exactly when the configuration has exactly one project; otherwise it fails
with the diagnostic string and writes no project output (the model returns
an error and no lines). -/
theorem get_solo_project (cfg : ConfigFile) :
    (∀ p, cfg.projects = [p] →
      getUsingCfg cfg Option.none Option.none = .ok [ProjLine.fromProject p]) ∧
    (cfg.projects.length ≠ 1 →
      getUsingCfg cfg Option.none Option.none = .error "No solo project.") := by
  constructor
  · intro p hp
    simp [getUsingCfg, hp, getProject]
  · intro h
    simp [getUsingCfg, h]

/-- Witness for `get_solo_project`: a one-project configuration prints that
project; with that project duplicated, the command fails. -/
theorem get_solo_project_app :
    getUsingCfg
      { projects := [ { id := 1, name := "p", version := "1.0.0", covers := [],
                        depends := [] } ], sizes := [] }
      Option.none Option.none =
      .ok [ { id := 1, name := "p", version := "1.0.0" } ] ∧
    getUsingCfg { projects := [], sizes := [] } Option.none Option.none =
      .error "No solo project." :=
  ⟨(get_solo_project _).1
      { id := 1, name := "p", version := "1.0.0", covers := [], depends := [] } rfl,
    (get_solo_project _).2 (by decide)⟩

/- ===================== theorems: C8, C4 ================================= -/


/-- A project key not in the drained list keeps its incrs entry through the
finish_pr drain loop. -/
theorem finishPrFold_untouched (drained : List (Nat × LoggedPr)) :
    ∀ (st : (List (Nat × (Size × ChangeLog))) × Bool) (pid : Nat),
      pid ∉ drained.map Prod.fst →
      alookup (drained.foldl finishPrStep st).1 pid = alookup st.1 pid := by
  induction drained with
  | nil => intro st pid _; rfl
  | cons e rest ih =>
    intro st pid hpid
    simp only [List.map_cons, List.mem_cons] at hpid
    push_neg at hpid
    rw [List.foldl_cons, ih _ pid hpid.2]
    unfold finishPrStep
    cases hm : maxApplying e.2.commits with
    | none => exact alookup_modEntry_ne _ _ _ _ _ (fun h => hpid.1 h.symm)
    | some s => exact alookup_modEntry_ne _ _ _ _ _ (fun h => hpid.1 h.symm)

/-- A drained project's incrs entry after the finish_pr drain loop: when
some tentative commit applies, the size is maxed with the PR size and the
logged PR is appended; otherwise only `or_insert` runs. -/
theorem finishPrFold_hit (drained : List (Nat × LoggedPr)) :
    ∀ (st : (List (Nat × (Size × ChangeLog))) × Bool) (pid : Nat) (lp : LoggedPr),
      (pid, lp) ∈ drained → (drained.map Prod.fst).Nodup →
      alookup (drained.foldl finishPrStep st).1 pid =
        some (match maxApplying lp.commits with
              | some s =>
                (Size.max ((alookup st.1 pid).getD (Size.None, [])).1 s,
                 ((alookup st.1 pid).getD (Size.None, [])).2 ++ [(lp, s)])
              | Option.none => (alookup st.1 pid).getD (Size.None, [])) := by
  induction drained with
  | nil => intro st pid lp hmem; exact absurd hmem (List.not_mem_nil _)
  | cons e rest ih =>
    intro st pid lp hmem hnd
    simp only [List.map_cons, List.nodup_cons] at hnd
    rcases List.mem_cons.mp hmem with heq | hmem2
    · subst heq
      rw [List.foldl_cons, finishPrFold_untouched rest _ pid hnd.1]
      unfold finishPrStep
      cases hm : maxApplying lp.commits with
      | none => simp [alookup_modEntry_self]
      | some s => simp [alookup_modEntry_self]
    · have hne : e.1 ≠ pid := by
        intro h
        exact hnd.1 (h ▸ List.mem_map_of_mem Prod.fst hmem2)
      rw [List.foldl_cons]
      have hst : alookup (finishPrStep st e).1 pid = alookup st.1 pid := by
        unfold finishPrStep
        cases hm : maxApplying e.2.commits with
        | none => exact alookup_modEntry_ne _ _ _ _ _ hne
        | some s => exact alookup_modEntry_ne _ _ _ _ _ hne
      rw [ih _ pid lp hmem2 hnd.2, hst]

/-- The found flag after the drain loop: true iff some drained project had
an applying commit (or the flag was already set). -/
theorem finishPrFold_found (drained : List (Nat × LoggedPr)) :
    ∀ (st : (List (Nat × (Size × ChangeLog))) × Bool),
      (drained.foldl finishPrStep st).2 =
        (st.2 || drained.any (fun e => (maxApplying e.2.commits).isSome)) := by
  induction drained with
  | nil => intro st; simp
  | cons e rest ih =>
    intro st
    rw [List.foldl_cons, ih]
    unfold finishPrStep
    cases hm : maxApplying e.2.commits with
    | none => simp [List.any_cons, hm]
    | some s => simp [List.any_cons, hm]

/-- All contribution sizes are empty iff no project saw an applying commit. -/
theorem all_isNone_eq_not_any_isSome (l : List (Nat × LoggedPr)) :
    (l.all (fun e => (maxApplying e.2.commits).isNone)) =
      !(l.any (fun e => (maxApplying e.2.commits).isSome)) := by
  induction l with
  | nil => rfl
  | cons e t ih =>
    cases h : maxApplying e.2.commits <;>
      simp [List.all_cons, List.any_cons, h, ih]

/-- C1: when finish_pr runs, each current project's PR contribution size is
the maximum commit size over its applying tentative commits (this is
`maxApplying`); when at least one commit applies, the project's running
incrs size becomes the max of its existing size and the PR size and the
logged PR is appended to the project's change log with that size (with no
applying commit, only the `or_insert` default materializes); and the logged
PR is appended to the plan's ineffective list exactly when no project had
any applying commit. -/
theorem finish_pr_rollup (b : PlanBuilder) (pr0 : LoggedPr)
    (hin : b.onIneffective = some pr0)
    (hnd : (b.onPrSizes.map Prod.fst).Nodup) :
    ∃ b1, finishPr b = .ok b1 ∧
      (∀ pid lp, (pid, lp) ∈ b.onPrSizes →
        ((∀ s, maxApplying lp.commits = some s →
            alookup b1.incrs pid =
              some (Size.max (sizeAt b.incrs pid) s,
                    logAt b.incrs pid ++ [(lp, s)])) ∧
         (maxApplying lp.commits = Option.none →
            alookup b1.incrs pid =
              some (sizeAt b.incrs pid, logAt b.incrs pid)))) ∧
      (b1.ineffective =
        if b.onPrSizes.all (fun e => (maxApplying e.2.commits).isNone)
        then b.ineffective ++ [pr0] else b.ineffective) := by
  unfold finishPr
  rw [hin]
  refine ⟨_, rfl, ?_, ?_⟩
  · intro pid lp hmem
    constructor
    · intro s hs
      have h := finishPrFold_hit b.onPrSizes (b.incrs, false) pid lp hmem hnd
      rw [hs] at h
      simpa [finishPrFold, sizeAt, logAt] using h
    · intro hs
      have h := finishPrFold_hit b.onPrSizes (b.incrs, false) pid lp hmem hnd
      rw [hs] at h
      simpa [finishPrFold, sizeAt, logAt] using h
  · have hflag := finishPrFold_found b.onPrSizes (b.incrs, false)
    rw [Bool.false_or] at hflag
    rw [all_isNone_eq_not_any_isSome]
    cases hany : b.onPrSizes.any (fun e => (maxApplying e.2.commits).isSome) with
    | false => simp [finishPrFold, hflag, hany]
    | true => simp [finishPrFold, hflag, hany]

/-- Witness for `finish_pr_rollup`: one project with a single applying Patch
commit; its incrs entry becomes Patch with the PR logged, and the PR is not
ineffective. -/
theorem finish_pr_rollup_app :
    ∃ b1,
      finishPr ⟨[ (1, ⟨7, 0, [ ⟨"X", "m", Size.Patch, true, false⟩ ]⟩) ],
          some ⟨7, 0, []⟩, Option.none, Option.none, [], []⟩ = .ok b1 ∧
      alookup b1.incrs 1 =
        some (Size.Patch,
          [ (⟨7, 0, [ ⟨"X", "m", Size.Patch, true, false⟩ ]⟩, Size.Patch) ]) ∧
      b1.ineffective = [] := by
  obtain ⟨b1, hok, hmain, hineff⟩ :=
    finish_pr_rollup
      ⟨[ (1, ⟨7, 0, [ ⟨"X", "m", Size.Patch, true, false⟩ ]⟩) ],
        some ⟨7, 0, []⟩, Option.none, Option.none, [], []⟩
      ⟨7, 0, []⟩ rfl (by decide)
  refine ⟨b1, hok, ?_, ?_⟩
  · have h := (hmain 1 _ (List.mem_singleton.mpr rfl)).1 Size.Patch (by decide)
    simpa [sizeAt, logAt, alookup] using h
  · simpa using hineff

/-- C5 counterexample: `start_commit` outside any start_pr/finish_pr pair
succeeds (the code performs no protocol check there), and `start_file` after
a finish_commit — outside a start_commit/finish_commit pair — also succeeds,
because finish_commit does not clear `on_commit`. -/
theorem plan_protocol_counterexample :
    isOkE (startCommit
      ⟨[ ⟨1, "p", "1.0.0", [ "f" ], []⟩ ], [ ("fix", Size.Patch) ]⟩
      (fun _ => ⟨[ ⟨1, "p", "1.0.0", [ "f" ], []⟩ ], [ ("fix", Size.Patch) ]⟩)
      ⟨"X", "fix", "m", [ "f" ]⟩
      PlanBuilder.create) = true ∧
    isOkE ((startCommit
      ⟨[ ⟨1, "p", "1.0.0", [ "f" ], []⟩ ], [ ("fix", Size.Patch) ]⟩
      (fun _ => ⟨[ ⟨1, "p", "1.0.0", [ "f" ], []⟩ ], [ ("fix", Size.Patch) ]⟩)
      ⟨"X", "fix", "m", [ "f" ]⟩
      (startPr
        ⟨[ ⟨1, "p", "1.0.0", [ "f" ], []⟩ ], [ ("fix", Size.Patch) ]⟩
        ⟨7, 0, []⟩
        PlanBuilder.create)).bind
      (fun b2 => startFile (finishCommit b2) "f")) = true := by
  constructor
  · rfl
  · rfl

/-- C3 counterexample: one PR whose commit X touches a path covered by two
current projects; after sort_and_dedup the built plan logs X with
included = true in two different LoggedPr entries (one per project), because
the seen-oid set of sort_and_dedup is reset for every project rather than
being global to the plan. -/
theorem dedup_not_global_counterexample :
    planIncludedCount
      (buildPlanList
        ⟨[ ⟨1, "p1", "1.0.0", [ "f" ], []⟩, ⟨2, "p2", "1.0.0", [ "f", "g" ], []⟩ ],
          [ ("fix", Size.Patch) ]⟩
        (fun _ =>
          ⟨[ ⟨1, "p1", "1.0.0", [ "f" ], []⟩,
             ⟨2, "p2", "1.0.0", [ "f", "g" ], []⟩ ], [ ("fix", Size.Patch) ]⟩)
        [ ⟨7, 0, [ ⟨"X", "fix", "sx", [ "f" ]⟩, ⟨"Y", "fix", "sy", [ "g" ]⟩ ]⟩ ])
      "X" = 2 := by
  rfl

/-- The seen set only grows through the commit-marking loop. -/
theorem markCommits_seen_mono (cs : List LoggedCommit) :
    ∀ (seen : List String) (o : String), o ∈ seen → o ∈ (markCommits seen cs).2 := by
  induction cs with
  | nil => intro seen o h; exact h
  | cons c t ih =>
    intro seen o h
    by_cases hc : c.oid ∈ seen
    · simpa [markCommits, hc] using ih _ o h
    · simpa [markCommits, hc] using ih _ o (List.mem_cons_of_mem _ h)

/-- Every oid occurring among the marked commits is in the outgoing seen
set. -/
theorem markCommits_oid_mem (cs : List LoggedCommit) :
    ∀ (seen : List String) (c1 : LoggedCommit),
      c1 ∈ (markCommits seen cs).1 → c1.oid ∈ (markCommits seen cs).2 := by
  induction cs with
  | nil => intro seen c1 h; simp [markCommits] at h
  | cons c t ih =>
    intro seen c1 h
    by_cases hc : c.oid ∈ seen
    · simp only [markCommits, hc, if_pos, List.elem_eq_true_of_mem,
        if_true] at h ⊢
      rcases List.mem_cons.mp h with he | ht
      · subst he
        exact markCommits_seen_mono t seen c.oid hc
      · exact ih seen c1 ht
    · have hcf : seen.contains c.oid = false := by
        cases hcc : seen.contains c.oid with
        | false => rfl
        | true => exact absurd (List.mem_of_elem_eq_true hcc) hc
      simp only [markCommits, hcf, Bool.false_eq_true, if_false] at h ⊢
      rcases List.mem_cons.mp h with he | ht
      · rw [he]
        exact markCommits_seen_mono t _ c.oid (List.mem_cons_self _ _)
      · exact ih _ c1 ht

/-- A commit whose oid was already seen leaves the marking loop with its
duplicate flag set. -/
theorem markCommits_dup_of_seen (cs : List LoggedCommit) :
    ∀ (seen : List String) (o : String), o ∈ seen →
      ∀ c1 ∈ (markCommits seen cs).1, c1.oid = o → c1.duplicate = true := by
  induction cs with
  | nil => intro seen o ho c1 h; simp [markCommits] at h
  | cons c t ih =>
    intro seen o ho c1 h hoid
    by_cases hc : c.oid ∈ seen
    · simp only [markCommits, hc, if_pos, List.elem_eq_true_of_mem,
        if_true] at h
      rcases List.mem_cons.mp h with he | ht
      · subst he; rfl
      · exact ih seen o ho c1 ht hoid
    · have hcf : seen.contains c.oid = false := by
        cases hcc : seen.contains c.oid with
        | false => rfl
        | true => exact absurd (List.mem_of_elem_eq_true hcc) hc
      simp only [markCommits, hcf, Bool.false_eq_true, if_false] at h
      rcases List.mem_cons.mp h with he | ht
      · subst he
        exact absurd (hoid ▸ ho) hc
      · exact ih _ o (List.mem_cons_of_mem _ ho) c1 ht hoid

/-- Unfolding of the per-entry included count. -/
theorem countIncludedEntries_cons (e : LoggedPr × Size) (t : ChangeLog)
    (o : String) :
    countIncludedEntries (e :: t) o =
      (if e.1.commits.any (fun c => c.oid == o && c.included) then 1 else 0) +
        countIncludedEntries t o := by
  by_cases h : e.1.commits.any (fun c => c.oid == o && c.included) <;>
    simp [countIncludedEntries, List.filter_cons, h, Nat.add_comm]

/-- Once an oid is in the seen set, no later entry of the dedup walk logs it
as included. -/
theorem dedupEntries_count_zero (l : ChangeLog) :
    ∀ (seen : List String) (o : String), o ∈ seen →
      countIncludedEntries (dedupEntries seen l) o = 0 := by
  induction l with
  | nil => intro seen o _; rfl
  | cons e t ih =>
    intro seen o ho
    simp only [dedupEntries]
    rw [countIncludedEntries_cons]
    have hpred : ((markCommits seen e.1.commits).1.any
        (fun c => c.oid == o && c.included)) = false := by
      rw [List.any_eq_false]
      intro c hc
      by_cases hoid : c.oid = o
      · have hdup := markCommits_dup_of_seen e.1.commits seen o ho c hc hoid
        simp [LoggedCommit.included, hdup]
      · simp [hoid]
    simp only [hpred, Bool.false_eq_true, if_false, Nat.zero_add]
    exact ih _ o (markCommits_seen_mono e.1.commits seen o ho)

/-- Along one project's dedup walk, an oid is logged as included in at most
one entry. -/
theorem dedupEntries_count_le_one (l : ChangeLog) :
    ∀ (seen : List String) (o : String),
      countIncludedEntries (dedupEntries seen l) o ≤ 1 := by
  induction l with
  | nil => intro seen o; exact Nat.zero_le _
  | cons e t ih =>
    intro seen o
    simp only [dedupEntries]
    rw [countIncludedEntries_cons]
    by_cases hpred : ((markCommits seen e.1.commits).1.any
        (fun c => c.oid == o && c.included)) = true
    · rw [if_pos hpred]
      obtain ⟨c, hc, hp⟩ := List.any_eq_true.mp hpred
      rw [Bool.and_eq_true, beq_iff_eq] at hp
      have hmem : o ∈ (markCommits seen e.1.commits).2 :=
        hp.1 ▸ markCommits_oid_mem e.1.commits seen c hc
      rw [dedupEntries_count_zero t _ o hmem]
    · rw [if_neg hpred, Nat.zero_add]
      exact ih _ o

/-- Mapping the values of an association list commutes with lookup. -/
theorem alookup_map_val {β γ : Type} (m : List (Nat × β)) (f : β → γ) :
    ∀ k, alookup (m.map (fun e => (e.1, f e.2))) k = (alookup m k).map f := by
  induction m with
  | nil => intro k; rfl
  | cons e t ih =>
    intro k
    by_cases h : e.1 = k <;> simp [alookup, h, ih]

/-- C3 (amended): within each project's change log of a built plan, every
commit oid appears with included = true in at most one LoggedPr: the dedup
walk visits that project's entries in closed-at-sorted order with a
per-project seen-oid set, marking every occurrence after the first as
duplicate. -/
theorem sort_and_dedup_per_project_unique
    (incrs : List (Nat × (Size × ChangeLog))) (pid : Nat) (oid : String) :
    countIncludedEntries (logAt (sortAndDedup incrs) pid) oid ≤ 1 := by
  unfold sortAndDedup logAt
  rw [alookup_map_val incrs
    (fun v => (v.1, dedupEntries [] (List.insertionSort logLe v.2)))]
  cases h : alookup incrs pid with
  | none => exact Nat.zero_le _
  | some v =>
    exact dedupEntries_count_le_one _ [] oid

/-- Scanning a chain of start tags that spell out the pending parts consumes
those parts. -/
theorem scanXmlLoop_chain (pre : List String) :
    ∀ (b : Bool) (post : List String) (toks : List XmlToken),
      scanXmlLoop (pre ++ post) 0 (b || (pre ++ post).isEmpty)
        (pre.map XmlToken.elemStart ++ toks) =
      scanXmlLoop post 0 (b || post.isEmpty) toks := by
  induction pre with
  | nil => intro b post toks; simp
  | cons p pre ih =>
    intro b post toks
    simp only [List.cons_append, List.map_cons]
    rw [scanXmlLoop]
    simp only [List.head?_cons, isMatchStr, beq_self_eq_true, Bool.and_true,
      Bool.and_self, List.isEmpty_cons, Bool.or_false, List.tail_cons, if_true]
    exact ih b post toks

/-- Once the chain is complete, any further start tags only deepen the
ignored-subtree counter, and the first text token is returned. -/
theorem scanXmlLoop_target (js : List String) :
    ∀ (extra : Nat) (v : String) (off : Nat) (rest : List XmlToken),
      scanXmlLoop [] extra true (js.map XmlToken.elemStart ++
        XmlToken.text v off :: rest) = .ok { value := v, start := off } := by
  induction js with
  | nil =>
    intro extra v off rest
    simp only [List.map_nil, List.nil_append]
    rw [scanXmlLoop]
    simp
  | cons j js ih =>
    intro extra v off rest
    simp only [List.map_cons, List.cons_append]
    rw [scanXmlLoop]
    simp only [List.head?_nil]
    rw [if_neg]
    · exact ih (extra + 1) v off rest
    · simp [isMatchStr]

/-- C8 (amended): for a non-empty dotted path matched as a chain of element
nestings, scan_xml returns the first text token encountered once the chain
is complete — which may lie inside a deeper unmatched element, not
necessarily the terminal element's own text node — with that text's starting
byte offset; if the stream ends, or an element closes at chain depth, before
the chain completes, scan fails reporting the remaining unmatched parts. -/
theorem scan_xml_first_text_after_chain :
    (∀ (ps js : List String) (v : String) (off : Nat) (rest : List XmlToken),
      ps ≠ [] →
      scanXml ps (ps.map XmlToken.elemStart ++ js.map XmlToken.elemStart ++
        XmlToken.text v off :: rest) = .ok { value := v, start := off }) ∧
    (∀ (pre post : List String), post ≠ [] →
      scanXml (pre ++ post) (pre.map XmlToken.elemStart) =
        .error (XmlErr.notFound post)) ∧
    (∀ (pre post : List String) (rest : List XmlToken), post ≠ [] →
      scanXml (pre ++ post) (pre.map XmlToken.elemStart ++
        XmlToken.elemEndClose :: rest) = .error (XmlErr.notFound post)) := by
  refine ⟨?_, ?_, ?_⟩
  · intro ps js v off rest hne
    have hpe := isEmpty_false_of_ne_nil hne
    have hplay := scanXmlLoop_chain ps false []
      (js.map XmlToken.elemStart ++ XmlToken.text v off :: rest)
    rw [List.append_nil, hpe, Bool.or_false] at hplay
    simp only [List.isEmpty_nil, Bool.or_true] at hplay
    unfold scanXml
    rw [if_neg (by simp [hpe]), List.append_assoc, hplay, scanXmlLoop_target]
  · intro pre post hne
    have h0 : (pre ++ post).isEmpty = false :=
      isEmpty_false_of_ne_nil (fun h => hne (List.append_eq_nil.mp h).2)
    have hplay := scanXmlLoop_chain pre false post []
    rw [h0, Bool.or_false] at hplay
    unfold scanXml
    rw [if_neg (by simp [h0]), ← List.append_nil (List.map XmlToken.elemStart pre),
      hplay, scanXmlLoop]
  · intro pre post rest hne
    have h0 : (pre ++ post).isEmpty = false :=
      isEmpty_false_of_ne_nil (fun h => hne (List.append_eq_nil.mp h).2)
    have hplay := scanXmlLoop_chain pre false post (XmlToken.elemEndClose :: rest)
    rw [h0, Bool.or_false] at hplay
    unfold scanXml
    rw [if_neg (by simp [h0]), hplay]
    rw [scanXmlLoop]
    simp

/-- Witness for `scan_xml_first_text_after_chain` on a concrete document. -/
theorem scan_xml_first_text_after_chain_app :
    scanXml ["a"] ([XmlToken.elemStart "a", XmlToken.elemStart "b",
      XmlToken.text "x" 6]) = .ok { value := "x", start := 6 } ∧
    scanXml ["a", "c"] [XmlToken.elemStart "a"] =
      .error (XmlErr.notFound ["c"]) ∧
    scanXml ["a", "c"] [XmlToken.elemStart "a", XmlToken.elemEndClose] =
      .error (XmlErr.notFound ["c"]) :=
  ⟨scan_xml_first_text_after_chain.1 ["a"] ["b"] "x" 6 [] (by decide),
   scan_xml_first_text_after_chain.2.1 ["a"] ["c"] (by decide),
   scan_xml_first_text_after_chain.2.2 ["a"] ["c"] [] (by decide)⟩

/-- C8 counterexample: on the document `<a><b>x</b>y</a>` with path `a`, the
path matches the chain consisting of the single element `a`, whose own text
node is `y` at offset 10; but scan_xml returns the text `x` at offset 6 that
sits inside the nested (unmatched) element `b`. -/
theorem scan_xml_counterexample :
    scanXml ["a"] [XmlToken.elemStart "a", XmlToken.elemStart "b",
      XmlToken.text "x" 6, XmlToken.elemEndClose, XmlToken.text "y" 10,
      XmlToken.elemEndClose] = .ok { value := "x", start := 6 } ∧
    scanXml ["a"] [XmlToken.elemStart "a", XmlToken.elemStart "b",
      XmlToken.text "x" 6, XmlToken.elemEndClose, XmlToken.text "y" 10,
      XmlToken.elemEndClose] ≠ .ok { value := "y", start := 10 } := by
  constructor
  · rfl
  · decide

/-- C4: with the line commits supplied newest first (the spec's walk order
for `line_commits_head`), `find_last_commits` records the OLDEST covering
commit for a project, because `HashMap::insert` overwrites the entry written
by the more recent commit: here the newer commit C2 and the older commit C1
both touch the covered path `f`, and the index maps the project to C1. -/
theorem find_last_commits_oldest_wins :
    findLastCommits
      { projects := [ { id := 1, name := "p", version := "1.0.0",
                        covers := [ "f" ], depends := [] } ], sizes := [] }
      (fun _ =>
        { projects := [ { id := 1, name := "p", version := "1.0.0",
                          covers := [ "f" ], depends := [] } ], sizes := [] })
      [ { id := "C2", kind := "fix", summary := "newer", files := [ "f" ] },
        { id := "C1", kind := "fix", summary := "older", files := [ "f" ] } ] =
      [ (1, "C1") ] ∧
    alookup
      (findLastCommits
        { projects := [ { id := 1, name := "p", version := "1.0.0",
                          covers := [ "f" ], depends := [] } ], sizes := [] }
        (fun _ =>
          { projects := [ { id := 1, name := "p", version := "1.0.0",
                            covers := [ "f" ], depends := [] } ], sizes := [] })
        [ { id := "C2", kind := "fix", summary := "newer", files := [ "f" ] },
          { id := "C1", kind := "fix", summary := "older", files := [ "f" ] } ])
      1 ≠ some "C2" := by
  constructor
  · rfl
  · decide

/-- A successful lookup exhibits a member of the association list. -/
theorem alookup_mem {β : Type} (m : List (Nat × β)) (k : Nat) (v : β)
    (h : alookup m k = some v) : (k, v) ∈ m := by
  induction m with
  | nil => simp [alookup] at h
  | cons e t ih =>
    by_cases he : e.1 = k
    · rw [alookup, if_pos he] at h
      have hv : e.2 = v := Option.some.inj h
      have : e = (k, v) := by cases e; simp_all
      rw [← this]
      exact List.mem_cons_self _ _
    · rw [alookup, if_neg he] at h
      exact List.mem_cons_of_mem _ (ih h)

/-- Members of an overwritten association list. -/
theorem mem_setEntry {β : Type} (m : List (Nat × β)) (k : Nat) (v : β)
    (e : Nat × β) (h : e ∈ setEntry m k v) : e = (k, v) ∨ e ∈ m := by
  induction m with
  | nil => simp [setEntry] at h; left; exact h
  | cons f t ih =>
    by_cases hf : f.1 = k
    · rw [setEntry, if_pos hf] at h
      rcases List.mem_cons.mp h with he | ht
      · exact Or.inl he
      · exact Or.inr (List.mem_cons_of_mem _ ht)
    · rw [setEntry, if_neg hf] at h
      rcases List.mem_cons.mp h with he | ht
      · exact Or.inr (he ▸ List.mem_cons_self _ _)
      · rcases ih ht with h1 | h2
        · exact Or.inl h1
        · exact Or.inr (List.mem_cons_of_mem _ h2)

/-- Overwriting a present key preserves the key list. -/
theorem map_fst_setEntry {β : Type} (m : List (Nat × β)) (k : Nat) (v v0 : β)
    (h : alookup m k = some v0) :
    (setEntry m k v).map Prod.fst = m.map Prod.fst := by
  induction m with
  | nil => simp [alookup] at h
  | cons f t ih =>
    by_cases hf : f.1 = k
    · rw [setEntry, if_pos hf]
      simp [hf]
    · rw [alookup, if_neg hf] at h
      rw [setEntry, if_neg hf]
      simp [ih h]

/-- `setApplies` returns a commit list with the same oids. -/
theorem setApplies_oids (oid : String) (cs : List LoggedCommit) :
    ∀ cs1, setApplies oid cs = some cs1 →
      cs1.map (fun c => c.oid) = cs.map (fun c => c.oid) := by
  induction cs with
  | nil => intro cs1 h; simp [setApplies] at h
  | cons c t ih =>
    intro cs1 h
    by_cases hc : c.oid = oid
    · rw [setApplies, if_pos hc] at h
      rw [← Option.some.inj h]
      simp
    · rw [setApplies, if_neg hc] at h
      rcases Option.map_eq_some'.mp h with ⟨t1, ht1, hcs⟩
      rw [← hcs]
      simp [ih t1 ht1]

/-- `setApplies` succeeds when some commit carries the oid. -/
theorem setApplies_some (oid : String) (cs : List LoggedCommit)
    (h : ∃ x ∈ cs, x.oid = oid) : ∃ cs1, setApplies oid cs = some cs1 := by
  induction cs with
  | nil => simp at h
  | cons c t ih =>
    by_cases hc : c.oid = oid
    · exact ⟨_, by rw [setApplies, if_pos hc]⟩
    · rcases h with ⟨x, hx, hxo⟩
      rcases List.mem_cons.mp hx with he | ht
      · exact absurd (he ▸ hxo) hc
      · rcases ih ⟨x, ht, hxo⟩ with ⟨t1, ht1⟩
        exact ⟨c :: t1, by rw [setApplies, if_neg hc, ht1]; rfl⟩

/-- `pushCommit` preserves the key. -/
theorem pushCommit_fst (cfg : ConfigFile) (c : CommitInfoBuf) (e : Nat × LoggedPr) :
    (pushCommit cfg c e).1 = e.1 := by
  cases h : getProject cfg e.1 <;> simp [pushCommit, h]

/-- `pushCommit` preserves the closed-at stamp. -/
theorem pushCommit_closedAt (cfg : ConfigFile) (c : CommitInfoBuf) (e : Nat × LoggedPr) :
    (pushCommit cfg c e).2.closedAt = e.2.closedAt := by
  cases h : getProject cfg e.1 <;> simp [pushCommit, h]

/-- Pushing tentative commits preserves the key list. -/
theorem map_fst_pushCommits (cfg : ConfigFile) (c : CommitInfoBuf)
    (ops : List (Nat × LoggedPr)) :
    (ops.map (pushCommit cfg c)).map Prod.fst = ops.map Prod.fst := by
  induction ops with
  | nil => rfl
  | cons e t ih => simp [pushCommit_fst, ih]

/-- One pure file step preserves the key list. -/
theorem map_fst_fileStepP (oid path : String) (acc : List (Nat × LoggedPr))
    (q : Project) : (fileStepP oid path acc q).map Prod.fst = acc.map Prod.fst := by
  unfold fileStepP
  cases h : alookup acc q.id with
  | none => rfl
  | some lp =>
    by_cases hcov : q.doesCover path
    · simp only [hcov, if_true]
      cases hs : setApplies oid lp.commits with
      | none => rfl
      | some cs => exact map_fst_setEntry acc q.id _ lp h
    · simp [hcov]

/-- The pure file loop preserves the key list. -/
theorem map_fst_fileFold (oid : String) (qs : List Project) :
    ∀ (path : String) (ops : List (Nat × LoggedPr)),
      (qs.foldl (fileStepP oid path) ops).map Prod.fst = ops.map Prod.fst := by
  induction qs with
  | nil => intro path ops; rfl
  | cons q t ih =>
    intro path ops
    rw [List.foldl_cons, ih path, map_fst_fileStepP]

/-- One pure file step relates every output entry to an input entry with the
same key, closed-at stamp and commit oids. -/
theorem fileStepP_entries (oid path : String) (acc : List (Nat × LoggedPr))
    (q : Project) (e : Nat × LoggedPr) (h : e ∈ fileStepP oid path acc q) :
    ∃ e1 ∈ acc, e.1 = e1.1 ∧ e.2.closedAt = e1.2.closedAt ∧
      e.2.commits.map (fun c => c.oid) = e1.2.commits.map (fun c => c.oid) := by
  unfold fileStepP at h
  cases hl : alookup acc q.id with
  | none =>
    rw [hl] at h
    exact ⟨e, h, rfl, rfl, rfl⟩
  | some lp =>
    rw [hl] at h
    by_cases hcov : q.doesCover path
    · simp only [hcov, if_true] at h
      cases hs : setApplies oid lp.commits with
      | none =>
        rw [hs] at h
        exact ⟨e, h, rfl, rfl, rfl⟩
      | some cs =>
        rw [hs] at h
        rcases mem_setEntry _ _ _ _ h with he | hm
        · refine ⟨(q.id, lp), alookup_mem _ _ _ hl, ?_, ?_, ?_⟩
          · rw [he]
          · rw [he]
          · rw [he]
            exact setApplies_oids oid lp.commits cs hs
        · exact ⟨e, hm, rfl, rfl, rfl⟩
    · simp only [hcov, if_false, Bool.false_eq_true] at h
      exact ⟨e, h, rfl, rfl, rfl⟩

/-- The pure file loop relates output entries to input entries with equal
key, closed-at stamp and commit oids. -/
theorem fileFold_entries (oid path : String) (qs : List Project) :
    ∀ (ops : List (Nat × LoggedPr)) (e : Nat × LoggedPr),
      e ∈ qs.foldl (fileStepP oid path) ops →
      ∃ e1 ∈ ops, e.1 = e1.1 ∧ e.2.closedAt = e1.2.closedAt ∧
        e.2.commits.map (fun c => c.oid) = e1.2.commits.map (fun c => c.oid) := by
  induction qs with
  | nil => intro ops e h; exact ⟨e, h, rfl, rfl, rfl⟩
  | cons q t ih =>
    intro ops e h
    rw [List.foldl_cons] at h
    rcases ih _ e h with ⟨e1, he1, hk, hd, ho⟩
    rcases fileStepP_entries oid path ops q e1 he1 with ⟨e2, he2, hk2, hd2, ho2⟩
    exact ⟨e2, he2, hk.trans hk2, hd.trans hd2, ho.trans ho2⟩

/-- A listed project is found by `getProject`. -/
theorem find_id_isSome (l : List Project) (p : Project) (hp : p ∈ l) :
    (l.find? (fun q => q.id == p.id)).isSome = true := by
  induction l with
  | nil => simp at hp
  | cons f t ih =>
    by_cases hf : (f.id == p.id) = true
    · simp [List.find?_cons, hf]
    · rcases List.mem_cons.mp hp with he | ht
      · rw [he] at hf; simp at hf
      · simp [List.find?_cons, hf, ih ht]

/-- `getProject` succeeds on every listed project id. -/
theorem getProject_isSome_of_mem (cfg : ConfigFile) (p : Project)
    (hp : p ∈ cfg.projects) : (getProject cfg p.id).isSome = true :=
  find_id_isSome cfg.projects p hp

/-- Key-list preservation transfers `KeysOk`. -/
theorem KeysOk_of_fst_eq (cfg : ConfigFile) (ops1 ops2 : List (Nat × LoggedPr))
    (hfst : ops2.map Prod.fst = ops1.map Prod.fst) (hk : KeysOk cfg ops1) :
    KeysOk cfg ops2 := by
  intro e he
  have : e.1 ∈ ops1.map Prod.fst := by
    rw [← hfst]; exact List.mem_map_of_mem _ he
  rcases List.mem_map.mp this with ⟨e1, he1, heq⟩
  exact heq ▸ hk e1 he1

/-- `start_pr` produces tentative PRs keyed by current projects. -/
theorem startPr_keysOk (cfg : ConfigFile) (pr : FullPr) (b : PlanBuilder) :
    KeysOk cfg (startPr cfg pr b).onPrSizes := by
  intro e he
  simp only [startPr] at he
  rcases List.mem_map.mp he with ⟨p, hp, heq⟩
  rw [← heq]
  exact getProject_isSome_of_mem cfg p hp

/-- After `start_commit`, every tentative PR carries a commit with the
current oid. -/
theorem HasOid_pushCommits (cfg : ConfigFile) (c : CommitInfoBuf)
    (ops : List (Nat × LoggedPr)) (hk : KeysOk cfg ops) :
    HasOid c.id (ops.map (pushCommit cfg c)) := by
  intro e he
  rcases List.mem_map.mp he with ⟨e1, he1, heq⟩
  have hs := hk e1 he1
  rw [← heq]
  cases hg : getProject cfg e1.1 with
  | none => rw [hg] at hs; simp at hs
  | some p =>
    simp only [pushCommit, hg]
    exact ⟨LoggedCommit.new c.id c.summary (sizeFor cfg c.kind),
      List.mem_append_right _ (List.mem_singleton.mpr rfl), rfl⟩

/-- One pure file step preserves `HasOid` (for any oid). -/
theorem HasOid_fileStepP (oid0 oid path : String) (acc : List (Nat × LoggedPr))
    (q : Project) (h : HasOid oid0 acc) : HasOid oid0 (fileStepP oid path acc q) := by
  intro e he
  rcases fileStepP_entries oid path acc q e he with ⟨e1, he1, _, _, ho⟩
  rcases h e1 he1 with ⟨x, hx, hxo⟩
  have hmem : x.oid ∈ e.2.commits.map (fun c => c.oid) := by
    rw [ho]; exact List.mem_map_of_mem _ hx
  rcases List.mem_map.mp hmem with ⟨x2, hx2, hxeq⟩
  exact ⟨x2, hx2, by rw [hxeq, hxo]⟩

/-- The pure file loop preserves `HasOid`. -/
theorem HasOid_fileFold (oid0 oid path : String) (qs : List Project) :
    ∀ acc, HasOid oid0 acc → HasOid oid0 (qs.foldl (fileStepP oid path) acc) := by
  induction qs with
  | nil => intro acc h; exact h
  | cons q t ih =>
    intro acc h
    rw [List.foldl_cons]
    exact ih _ (HasOid_fileStepP oid0 oid path acc q h)

/-- Under `HasOid`, the start_file prev-project loop succeeds and equals its
pure form. -/
theorem startFileOps_fold_ok (oid path : String) (qs : List Project) :
    ∀ ops, HasOid oid ops →
      qs.foldlM (startFileStep oid path) ops =
        .ok (qs.foldl (fileStepP oid path) ops) := by
  induction qs with
  | nil => intro ops _; rfl
  | cons q t ih =>
    intro ops h
    rw [List.foldlM_cons, List.foldl_cons]
    have hstep : startFileStep oid path ops q = .ok (fileStepP oid path ops q) := by
      unfold startFileStep fileStepP
      cases hl : alookup ops q.id with
      | none => rfl
      | some lp =>
        by_cases hcov : q.doesCover path
        · simp only [hcov, if_true]
          rcases setApplies_some oid lp.commits (h _ (alookup_mem _ _ _ hl)) with ⟨cs, hcs⟩
          rw [hcs]
          rfl
        · simp only [hcov, Bool.false_eq_true, if_false]
          rfl
    rw [hstep]
    exact ih _ (HasOid_fileStepP oid oid path ops q h)

/-- Under `HasOid`, `start_file` succeeds and applies the pure file loop. -/
theorem startFile_ok (b : PlanBuilder) (c : CommitInfoBuf) (prev : ConfigFile)
    (path : String) (hc : b.onCommit = some c) (hp : b.prevCfg = some prev)
    (h : HasOid c.id b.onPrSizes) :
    startFile b path = .ok { b with onPrSizes := fileOpsP prev c.id path b.onPrSizes } := by
  unfold startFile
  rw [hc, hp]
  show (startFileOps prev c.id path b.onPrSizes).bind _ = _
  unfold startFileOps fileOpsP
  rw [startFileOps_fold_ok c.id path prev.projects b.onPrSizes h]
  rfl

/-- The pure per-path loop of a commit preserves the key list. -/
theorem map_fst_filesFold (prev : ConfigFile) (oid : String) (paths : List String) :
    ∀ ops, ((paths.foldl (fun acc path => fileOpsP prev oid path acc) ops).map
      Prod.fst) = ops.map Prod.fst := by
  induction paths with
  | nil => intro ops; rfl
  | cons p t ih =>
    intro ops
    rw [List.foldl_cons, ih]
    exact map_fst_fileFold oid prev.projects p ops

/-- `commitOps` preserves the key list. -/
theorem map_fst_commitOps (cfg : ConfigFile) (slices : Slices)
    (c : CommitInfoBuf) (ops : List (Nat × LoggedPr)) :
    (commitOps cfg slices c ops).map Prod.fst = ops.map Prod.fst := by
  unfold commitOps
  rw [map_fst_filesFold, map_fst_pushCommits]

/-- Processing the files of one commit succeeds and equals the pure loop. -/
theorem commitFiles_ok (c : CommitInfoBuf) (prev : ConfigFile)
    (paths : List String) :
    ∀ (b : PlanBuilder), b.onCommit = some c → b.prevCfg = some prev →
      HasOid c.id b.onPrSizes →
      paths.foldlM (fun bb path => do
        let bb1 ← startFile bb path
        pure (finishFile bb1)) b =
      .ok { b with onPrSizes :=
        paths.foldl (fun acc path => fileOpsP prev c.id path acc) b.onPrSizes } := by
  induction paths with
  | nil => intro b _ _ _; rfl
  | cons p t ih =>
    intro b hc hp h
    rw [List.foldlM_cons, startFile_ok b c prev p hc hp h]
    have h2 := ih { b with onPrSizes := fileOpsP prev c.id p b.onPrSizes } hc hp
      (HasOid_fileFold c.id c.id p prev.projects b.onPrSizes h)
    rw [List.foldl_cons]
    exact h2

/-- `processCommit` always succeeds given current-project keys, and equals
its pure form. -/
theorem processCommit_ok (cfg : ConfigFile) (slices : Slices)
    (c : CommitInfoBuf) (b : PlanBuilder) (hk : KeysOk cfg b.onPrSizes) :
    processCommit cfg slices b c =
      .ok { b with
              onCommit := some c, prevCfg := some (slices c.id),
              onPrSizes := commitOps cfg slices c b.onPrSizes } := by
  unfold processCommit startCommit
  simp only [pure_bind]
  rw [commitFiles_ok c (slices c.id) c.files
    { b with onCommit := some c, prevCfg := some (slices c.id), onPrSizes := b.onPrSizes.map (pushCommit cfg c) }
    rfl rfl (HasOid_pushCommits cfg c b.onPrSizes hk)]
  rfl

/-- The commit loop of one PR succeeds and equals its pure form. -/
theorem commitsFold_ok (cfg : ConfigFile) (slices : Slices)
    (commits : List CommitInfoBuf) :
    ∀ (b : PlanBuilder), KeysOk cfg b.onPrSizes →
      commits.foldlM (processCommit cfg slices) b =
        .ok { b with
                onCommit := commits.foldl (fun _ c => some c) b.onCommit,
                prevCfg := commits.foldl (fun _ c => some (slices c.id)) b.prevCfg,
                onPrSizes :=
                  commits.foldl (fun ops c => commitOps cfg slices c ops) b.onPrSizes } := by
  induction commits with
  | nil => intro b _; rfl
  | cons c t ih =>
    intro b hk
    rw [List.foldlM_cons, processCommit_ok cfg slices c b hk]
    have h2 := ih { b with onCommit := some c, prevCfg := some (slices c.id), onPrSizes := commitOps cfg slices c b.onPrSizes }
      (KeysOk_of_fst_eq cfg b.onPrSizes _ (map_fst_commitOps cfg slices c b.onPrSizes) hk)
    simp only [List.foldl_cons]
    exact h2

/-- C6 and C5 workhorse: one whole PR round of the event loop always
succeeds and equals its pure form `prStepP`. -/
theorem processPr_ok (cfg : ConfigFile) (slices : Slices) (b : PlanBuilder)
    (pr : FullPr) :
    processPr cfg slices b pr = .ok (prStepP cfg slices b pr) := by
  unfold processPr
  show pr.commits.foldlM (processCommit cfg slices) (startPr cfg pr b) >>=
    (fun b2 => finishPr b2) = _
  rw [commitsFold_ok cfg slices pr.commits (startPr cfg pr b)
    (startPr_keysOk cfg pr b)]
  rfl

/-- The PR loop of build_plan succeeds and equals the pure fold. -/
theorem prsFold_ok (cfg : ConfigFile) (slices : Slices) (prs : List FullPr) :
    ∀ b, prs.foldlM (processPr cfg slices) b =
      .ok (prs.foldl (prStepP cfg slices) b) := by
  induction prs with
  | nil => intro b; rfl
  | cons pr t ih =>
    intro b
    rw [List.foldlM_cons, processPr_ok cfg slices b pr]
    have h2 := ih (prStepP cfg slices b pr)
    rw [List.foldl_cons]
    exact h2

/-- `build_plan` never fails and equals the composition of the pure PR fold,
handle_deps and sort_and_dedup. -/
theorem buildPlanList_ok (cfg : ConfigFile) (slices : Slices) (prs : List FullPr) :
    buildPlanList cfg slices prs =
      .ok { incrs := sortAndDedup (handleDeps cfg
              (prs.foldl (prStepP cfg slices) PlanBuilder.create).incrs),
            ineffective := (prs.foldl (prStepP cfg slices) PlanBuilder.create).ineffective } := by
  unfold buildPlanList
  rw [prsFold_ok cfg slices prs PlanBuilder.create]
  rfl

/-- The start_file prev-project loop either succeeds or panics on the
unwrap; it never raises the protocol error. -/
theorem startFileFold_cases (oid path : String) (qs : List Project) :
    ∀ ops, (∃ r, qs.foldlM (startFileStep oid path) ops = .ok r) ∨
      qs.foldlM (startFileStep oid path) ops = .error PlanErr.panicked := by
  induction qs with
  | nil => intro ops; exact Or.inl ⟨ops, rfl⟩
  | cons q t ih =>
    intro ops
    rw [List.foldlM_cons]
    unfold startFileStep
    cases hl : alookup ops q.id with
    | none => exact ih ops
    | some lp =>
      by_cases hcov : q.doesCover path
      · simp only [hcov, if_true]
        cases hs : setApplies oid lp.commits with
        | none => exact Or.inr rfl
        | some cs => exact ih (setEntry ops q.id { lp with commits := cs })
      · simp only [hcov, Bool.false_eq_true, if_false]
        exact ih ops

/-- `startFileOps` never raises the protocol error. -/
theorem startFileOps_cases (prev : ConfigFile) (oid path : String)
    (ops : List (Nat × LoggedPr)) :
    (∃ r, startFileOps prev oid path ops = .ok r) ∨
      startFileOps prev oid path ops = .error PlanErr.panicked := by
  unfold startFileOps
  exact startFileFold_cases oid path prev.projects ops

/-- C5 (amended): start_file fails with the PlanProtocol error exactly when
no start_commit has yet set on_commit — in particular, after finish_commit
the stale commit is still set, so start_file outside a
start_commit/finish_commit pair succeeds; start_commit performs no protocol
check at all (it never raises a PlanProtocol error, even outside a
start_pr/finish_pr pair); and the legal event sequence of build_plan never
produces any error. -/
theorem plan_protocol_amended :
    (∀ (b : PlanBuilder) (path : String),
        isPlanProtocol (startFile b path) = true ↔ b.onCommit = Option.none) ∧
    (∀ (cfg : ConfigFile) (slices : Slices) (c : CommitInfoBuf) (b : PlanBuilder),
        isPlanProtocol (startCommit cfg slices c b) = false) ∧
    (∀ (cfg : ConfigFile) (slices : Slices) (prs : List FullPr),
        ∃ pl, buildPlanList cfg slices prs = .ok pl) := by
  refine ⟨?_, ?_, ?_⟩
  · intro b path
    constructor
    · intro h
      cases hc : b.onCommit with
      | none => rfl
      | some c =>
        exfalso
        cases hp : b.prevCfg with
        | none =>
          have hval : startFile b path = throw PlanErr.notSliced := by
            unfold startFile; rw [hc, hp]
          rw [hval] at h
          exact Bool.noConfusion h
        | some prev =>
          have hval : startFile b path =
              (startFileOps prev c.id path b.onPrSizes) >>=
                (fun ops => pure { b with onPrSizes := ops }) := by
            unfold startFile; rw [hc, hp]
          rw [hval] at h
          rcases startFileOps_cases prev c.id path b.onPrSizes with ⟨r, hr⟩ | hr
          · rw [hr] at h
            exact Bool.noConfusion h
          · rw [hr] at h
            exact Bool.noConfusion h
    · intro h
      have hval : startFile b path =
          throw (PlanErr.planProtocol "Not on a commit") := by
        unfold startFile; rw [h]
      rw [hval]
      rfl
  · intro cfg slices c b
    rfl
  · intro cfg slices prs
    exact ⟨_, buildPlanList_ok cfg slices prs⟩

theorem Size.max_self (a : Size) : Size.max a a = a := by
  revert a; decide

/-- Bumping a project's size reads back as the max. -/
theorem sizeAt_bumpSize_self (incrs : List (Nat × (Size × ChangeLog)))
    (pid : Nat) (sz : Size) :
    sizeAt (bumpSize incrs pid sz) pid = Size.max (sizeAt incrs pid) sz := by
  unfold sizeAt bumpSize
  rw [alookup_modEntry_self]
  rfl

/-- Bumping leaves other projects' sizes unchanged. -/
theorem sizeAt_bumpSize_ne (incrs : List (Nat × (Size × ChangeLog)))
    (pid x : Nat) (sz : Size) (h : pid ≠ x) :
    sizeAt (bumpSize incrs pid sz) x = sizeAt incrs x := by
  unfold sizeAt bumpSize
  rw [alookup_modEntry_ne _ _ _ _ _ h]

/-- Bumping never decreases any size. -/
theorem sizeAt_bumpSize_le (incrs : List (Nat × (Size × ChangeLog)))
    (pid x : Nat) (sz : Size) :
    Size.le (sizeAt incrs x) (sizeAt (bumpSize incrs pid sz) x) := by
  by_cases h : pid = x
  · rw [← h, sizeAt_bumpSize_self]
    exact Size.le_max_left _ _
  · rw [sizeAt_bumpSize_ne _ _ _ _ h]
    exact Size.le_refl _

/-- Bumping a size leaves every change log unchanged. -/
theorem logAt_bumpSize (incrs : List (Nat × (Size × ChangeLog)))
    (pid x : Nat) (sz : Size) :
    logAt (bumpSize incrs pid sz) x = logAt incrs x := by
  by_cases h : pid = x
  · unfold logAt bumpSize
    rw [← h, alookup_modEntry_self]
    rfl
  · unfold logAt bumpSize
    rw [alookup_modEntry_ne _ _ _ _ _ h]

/-- Membership in the adjacency after removing one edge. -/
theorem memDep_removeDependent (deps : List (Nat × List Nat)) (i d c x : Nat) :
    memDep (removeDependent deps i d) c x ↔
      memDep deps c x ∧ ¬(c = i ∧ x = d) := by
  unfold memDep removeDependent
  constructor
  · rintro ⟨e, he, hk, hx⟩
    rcases List.mem_map.mp he with ⟨e0, he0, heq⟩
    by_cases h0 : e0.1 = i
    · have heq2 : e = (e0.1, e0.2.filter (fun y => y ≠ d)) := by
        rw [← heq]; simp [h0]
      rw [heq2] at hk hx
      have hxf := List.mem_filter.mp hx
      refine ⟨⟨e0, he0, hk, hxf.1⟩, ?_⟩
      rintro ⟨-, hxd⟩
      have hxd1 : x ≠ d := by simpa using hxf.2
      exact hxd1 hxd
    · have heq2 : e = e0 := by rw [← heq]; simp [h0]
      rw [heq2] at hk hx
      refine ⟨⟨e0, he0, hk, hx⟩, ?_⟩
      rintro ⟨hc, -⟩
      exact h0 (hk.trans hc)
  · rintro ⟨⟨e, he, hk, hx⟩, hno⟩
    by_cases h0 : e.1 = i
    · refine ⟨(e.1, e.2.filter (fun y => y ≠ d)),
        List.mem_map.mpr ⟨e, he, by simp [h0]⟩, hk, ?_⟩
      have hxd : ¬ x = d := fun hxd => hno ⟨hk.symm.trans h0, hxd⟩
      exact List.mem_filter.mpr ⟨hx, by simpa using hxd⟩
    · exact ⟨e, List.mem_map.mpr ⟨e, he, by simp [h0]⟩, hk, hx⟩

/-- Removing an edge preserves the adjacency keys. -/
theorem map_fst_removeDependent (deps : List (Nat × List Nat)) (i d : Nat) :
    (removeDependent deps i d).map Prod.fst = deps.map Prod.fst := by
  unfold removeDependent
  rw [List.map_map]
  apply List.map_congr_left
  intro e _
  by_cases h0 : e.1 = i <;> simp [h0]

/-- Removing an edge keeps the dependent lists duplicate-free. -/
theorem nodup_removeDependent (deps : List (Nat × List Nat)) (i d : Nat)
    (h : ∀ e ∈ deps, e.2.Nodup) :
    ∀ e ∈ removeDependent deps i d, e.2.Nodup := by
  intro e he
  rcases List.mem_map.mp he with ⟨e0, he0, heq⟩
  by_cases h0 : e0.1 = i
  · have heq2 : e = (e0.1, e0.2.filter (fun y => y ≠ d)) := by
      rw [← heq]; simp [h0]
    rw [heq2]
    exact List.Nodup.filter _ (h e0 he0)
  · have heq2 : e = e0 := by rw [← heq]; simp [h0]
    rw [heq2]
    exact h e0 he0

/-- The membership check of handle_deps, characterized. -/
theorem inAny_iff (deps : List (Nat × List Nat)) (x : Nat) :
    inAnyDependents deps x = true ↔ ∃ c, memDep deps c x := by
  unfold inAnyDependents
  rw [List.any_eq_true]
  constructor
  · rintro ⟨e, he, hx⟩
    exact ⟨e.1, e, he, rfl, by simpa using hx⟩
  · rintro ⟨c, e, he, _, hx⟩
    exact ⟨e, he, by simpa using hx⟩

/-- An absent key means no entry carries it. -/
theorem alookup_eq_none {β : Type} (m : List (Nat × β)) (k : Nat) :
    alookup m k = Option.none ↔ ∀ e ∈ m, e.1 ≠ k := by
  induction m with
  | nil => simp [alookup]
  | cons e t ih =>
    by_cases he : e.1 = k
    · simp [alookup, he]
    · simp [alookup, he, ih]

/-- With duplicate-free keys, membership determines the lookup. -/
theorem alookup_of_mem_nodup {β : Type} (m : List (Nat × β)) (k : Nat) (v : β)
    (hnd : (m.map Prod.fst).Nodup) (hmem : (k, v) ∈ m) :
    alookup m k = some v := by
  induction m with
  | nil => simp at hmem
  | cons e t ih =>
    simp only [List.map_cons, List.nodup_cons] at hnd
    rcases List.mem_cons.mp hmem with he | ht
    · rw [← he]
      simp [alookup]
    · have hne : e.1 ≠ k := by
        intro h
        exact hnd.1 (h ▸ List.mem_map_of_mem Prod.fst ht)
      rw [alookup, if_neg hne]
      exact ih hnd.2 ht

/-- With duplicate-free keys, adjacency membership reads off the lookup. -/
theorem memDep_lookup (deps : List (Nat × List Nat)) (c x : Nat)
    (hnd : (deps.map Prod.fst).Nodup) (h : memDep deps c x) :
    ∃ l, alookup deps c = some l ∧ x ∈ l := by
  rcases h with ⟨e, he, hk, hx⟩
  refine ⟨e.2, ?_, hx⟩
  have : (c, e.2) ∈ deps := by
    have : e = (c, e.2) := by cases e; simp_all
    rw [← this]; exact he
  exact alookup_of_mem_nodup deps c e.2 hnd this

/-- Adjacency membership unfolded one entry. -/
theorem memDep_cons (e : Nat × List Nat) (t : List (Nat × List Nat)) (c x : Nat) :
    memDep (e :: t) c x ↔ (e.1 = c ∧ x ∈ e.2) ∨ memDep t c x := by
  unfold memDep
  constructor
  · rintro ⟨e1, he1, hk, hx⟩
    rcases List.mem_cons.mp he1 with rfl | ht
    · exact Or.inl ⟨hk, hx⟩
    · exact Or.inr ⟨e1, ht, hk, hx⟩
  · rintro (⟨hk, hx⟩ | ⟨e1, ht, hk, hx⟩)
    · exact ⟨e, List.mem_cons_self _ _, hk, hx⟩
    · exact ⟨e1, List.mem_cons_of_mem _ ht, hk, hx⟩

/-- Membership in a set-style insert. -/
theorem mem_insertPid (l : List Nat) (pid x : Nat) :
    x ∈ (if l.contains pid then l else l ++ [pid]) ↔ x ∈ l ∨ x = pid := by
  by_cases hc : l.contains pid
  · rw [if_pos hc]
    constructor
    · exact Or.inl
    · rintro (h | rfl)
      · exact h
      · exact List.mem_of_elem_eq_true hc
  · rw [if_neg hc]
    simp

/-- A set-style insert keeps the list duplicate-free. -/
theorem nodup_insertPid (l : List Nat) (pid : Nat) (h : l.Nodup) :
    (if l.contains pid then l else l ++ [pid]).Nodup := by
  by_cases hc : l.contains pid
  · rw [if_pos hc]; exact h
  · rw [if_neg hc]
    refine List.Nodup.append h (List.nodup_singleton _) ?_
    intro a ha hb
    rw [List.mem_singleton] at hb
    exact hc (List.elem_eq_true_of_mem (hb ▸ ha))

/-- Members of an entry-updated association list. -/
theorem mem_modEntry {β : Type} (m : List (Nat × β)) (k : Nat) (d : β)
    (f : β → β) (e : Nat × β) (h : e ∈ modEntry m k d f) :
    e = (k, f ((alookup m k).getD d)) ∨ e ∈ m := by
  induction m with
  | nil =>
    left
    simpa [modEntry, alookup] using h
  | cons e0 t ih =>
    by_cases h0 : e0.1 = k
    · rw [modEntry, if_pos h0] at h
      rcases List.mem_cons.mp h with he | ht
      · left
        rw [alookup, if_pos h0]
        exact he
      · right; exact List.mem_cons_of_mem _ ht
    · rw [modEntry, if_neg h0] at h
      rcases List.mem_cons.mp h with he | ht
      · right; exact he ▸ List.mem_cons_self _ _
      · rcases ih ht with h1 | h2
        · left; rw [alookup, if_neg h0]; exact h1
        · right; exact List.mem_cons_of_mem _ h2

/-- The key list of an entry update: unchanged on a present key, one new key
otherwise. -/
theorem map_fst_modEntry {β : Type} (m : List (Nat × β)) (k : Nat) (d : β)
    (f : β → β) :
    (modEntry m k d f).map Prod.fst = m.map Prod.fst ∨
      ((modEntry m k d f).map Prod.fst = m.map Prod.fst ++ [k] ∧
        alookup m k = Option.none) := by
  induction m with
  | nil => right; exact ⟨rfl, rfl⟩
  | cons e t ih =>
    by_cases h0 : e.1 = k
    · left; rw [modEntry, if_pos h0]; simp [h0]
    · rw [modEntry, if_neg h0]
      rcases ih with h1 | ⟨h1, h2⟩
      · left; simp [h1]
      · right
        refine ⟨by simp [h1], ?_⟩
        rw [alookup, if_neg h0]
        exact h2

/-- Entry updates preserve duplicate-free keys. -/
theorem nodup_keys_modEntry {β : Type} (m : List (Nat × β)) (k : Nat) (d : β)
    (f : β → β) (h : (m.map Prod.fst).Nodup) :
    ((modEntry m k d f).map Prod.fst).Nodup := by
  rcases map_fst_modEntry m k d f with h1 | ⟨h1, h2⟩
  · rw [h1]; exact h
  · rw [h1]
    refine List.Nodup.append h (List.nodup_singleton k) ?_
    intro a ha hb
    rcases List.mem_map.mp ha with ⟨e, he, heq⟩
    rw [List.mem_singleton] at hb
    exact (alookup_eq_none m k).mp h2 e he (heq.trans hb)

/-- A member of a looked-up dependent list witnesses adjacency membership. -/
theorem memDep_of_lookup_getD (deps : List (Nat × List Nat)) (k x : Nat)
    (hx : x ∈ (alookup deps k).getD []) : memDep deps k x := by
  cases hl : alookup deps k with
  | none => rw [hl] at hx; simp at hx
  | some l =>
    rw [hl] at hx
    exact ⟨(k, l), alookup_mem _ _ _ hl, rfl, hx⟩

/-- An existing edge survives an insert. -/
theorem memDep_addDependent_mono (dep pid c x : Nat) :
    ∀ (deps : List (Nat × List Nat)),
      memDep deps c x → memDep (addDependent deps dep pid) c x := by
  intro deps
  unfold addDependent
  induction deps with
  | nil =>
    rintro ⟨e, he, -, -⟩
    simp at he
  | cons e0 t ih =>
    intro h
    rcases (memDep_cons e0 t c x).mp h with ⟨hk, hx⟩ | ht
    · by_cases h0 : e0.1 = dep
      · rw [modEntry, if_pos h0]
        refine (memDep_cons _ _ _ _).mpr (Or.inl ⟨h0.symm.trans hk, ?_⟩)
        exact (mem_insertPid _ _ _).mpr (Or.inl hx)
      · rw [modEntry, if_neg h0]
        exact (memDep_cons _ _ _ _).mpr (Or.inl ⟨hk, hx⟩)
    · by_cases h0 : e0.1 = dep
      · rw [modEntry, if_pos h0]
        exact (memDep_cons _ _ _ _).mpr (Or.inr ht)
      · rw [modEntry, if_neg h0]
        exact (memDep_cons _ _ _ _).mpr (Or.inr (ih ht))

/-- The inserted edge is present after the insert. -/
theorem memDep_addDependent_self (deps : List (Nat × List Nat)) (dep pid : Nat) :
    memDep (addDependent deps dep pid) dep pid := by
  have hl := alookup_modEntry_self deps dep []
    (fun l => if l.contains pid then l else l ++ [pid])
  exact ⟨(dep, if ((alookup deps dep).getD []).contains pid
      then (alookup deps dep).getD []
      else (alookup deps dep).getD [] ++ [pid]),
    alookup_mem _ _ _ hl, rfl, (mem_insertPid _ _ _).mpr (Or.inr rfl)⟩

/-- Inserting an edge only adds that edge to the adjacency. -/
theorem memDep_addDependent (deps : List (Nat × List Nat)) (dep pid c x : Nat) :
    memDep (addDependent deps dep pid) c x ↔
      memDep deps c x ∨ (c = dep ∧ x = pid) := by
  constructor
  · rintro ⟨e, he, hk, hx⟩
    unfold addDependent at he
    rcases mem_modEntry _ _ _ _ e he with h1 | h2
    · rw [h1] at hk hx
      have hk1 : dep = c := hk
      rcases (mem_insertPid _ _ _).mp hx with hold | rfl
      · exact Or.inl (hk1 ▸ memDep_of_lookup_getD deps dep x hold)
      · exact Or.inr ⟨hk1.symm, rfl⟩
    · exact Or.inl ⟨e, h2, hk, hx⟩
  · rintro (h | ⟨hc, hx⟩)
    · exact memDep_addDependent_mono dep pid c x deps h
    · rw [hc, hx]
      exact memDep_addDependent_self deps dep pid

/-- Inserting an edge keeps dependent lists duplicate-free. -/
theorem nodup_entries_addDependent (deps : List (Nat × List Nat)) (dep pid : Nat)
    (h : ∀ e ∈ deps, e.2.Nodup) : ∀ e ∈ addDependent deps dep pid, e.2.Nodup := by
  intro e he
  unfold addDependent at he
  rcases mem_modEntry _ _ _ _ e he with h1 | h2
  · rw [h1]
    apply nodup_insertPid
    cases hl : alookup deps dep with
    | none => simp
    | some l =>
      have := h _ (alookup_mem _ _ _ hl)
      simpa using this
  · exact h e h2

/-- Inserting an edge keeps adjacency keys duplicate-free. -/
theorem nodup_keys_addDependent (deps : List (Nat × List Nat)) (dep pid : Nat)
    (h : (deps.map Prod.fst).Nodup) :
    ((addDependent deps dep pid).map Prod.fst).Nodup :=
  nodup_keys_modEntry _ _ _ _ h

/-- The edge-insertion fold over one project's dependencies, characterized. -/
theorem memDep_depsFold (pid : Nat) (ds : List Nat) :
    ∀ (acc : List (Nat × List Nat)) (c x : Nat),
      memDep (ds.foldl (fun d dep => addDependent d dep pid) acc) c x ↔
        memDep acc c x ∨ (c ∈ ds ∧ x = pid) := by
  induction ds with
  | nil => intro acc c x; simp
  | cons dep t ih =>
    intro acc c x
    rw [List.foldl_cons, ih, memDep_addDependent]
    constructor
    · rintro ((h | ⟨hc, hx⟩) | ⟨hc, hx⟩)
      · exact Or.inl h
      · exact Or.inr ⟨hc ▸ List.mem_cons_self _ _, hx⟩
      · exact Or.inr ⟨List.mem_cons_of_mem _ hc, hx⟩
    · rintro (h | ⟨hc, hx⟩)
      · exact Or.inl (Or.inl h)
      · rcases List.mem_cons.mp hc with rfl | hct
        · exact Or.inl (Or.inr ⟨rfl, hx⟩)
        · exact Or.inr ⟨hct, hx⟩

/-- The edge-insertion fold keeps adjacency keys duplicate-free. -/
theorem nodup_keys_depsFold (pid : Nat) (ds : List Nat) :
    ∀ acc, (acc.map Prod.fst).Nodup →
      ((ds.foldl (fun d dep => addDependent d dep pid) acc).map Prod.fst).Nodup := by
  induction ds with
  | nil => intro acc h; exact h
  | cons dep t ih =>
    intro acc h
    rw [List.foldl_cons]
    exact ih _ (nodup_keys_addDependent acc dep pid h)

/-- The edge-insertion fold keeps dependent lists duplicate-free. -/
theorem nodup_entries_depsFold (pid : Nat) (ds : List Nat) :
    ∀ acc, (∀ e ∈ acc, (e : Nat × List Nat).2.Nodup) →
      ∀ e ∈ ds.foldl (fun d dep => addDependent d dep pid) acc, e.2.Nodup := by
  induction ds with
  | nil => intro acc h; exact h
  | cons dep t ih =>
    intro acc h
    rw [List.foldl_cons]
    exact ih _ (nodup_entries_addDependent acc dep pid h)

/-- The adjacency component of one seeding step is the edge fold. -/
theorem initStep_fst (incrs : List (Nat × (Size × ChangeLog)))
    (st : (List (Nat × List Nat)) × List (Nat × Size)) (p : Project) :
    (initStep incrs st p).1 =
      p.depends.foldl (fun d dep => addDependent d dep p.id) st.1 := by
  unfold initStep
  by_cases hd : p.depends.isEmpty
  · cases hl : alookup incrs p.id <;> simp [hd, hl]
  · simp [hd]

/-- The queue built by the seeding pass: the projects without dependencies,
in order, each with its rolled-up size. -/
theorem initDeps_queue_fold (incrs : List (Nat × (Size × ChangeLog)))
    (l : List Project) :
    ∀ st, (l.foldl (initStep incrs) st).2 =
      st.2 ++ (l.filter (fun p => p.depends.isEmpty)).map
        (fun p => (p.id, sizeAt incrs p.id)) := by
  induction l with
  | nil => intro st; simp
  | cons p t ih =>
    intro st
    rw [List.foldl_cons, ih]
    by_cases hd : p.depends.isEmpty
    · have h2 : (initStep incrs st p).2 = st.2 ++ [(p.id, sizeAt incrs p.id)] := by
        unfold initStep
        cases hl : alookup incrs p.id <;> simp [hd, hl, sizeAt]
      rw [h2]
      simp [List.filter_cons, hd]
    · have h2 : (initStep incrs st p).2 = st.2 := by
        unfold initStep
        simp [hd]
      rw [h2]
      simp [List.filter_cons, hd]

/-- The adjacency built by the seeding pass holds exactly the configured
edges. -/
theorem initDeps_memDep_fold (incrs : List (Nat × (Size × ChangeLog)))
    (l : List Project) :
    ∀ st (c x : Nat), memDep (l.foldl (initStep incrs) st).1 c x ↔
      (memDep st.1 c x ∨ ∃ p ∈ l, p.id = x ∧ c ∈ p.depends) := by
  induction l with
  | nil => intro st c x; simp
  | cons p t ih =>
    intro st c x
    rw [List.foldl_cons, ih, initStep_fst, memDep_depsFold]
    constructor
    · rintro ((h | ⟨hc, hx⟩) | ⟨p1, hp1, hid, hc⟩)
      · exact Or.inl h
      · exact Or.inr ⟨p, List.mem_cons_self _ _, hx.symm, hc⟩
      · exact Or.inr ⟨p1, List.mem_cons_of_mem _ hp1, hid, hc⟩
    · rintro (h | ⟨p1, hp1, hid, hc⟩)
      · exact Or.inl (Or.inl h)
      · rcases List.mem_cons.mp hp1 with rfl | hpt
        · exact Or.inl (Or.inr ⟨hc, hid.symm⟩)
        · exact Or.inr ⟨p1, hpt, hid, hc⟩

/-- The seeding pass keeps adjacency keys duplicate-free. -/
theorem initDeps_nodup_keys (incrs : List (Nat × (Size × ChangeLog)))
    (l : List Project) :
    ∀ st, (st.1.map Prod.fst).Nodup →
      (((l.foldl (initStep incrs) st).1).map Prod.fst).Nodup := by
  induction l with
  | nil => intro st h; exact h
  | cons p t ih =>
    intro st h
    rw [List.foldl_cons]
    apply ih
    rw [initStep_fst]
    exact nodup_keys_depsFold p.id p.depends st.1 h

/-- The seeding pass keeps dependent lists duplicate-free. -/
theorem initDeps_nodup_entries (incrs : List (Nat × (Size × ChangeLog)))
    (l : List Project) :
    ∀ st, (∀ e ∈ st.1, (e : Nat × List Nat).2.Nodup) →
      ∀ e ∈ (l.foldl (initStep incrs) st).1, e.2.Nodup := by
  induction l with
  | nil => intro st h; exact h
  | cons p t ih =>
    intro st h
    rw [List.foldl_cons]
    apply ih
    rw [initStep_fst]
    exact nodup_entries_depsFold p.id p.depends st.1 h

/-- The seeding pass establishes the handle_deps loop invariant. -/
theorem depInv_init (cfg : ConfigFile) (incrs : List (Nat × (Size × ChangeLog)))
    (hnodup : (cfg.projects.map (fun p => p.id)).Nodup) :
    DepInv cfg { incrs := incrs, dependents := (initDeps cfg incrs).1,
                 queue := (initDeps cfg incrs).2, popped := [] } := by
  have hq : (initDeps cfg incrs).2 =
      (cfg.projects.filter (fun p => p.depends.isEmpty)).map
        (fun p => (p.id, sizeAt incrs p.id)) := by
    unfold initDeps
    rw [initDeps_queue_fold]
    rfl
  have hmem : ∀ c x, memDep (initDeps cfg incrs).1 c x ↔ IsEdge cfg c x := by
    intro c x
    unfold initDeps IsEdge
    rw [initDeps_memDep_fold]
    simp [memDep]
  have hinj : ∀ p1 ∈ cfg.projects, ∀ p2 ∈ cfg.projects, p1.id = p2.id → p1 = p2 := by
    intro p1 h1 p2 h2 h12
    exact List.inj_on_of_nodup_map hnodup h1 h2 h12
  refine ⟨?_, ?_, ?_, ?_, ?_, ?_, ?_, ?_, ?_⟩
  · intro x qs hq1
    rw [hq] at hq1
    rcases List.mem_map.mp hq1 with ⟨p, hp, heq⟩
    have hx : p.id = x := congrArg Prod.fst heq
    have hs : sizeAt incrs p.id = qs := congrArg Prod.snd heq
    simpa [← hx] using hs
  · intro x hx c hmd
    simp only [qids, List.mem_map] at hx
    rcases hx with ⟨e, he, hex⟩ | hx
    · rw [hq] at he
      rcases List.mem_map.mp he with ⟨p, hp, heq⟩
      rcases List.mem_filter.mp hp with ⟨hp1, hd⟩
      have hdx : p.id = x := by rw [← hex, ← heq]
      have hie := (hmem c x).mp hmd
      rcases hie with ⟨p1, hp1m, hid, hc⟩
      have : p1 = p := hinj p1 hp1m p hp1 (by rw [hid, hdx])
      rw [this] at hc
      have hempty : p.depends = [] := by
        cases hdep : p.depends with
        | nil => rfl
        | cons a t => rw [hdep] at hd; simp at hd
      rw [hempty] at hc
      simp at hc
    · simp at hx
  · simp only [qids, List.append_nil]
    rw [hq, List.map_map]
    have hsub : ((cfg.projects.filter (fun p => p.depends.isEmpty)).map
        (Prod.fst ∘ fun p => (p.id, sizeAt incrs p.id))).Sublist
        (cfg.projects.map (fun p => p.id)) := by
      exact (cfg.projects.filter_sublist).map _
    exact hsub.nodup hnodup
  · intro a ha
    simp at ha
  · intro p hp
    by_cases hd : p.depends.isEmpty
    · right; left
      simp only [qids]
      rw [hq, List.map_map]
      exact List.mem_map.mpr ⟨p, List.mem_filter.mpr ⟨hp, by simpa using hd⟩, rfl⟩
    · left
      cases hdep : p.depends with
      | nil => rw [hdep] at hd; simp at hd
      | cons c t =>
        refine ⟨c, List.mem_cons_self _ _, ?_⟩
        exact (hmem c p.id).mpr ⟨p, hp, rfl, by rw [hdep]; exact List.mem_cons_self _ _⟩
  · intro c x h
    exact (hmem c x).mp h
  · exact initDeps_nodup_keys incrs cfg.projects ([], []) (by simp)
  · intro a b he _
    exact (hmem a b).mpr he
  · exact initDeps_nodup_entries incrs cfg.projects ([], []) (by simp)

/-- One iteration of the cloned-dependents loop preserves the mid-pop
invariant, consuming the head of the clone. -/
theorem depMid_inner_step (cfg : ConfigFile)
    (hnodup : (cfg.projects.map (fun p => p.id)).Nodup)
    (i : Nat) (size : Size) (d : Nat) (rest : List Nat) (s : DepState)
    (h : DepMid cfg i size (d :: rest) s) :
    DepMid cfg i size rest
      (if inAnyDependents (removeDependent s.dependents i d) d
       then { s with dependents := removeDependent s.dependents i d,
                     incrs := bumpSize s.incrs d size }
       else { s with dependents := removeDependent s.dependents i d,
                     incrs := bumpSize s.incrs d size,
                     queue := s.queue ++
                       [(d, sizeAt (bumpSize s.incrs d size) d)] }) := by
  have hdmem : memDep s.dependents i d := h.hin d (List.mem_cons_self _ _)
  have hdq : d ∉ qids s := fun hq => h.w2 d (Or.inl hq) i hdmem
  have hdp : d ∉ s.popped := fun hp => h.w2 d (Or.inr hp) i hdmem
  have hdi : d ≠ i := fun he => hdp (he ▸ h.hpop)
  have hinj : ∀ p1 ∈ cfg.projects, ∀ p2 ∈ cfg.projects, p1.id = p2.id → p1 = p2 :=
    fun p1 h1 p2 h2 h12 => List.inj_on_of_nodup_map hnodup h1 h2 h12
  have hsz_ne : ∀ x, x ≠ d →
      sizeAt (bumpSize s.incrs d size) x = sizeAt s.incrs x :=
    fun x hx => sizeAt_bumpSize_ne s.incrs d x size (fun he => hx he.symm)
  have hsz_mono : ∀ x, Size.le (sizeAt s.incrs x) (sizeAt (bumpSize s.incrs d size) x) :=
    fun x => sizeAt_bumpSize_le s.incrs d x size
  by_cases henq : inAnyDependents (removeDependent s.dependents i d) d = true
  · rw [if_pos henq]
    refine ⟨?_, ?_, ?_, ?_, ?_, ?_, ?_, ?_, ?_, ?_, ?_, ?_, ?_, ?_, ?_⟩
    · -- w1
      intro x qs hxq
      have hxd : x ≠ d := fun he => hdq (he ▸ List.mem_map_of_mem Prod.fst hxq)
      rw [hsz_ne x hxd]
      exact h.w1 x qs hxq
    · -- w2
      intro x hx c hmd
      have hx0 : x ∈ qids s ∨ x ∈ s.popped := hx
      exact h.w2 x hx0 c ((memDep_removeDependent _ _ _ _ _).mp hmd).1
    · -- w3
      exact h.w3
    · -- w4m
      intro a hap hai
      have old := h.w4m a hap hai
      refine ⟨fun b hmd => old.1 b ((memDep_removeDependent _ _ _ _ _).mp hmd).1, ?_⟩
      intro b hedge
      have had : a ≠ d := fun he => hdp (he ▸ hap)
      rw [hsz_ne a had]
      exact Size.le_trans (old.2 b hedge) (hsz_mono b)
    · -- w5
      intro p hp
      rcases h.w5 p hp with ⟨c, hc, hmdc⟩ | hq | hpop
      · by_cases hdes : c = i ∧ p.id = d
        · -- edge (i, d) destroyed; but d is still in some set
          rcases (inAny_iff _ _).mp henq with ⟨c1, hmd1⟩
          have hmd0 := ((memDep_removeDependent _ _ _ _ _).mp hmd1).1
          rcases h.w6 c1 d hmd0 with ⟨p1, hp1, hid1, hc1⟩
          have hpp : p1 = p := hinj p1 hp1 p hp (by rw [hid1, hdes.2])
          refine Or.inl ⟨c1, by rw [← hpp]; exact hc1, ?_⟩
          rw [hdes.2]
          exact hmd1
        · exact Or.inl ⟨c, hc, (memDep_removeDependent _ _ _ _ _).mpr ⟨hmdc, hdes⟩⟩
      · exact Or.inr (Or.inl hq)
      · exact Or.inr (Or.inr hpop)
    · -- w6
      intro c x hmd
      exact h.w6 c x ((memDep_removeDependent _ _ _ _ _).mp hmd).1
    · -- w7
      rw [map_fst_removeDependent]
      exact h.w7
    · -- w8m
      intro a b hedge hap
      have hai : ¬(a = i) := fun he => hap (he ▸ h.hpop)
      exact (memDep_removeDependent _ _ _ _ _).mpr
        ⟨h.w8m a b hedge hap, fun hc => hai hc.1⟩
    · -- w9
      exact nodup_removeDependent s.dependents i d h.w9
    · -- hpop
      exact h.hpop
    · -- hsize
      rw [hsz_ne i (fun he => hdi he.symm)]
      exact h.hsize
    · -- hedges
      intro b hedge
      rcases h.hedges b hedge with hmd | hle
      · by_cases hbd : b = d
        · right
          rw [hbd, sizeAt_bumpSize_self]
          exact Size.le_max_right _ _
        · exact Or.inl ((memDep_removeDependent _ _ _ _ _).mpr
            ⟨hmd, fun hc => hbd hc.2⟩)
      · exact Or.inr (Size.le_trans hle (hsz_mono b))
    · -- hentry
      intro b hmd
      rcases (memDep_removeDependent _ _ _ _ _).mp hmd with ⟨hm0, hno⟩
      have hbd : b ≠ d := fun hbd => hno ⟨rfl, hbd⟩
      rcases List.mem_cons.mp (h.hentry b hm0) with he | ht
      · exact absurd he hbd
      · exact ht
    · -- hin
      intro d1 hd1
      have hd1d : d1 ≠ d := fun he => (List.nodup_cons.mp h.hnd).1 (he ▸ hd1)
      exact (memDep_removeDependent _ _ _ _ _).mpr
        ⟨h.hin d1 (List.mem_cons_of_mem _ hd1), fun hc => hd1d hc.2⟩
    · -- hnd
      exact (List.nodup_cons.mp h.hnd).2
  · rw [if_neg henq]
    have hnone : ∀ c, ¬ memDep (removeDependent s.dependents i d) c d := by
      intro c hmd
      exact henq ((inAny_iff _ _).mpr ⟨c, hmd⟩)
    have hq2 : qids (DepState.mk (bumpSize s.incrs d size)
        (removeDependent s.dependents i d)
        (s.queue ++ [(d, sizeAt (bumpSize s.incrs d size) d)]) s.popped) =
        qids s ++ [d] := by
      simp [qids]
    refine ⟨?_, ?_, ?_, ?_, ?_, ?_, ?_, ?_, ?_, ?_, ?_, ?_, ?_, ?_, ?_⟩
    · -- w1
      intro x qs hxq
      rcases List.mem_append.mp hxq with hold | hnew
      · have hxd : x ≠ d := fun he => hdq (he ▸ List.mem_map_of_mem Prod.fst hold)
        rw [hsz_ne x hxd]
        exact h.w1 x qs hold
      · rw [List.mem_singleton] at hnew
        have hx : x = d := congrArg Prod.fst hnew
        have hq : qs = sizeAt (bumpSize s.incrs d size) d := congrArg Prod.snd hnew
        rw [hx]
        exact hq.symm
    · -- w2
      intro x hx c hmd
      rcases hx with hxq | hxp
      · rw [hq2] at hxq
        rcases List.mem_append.mp hxq with hold | hnew
        · exact h.w2 x (Or.inl hold) c ((memDep_removeDependent _ _ _ _ _).mp hmd).1
        · rw [List.mem_singleton] at hnew
          exact hnone c (hnew ▸ hmd)
      · exact h.w2 x (Or.inr hxp) c ((memDep_removeDependent _ _ _ _ _).mp hmd).1
    · -- w3
      have hperm : List.Perm ((qids s ++ [d]) ++ s.popped)
          (d :: (qids s ++ s.popped)) := by
        rw [List.append_assoc]
        exact List.perm_middle
      have hnd : (d :: (qids s ++ s.popped)).Nodup := by
        rw [List.nodup_cons]
        refine ⟨fun hmem => ?_, h.w3⟩
        rcases List.mem_append.mp hmem with h1 | h2
        · exact hdq h1
        · exact hdp h2
      rw [hq2]
      show ((qids s ++ [d]) ++ s.popped).Nodup
      exact hperm.symm.nodup hnd
    · -- w4m
      intro a hap hai
      have old := h.w4m a hap hai
      refine ⟨fun b hmd => old.1 b ((memDep_removeDependent _ _ _ _ _).mp hmd).1, ?_⟩
      intro b hedge
      have had : a ≠ d := fun he => hdp (he ▸ hap)
      rw [hsz_ne a had]
      exact Size.le_trans (old.2 b hedge) (hsz_mono b)
    · -- w5
      intro p hp
      rcases h.w5 p hp with ⟨c, hc, hmdc⟩ | hq | hpop
      · by_cases hdes : c = i ∧ p.id = d
        · refine Or.inr (Or.inl ?_)
          rw [hq2, hdes.2]
          exact List.mem_append_right _ (List.mem_singleton.mpr rfl)
        · exact Or.inl ⟨c, hc, (memDep_removeDependent _ _ _ _ _).mpr ⟨hmdc, hdes⟩⟩
      · refine Or.inr (Or.inl ?_)
        rw [hq2]
        exact List.mem_append_left _ hq
      · exact Or.inr (Or.inr hpop)
    · -- w6
      intro c x hmd
      exact h.w6 c x ((memDep_removeDependent _ _ _ _ _).mp hmd).1
    · -- w7
      rw [map_fst_removeDependent]
      exact h.w7
    · -- w8m
      intro a b hedge hap
      have hai : ¬(a = i) := fun he => hap (he ▸ h.hpop)
      exact (memDep_removeDependent _ _ _ _ _).mpr
        ⟨h.w8m a b hedge hap, fun hc => hai hc.1⟩
    · -- w9
      exact nodup_removeDependent s.dependents i d h.w9
    · -- hpop
      exact h.hpop
    · -- hsize
      rw [hsz_ne i (fun he => hdi he.symm)]
      exact h.hsize
    · -- hedges
      intro b hedge
      rcases h.hedges b hedge with hmd | hle
      · by_cases hbd : b = d
        · right
          rw [hbd, sizeAt_bumpSize_self]
          exact Size.le_max_right _ _
        · exact Or.inl ((memDep_removeDependent _ _ _ _ _).mpr
            ⟨hmd, fun hc => hbd hc.2⟩)
      · exact Or.inr (Size.le_trans hle (hsz_mono b))
    · -- hentry
      intro b hmd
      rcases (memDep_removeDependent _ _ _ _ _).mp hmd with ⟨hm0, hno⟩
      have hbd : b ≠ d := fun hbd => hno ⟨rfl, hbd⟩
      rcases List.mem_cons.mp (h.hentry b hm0) with he | ht
      · exact absurd he hbd
      · exact ht
    · -- hin
      intro d1 hd1
      have hd1d : d1 ≠ d := fun he => (List.nodup_cons.mp h.hnd).1 (he ▸ hd1)
      exact (memDep_removeDependent _ _ _ _ _).mpr
        ⟨h.hin d1 (List.mem_cons_of_mem _ hd1), fun hc => hd1d hc.2⟩
    · -- hnd
      exact (List.nodup_cons.mp h.hnd).2

/-- The whole cloned-dependents loop preserves the mid-pop invariant,
emptying the clone. -/
theorem processDepds_mid (cfg : ConfigFile)
    (hnodup : (cfg.projects.map (fun p => p.id)).Nodup)
    (i : Nat) (size : Size) :
    ∀ (depds : List Nat) (s : DepState), DepMid cfg i size depds s →
      DepMid cfg i size [] (processDepds size i depds s) := by
  intro depds
  induction depds with
  | nil => intro s h; exact h
  | cons d rest ih =>
    intro s h
    rw [processDepds]
    exact ih _ (depMid_inner_step cfg hnodup i size d rest s h)

/-- Once the clone is empty, the mid-pop invariant restores the global
invariant: the popped id has no recorded dependents left, and its frozen
size has been propagated along every configuration edge. -/
theorem depInv_of_mid (cfg : ConfigFile) (i : Nat) (size : Size)
    (s : DepState) (h : DepMid cfg i size [] s) : DepInv cfg s := by
  refine ⟨h.w1, h.w2, h.w3, ?_, h.w5, h.w6, h.w7, h.w8m, h.w9⟩
  intro a hap
  by_cases hai : a = i
  · rw [hai]
    constructor
    · intro b hmd
      exact absurd (h.hentry b hmd) (List.not_mem_nil b)
    · intro b hedge
      rcases h.hedges b hedge with hmd | hle
      · exact absurd (h.hentry b hmd) (List.not_mem_nil b)
      · rw [h.hsize]
        exact hle
  · exact h.w4m a hap hai

/-- Popping the queue head re-establishes the mid-pop invariant on the
post-pop state, for any faithful clone of the dependents entry. -/
theorem depMid_start (cfg : ConfigFile) (s : DepState) (h : DepInv cfg s)
    (i0 : Nat) (sz0 : Size) (rest : List (Nat × Size))
    (hq : s.queue = (i0, sz0) :: rest) (depds : List Nat)
    (hdep1 : ∀ b, memDep s.dependents i0 b → b ∈ depds)
    (hdep2 : ∀ d ∈ depds, memDep s.dependents i0 d)
    (hdep3 : depds.Nodup) :
    DepMid cfg i0 sz0 depds
      (DepState.mk (bumpSize s.incrs i0 sz0) s.dependents rest
        (s.popped ++ [i0])) := by
  have hmemq : (i0, sz0) ∈ s.queue := by
    rw [hq]
    exact List.mem_cons_self _ _
  have hiq : i0 ∈ qids s := List.mem_map_of_mem Prod.fst hmemq
  have hsz0 : sizeAt s.incrs i0 = sz0 := h.w1 i0 sz0 hmemq
  have hnodepi : ∀ c, ¬ memDep s.dependents c i0 := h.w2 i0 (Or.inl hiq)
  have hip : i0 ∉ s.popped := fun hp =>
    List.disjoint_of_nodup_append h.w3 hiq hp
  have hszeq : ∀ x, sizeAt (bumpSize s.incrs i0 sz0) x = sizeAt s.incrs x := by
    intro x
    by_cases hx : i0 = x
    · rw [← hx, sizeAt_bumpSize_self, hsz0, Size.max_self]
    · exact sizeAt_bumpSize_ne _ _ _ _ hx
  have hqids : qids s = i0 :: rest.map Prod.fst := by
    rw [qids, hq, List.map_cons]
  refine ⟨?_, ?_, ?_, ?_, ?_, ?_, ?_, ?_, ?_, ?_, ?_, ?_, ?_, ?_, ?_⟩
  · -- w1
    intro x qs hxq
    have hxq2 : (x, qs) ∈ s.queue := by
      rw [hq]
      exact List.mem_cons_of_mem _ hxq
    rw [hszeq]
    exact h.w1 x qs hxq2
  · -- w2
    intro x hx c hmd
    rcases hx with hxq | hxp
    · have hx2 : x ∈ qids s := by
        rw [hqids]
        exact List.mem_cons_of_mem i0 hxq
      exact h.w2 x (Or.inl hx2) c hmd
    · rcases List.mem_append.mp hxp with hold | hnew
      · exact h.w2 x (Or.inr hold) c hmd
      · rw [List.mem_singleton] at hnew
        exact hnodepi c (hnew ▸ hmd)
  · -- w3
    have h3 : (i0 :: (rest.map Prod.fst ++ s.popped)).Nodup := by
      have h0 := h.w3
      rw [hqids] at h0
      simpa using h0
    have hperm : List.Perm ((rest.map Prod.fst ++ s.popped) ++ [i0])
        (i0 :: ((rest.map Prod.fst ++ s.popped) ++ [])) := List.perm_middle
    show (rest.map Prod.fst ++ (s.popped ++ [i0])).Nodup
    rw [← List.append_assoc]
    refine hperm.symm.nodup ?_
    simpa using h3
  · -- w4m
    intro a hap hai
    rcases List.mem_append.mp hap with hold | hnew
    · have old := h.w4 a hold
      refine ⟨old.1, ?_⟩
      intro b hedge
      rw [hszeq a, hszeq b]
      exact old.2 b hedge
    · rw [List.mem_singleton] at hnew
      exact absurd hnew hai
  · -- w5
    intro p hp
    rcases h.w5 p hp with ⟨c, hc, hm⟩ | hq5 | hp5
    · exact Or.inl ⟨c, hc, hm⟩
    · rw [hqids] at hq5
      rcases List.mem_cons.mp hq5 with he | ht
      · exact Or.inr (Or.inr (List.mem_append_right _ (List.mem_singleton.mpr he)))
      · exact Or.inr (Or.inl ht)
    · exact Or.inr (Or.inr (List.mem_append_left _ hp5))
  · -- w6
    exact h.w6
  · -- w7
    exact h.w7
  · -- w8m
    intro a b hedge hap
    exact h.w8 a b hedge (fun hp => hap (List.mem_append_left _ hp))
  · -- w9
    exact h.w9
  · -- hpop
    exact List.mem_append_right _ (List.mem_singleton.mpr rfl)
  · -- hsize
    show sizeAt (bumpSize s.incrs i0 sz0) i0 = sz0
    rw [hszeq]
    exact hsz0
  · -- hedges
    intro b hedge
    exact Or.inl (h.w8 i0 b hedge hip)
  · -- hentry
    exact hdep1
  · -- hin
    exact hdep2
  · -- hnd
    exact hdep3

/-- Removing a dependent never grows the total size of the dependent sets. -/
theorem sum_removeDependent_le (deps : List (Nat × List Nat)) (i d : Nat) :
    ((removeDependent deps i d).map (fun e => e.2.length)).sum ≤
      (deps.map (fun e => e.2.length)).sum := by
  rw [removeDependent, List.map_map]
  apply List.sum_le_sum
  intro e he
  by_cases h0 : e.1 = i
  · simp only [Function.comp, h0, if_pos]
    exact List.length_filter_le _ _
  · simp [Function.comp, h0]

/-- Filtering out a present element strictly shortens the list. -/
theorem length_filter_ne_lt (l : List Nat) (d : Nat) (hd : d ∈ l) :
    (l.filter (fun x => x ≠ d)).length < l.length := by
  have hs : List.Sublist (l.filter (fun x => x ≠ d)) l := List.filter_sublist l
  rcases Nat.lt_or_ge (l.filter (fun x => x ≠ d)).length l.length with hlt | hge
  · exact hlt
  · exfalso
    have heq : l.filter (fun x => x ≠ d) = l :=
      hs.eq_of_length (Nat.le_antisymm hs.length_le hge)
    have hdm : d ∈ l.filter (fun x => x ≠ d) := heq.symm ▸ hd
    have := (List.mem_filter.mp hdm).2
    simp at this

/-- Removing a recorded dependent strictly shrinks the total size of the
dependent sets. -/
theorem sum_removeDependent_lt (deps : List (Nat × List Nat)) (i d : Nat)
    (h : memDep deps i d) :
    ((removeDependent deps i d).map (fun e => e.2.length)).sum <
      (deps.map (fun e => e.2.length)).sum := by
  induction deps with
  | nil =>
    rcases h with ⟨e, he, -, -⟩
    exact absurd he (List.not_mem_nil e)
  | cons e t ih =>
    rcases (memDep_cons e t i d).mp h with ⟨hk, hdm⟩ | ht
    · have hhead : ((if e.1 = i then (e.1, e.2.filter (fun x => x ≠ d)) else e)).2.length <
          e.2.length := by
        rw [if_pos hk]
        exact length_filter_ne_lt e.2 d hdm
      have htail := sum_removeDependent_le t i d
      show ((if e.1 = i then (e.1, e.2.filter (fun x => x ≠ d)) else e)).2.length +
          ((removeDependent t i d).map (fun e => e.2.length)).sum <
          e.2.length + (t.map (fun e => e.2.length)).sum
      omega
    · have hhead : ((if e.1 = i then (e.1, e.2.filter (fun x => x ≠ d)) else e)).2.length ≤
          e.2.length := by
        by_cases h0 : e.1 = i
        · rw [if_pos h0]
          exact List.length_filter_le _ _
        · rw [if_neg h0]
      have htail := ih ht
      show ((if e.1 = i then (e.1, e.2.filter (fun x => x ≠ d)) else e)).2.length +
          ((removeDependent t i d).map (fun e => e.2.length)).sum <
          e.2.length + (t.map (fun e => e.2.length)).sum
      omega

/-- The cloned-dependents loop never increases the fuel measure. -/
theorem processDepds_fuel (cfg : ConfigFile)
    (hnodup : (cfg.projects.map (fun p => p.id)).Nodup)
    (i : Nat) (size : Size) :
    ∀ (depds : List Nat) (s : DepState), DepMid cfg i size depds s →
      depFuel (processDepds size i depds s) ≤ depFuel s := by
  intro depds
  induction depds with
  | nil => intro s _; exact Nat.le_refl _
  | cons d rest ih =>
    intro s h
    rw [processDepds]
    have hstep : depFuel (if inAnyDependents (removeDependent s.dependents i d) d
        then DepState.mk (bumpSize s.incrs d size)
          (removeDependent s.dependents i d) s.queue s.popped
        else DepState.mk (bumpSize s.incrs d size)
          (removeDependent s.dependents i d)
          (s.queue ++ [(d, sizeAt (bumpSize s.incrs d size) d)]) s.popped) ≤
        depFuel s := by
      by_cases henq : inAnyDependents (removeDependent s.dependents i d) d = true
      · rw [if_pos henq]
        show s.queue.length +
            ((removeDependent s.dependents i d).map (fun e => e.2.length)).sum ≤
            s.queue.length + (s.dependents.map (fun e => e.2.length)).sum
        exact Nat.add_le_add_left (sum_removeDependent_le _ _ _) _
      · rw [if_neg henq]
        have hlt := sum_removeDependent_lt s.dependents i d
          (h.hin d (List.mem_cons_self _ _))
        show (s.queue ++ [(d, sizeAt (bumpSize s.incrs d size) d)]).length +
            ((removeDependent s.dependents i d).map (fun e => e.2.length)).sum ≤
            s.queue.length + (s.dependents.map (fun e => e.2.length)).sum
        rw [List.length_append]
        simp only [List.length_singleton]
        omega
    exact Nat.le_trans (ih _ (depMid_inner_step cfg hnodup i size d rest s h)) hstep

/-- One pop of a non-empty queue preserves the invariant and strictly
decreases the fuel measure. -/
theorem depStep_good (cfg : ConfigFile)
    (hnodup : (cfg.projects.map (fun p => p.id)).Nodup)
    (s : DepState) (h : DepInv cfg s) (i0 : Nat) (sz0 : Size)
    (rest : List (Nat × Size)) (hq : s.queue = (i0, sz0) :: rest) :
    DepInv cfg (depStep s) ∧ depFuel (depStep s) < depFuel s := by
  have hstep : depStep s = (match alookup s.dependents i0 with
      | Option.none => DepState.mk (bumpSize s.incrs i0 sz0) s.dependents rest
          (s.popped ++ [i0])
      | some depds => processDepds sz0 i0 depds
          (DepState.mk (bumpSize s.incrs i0 sz0) s.dependents rest
            (s.popped ++ [i0]))) := by
    unfold depStep
    rw [hq]
  have hfuel0 : depFuel (DepState.mk (bumpSize s.incrs i0 sz0) s.dependents rest
      (s.popped ++ [i0])) < depFuel s := by
    show rest.length + (s.dependents.map (fun e => e.2.length)).sum <
        s.queue.length + (s.dependents.map (fun e => e.2.length)).sum
    rw [hq, List.length_cons]
    omega
  rw [hstep]
  cases hd : alookup s.dependents i0 with
  | none =>
    have hmid : DepMid cfg i0 sz0 []
        (DepState.mk (bumpSize s.incrs i0 sz0) s.dependents rest
          (s.popped ++ [i0])) := by
      refine depMid_start cfg s h i0 sz0 rest hq [] ?_ ?_ ?_
      · intro b hmd
        rcases memDep_lookup _ _ _ h.w7 hmd with ⟨l, hl, -⟩
        rw [hd] at hl
        exact absurd hl (by simp)
      · intro x hx
        exact absurd hx (List.not_mem_nil x)
      · exact List.nodup_nil
    exact ⟨depInv_of_mid cfg i0 sz0 _ hmid, hfuel0⟩
  | some depds =>
    have hmid : DepMid cfg i0 sz0 depds
        (DepState.mk (bumpSize s.incrs i0 sz0) s.dependents rest
          (s.popped ++ [i0])) := by
      refine depMid_start cfg s h i0 sz0 rest hq depds ?_ ?_ ?_
      · intro b hmd
        rcases memDep_lookup _ _ _ h.w7 hmd with ⟨l, hl, hbl⟩
        have hld : l = depds := by
          have := hl.symm.trans hd
          injection this
        rw [hld] at hbl
        exact hbl
      · intro x hx
        exact ⟨(i0, depds), alookup_mem _ _ _ hd, rfl, hx⟩
      · exact h.w9 (i0, depds) (alookup_mem _ _ _ hd)
    constructor
    · exact depInv_of_mid cfg i0 sz0 _ (processDepds_mid cfg hnodup i0 sz0 depds _ hmid)
    · exact Nat.lt_of_le_of_lt (processDepds_fuel cfg hnodup i0 sz0 depds _ hmid) hfuel0

/-- Running the pop loop on enough fuel preserves the invariant and fully
drains the queue. -/
theorem depLoop_good (cfg : ConfigFile)
    (hnodup : (cfg.projects.map (fun p => p.id)).Nodup) :
    ∀ (n : Nat) (s : DepState), DepInv cfg s → depFuel s ≤ n →
      DepInv cfg (depLoop n s) ∧ (depLoop n s).queue = [] := by
  intro n
  induction n with
  | zero =>
    intro s h hf
    have hlen : s.queue.length = 0 := by
      unfold depFuel at hf
      omega
    exact ⟨h, List.length_eq_zero.mp hlen⟩
  | succ n ih =>
    intro s h hf
    rw [depLoop]
    by_cases hqe : s.queue.isEmpty = true
    · rw [if_pos hqe]
      refine ⟨h, ?_⟩
      cases hql : s.queue with
      | nil => rfl
      | cons a t => rw [hql] at hqe; exact absurd hqe (by simp)
    · rw [if_neg hqe]
      cases hql : s.queue with
      | nil => rw [hql] at hqe; exact absurd rfl hqe
      | cons p t =>
        obtain ⟨i0, sz0⟩ := p
        have hgood := depStep_good cfg hnodup s h i0 sz0 t hql
        exact ih (depStep s) hgood.1 (by omega)

/-- The cloned-dependents loop only ever maxes sizes upward. -/
theorem sizeAt_processDepds_le (size : Size) (i : Nat) :
    ∀ (depds : List Nat) (s : DepState) (x : Nat),
      Size.le (sizeAt s.incrs x) (sizeAt (processDepds size i depds s).incrs x) := by
  intro depds
  induction depds with
  | nil => intro s x; exact Size.le_refl _
  | cons d rest ih =>
    intro s x
    rw [processDepds]
    by_cases henq : inAnyDependents (removeDependent s.dependents i d) d = true
    · have h2 := ih (DepState.mk (bumpSize s.incrs d size)
        (removeDependent s.dependents i d) s.queue s.popped) x
      refine Size.le_trans (sizeAt_bumpSize_le s.incrs d x size) ?_
      simpa [henq] using h2
    · have h2 := ih (DepState.mk (bumpSize s.incrs d size)
        (removeDependent s.dependents i d)
        (s.queue ++ [(d, sizeAt (bumpSize s.incrs d size) d)]) s.popped) x
      refine Size.le_trans (sizeAt_bumpSize_le s.incrs d x size) ?_
      simpa [henq] using h2

/-- One pop only ever maxes sizes upward. -/
theorem sizeAt_depStep_le (s : DepState) (x : Nat) :
    Size.le (sizeAt s.incrs x) (sizeAt (depStep s).incrs x) := by
  obtain ⟨inc, dep, q, pop⟩ := s
  cases q with
  | nil => exact Size.le_refl _
  | cons hd rest =>
    obtain ⟨i0, sz0⟩ := hd
    show Size.le (sizeAt inc x) (sizeAt (match alookup dep i0 with
      | Option.none => DepState.mk (bumpSize inc i0 sz0) dep rest (pop ++ [i0])
      | some depds => processDepds sz0 i0 depds
          (DepState.mk (bumpSize inc i0 sz0) dep rest (pop ++ [i0]))).incrs x)
    cases hd2 : alookup dep i0 with
    | none =>
      exact sizeAt_bumpSize_le _ _ _ _
    | some depds =>
      show Size.le (sizeAt inc x) (sizeAt (processDepds sz0 i0 depds
        (DepState.mk (bumpSize inc i0 sz0) dep rest (pop ++ [i0]))).incrs x)
      exact Size.le_trans (sizeAt_bumpSize_le inc i0 x sz0)
        (sizeAt_processDepds_le sz0 i0 depds
          (DepState.mk (bumpSize inc i0 sz0) dep rest (pop ++ [i0])) x)

/-- The whole pop loop only ever maxes sizes upward. -/
theorem sizeAt_depLoop_le :
    ∀ (n : Nat) (s : DepState) (x : Nat),
      Size.le (sizeAt s.incrs x) (sizeAt (depLoop n s).incrs x) := by
  intro n
  induction n with
  | zero => intro s x; exact Size.le_refl _
  | succ n ih =>
    intro s x
    rw [depLoop]
    by_cases hqe : s.queue.isEmpty = true
    · rw [if_pos hqe]
      exact Size.le_refl _
    · rw [if_neg hqe]
      exact Size.le_trans (sizeAt_depStep_le s x) (ih (depStep s) x)

/-- In an acyclic, dependency-closed configuration, once the queue is
drained every project has been popped. -/
theorem popped_complete (cfg : ConfigFile) (s : DepState)
    (h : DepInv cfg s) (hqe : s.queue = [])
    (r : Nat → Nat) (hr : ∀ a b, IsEdge cfg a b → r a < r b)
    (hclosed : ∀ p ∈ cfg.projects, ∀ c ∈ p.depends, ∃ q ∈ cfg.projects, q.id = c) :
    ∀ (n : Nat) (p : Project), p ∈ cfg.projects → r p.id < n → p.id ∈ s.popped := by
  intro n
  induction n with
  | zero => intro p _ hrp; exact absurd hrp (Nat.not_lt_zero _)
  | succ n ih =>
    intro p hp hrp
    rcases h.w5 p hp with ⟨c, hc, hmd⟩ | hq5 | hp5
    · exfalso
      have hedge : IsEdge cfg c p.id := ⟨p, hp, rfl, hc⟩
      rcases hclosed p hp c hc with ⟨q, hqm, hqid⟩
      have hrq : r q.id < n := by
        have h1 := hr c p.id hedge
        rw [hqid]
        omega
      have hqp : q.id ∈ s.popped := ih q hqm hrq
      have hnomd := (h.w4 q.id hqp).1 p.id
      rw [hqid] at hnomd
      exact hnomd hmd
    · exfalso
      rw [qids, hqe] at hq5
      exact absurd hq5 (List.not_mem_nil _)
    · exact hp5

/-- C2: After handle_deps returns on an acyclic, dependency-closed
configuration with duplicate-free project ids, for every dependency edge
a → b (project b depends on project a) the planned size of b is at least
the planned size of a in the total order None < Empty < Patch < Minor <
Major; and propagation never reduces a size already set by direct
commits.  Acyclicity is supplied as a rank function increasing along
edges. -/
theorem handle_deps_monotone (cfg : ConfigFile)
    (incrs0 : List (Nat × (Size × ChangeLog))) (r : Nat → Nat)
    (hnodup : (cfg.projects.map (fun p => p.id)).Nodup)
    (hr : ∀ a b, IsEdge cfg a b → r a < r b)
    (hclosed : ∀ p ∈ cfg.projects, ∀ c ∈ p.depends,
      ∃ q ∈ cfg.projects, q.id = c) :
    (∀ a b, IsEdge cfg a b →
      Size.le (sizeAt (handleDeps cfg incrs0) a)
        (sizeAt (handleDeps cfg incrs0) b)) ∧
    (∀ x, Size.le (sizeAt incrs0 x) (sizeAt (handleDeps cfg incrs0) x)) := by
  have hinit := depInv_init cfg incrs0 hnodup
  have hloop := depLoop_good cfg hnodup
    (depFuel (DepState.mk incrs0 (initDeps cfg incrs0).1 (initDeps cfg incrs0).2 []))
    (DepState.mk incrs0 (initDeps cfg incrs0).1 (initDeps cfg incrs0).2 [])
    hinit (Nat.le_refl _)
  have hkey : handleDeps cfg incrs0 =
      (depLoop
        (depFuel (DepState.mk incrs0 (initDeps cfg incrs0).1 (initDeps cfg incrs0).2 []))
        (DepState.mk incrs0 (initDeps cfg incrs0).1 (initDeps cfg incrs0).2 [])).incrs :=
    rfl
  constructor
  · intro a b hedge
    rcases hedge with ⟨p, hp, hpid, hadep⟩
    rcases hclosed p hp a hadep with ⟨q, hqm, hqid⟩
    have hpopped := popped_complete cfg _ hloop.1 hloop.2 r hr hclosed
      (r q.id + 1) q hqm (Nat.lt_succ_self _)
    have hedge2 : IsEdge cfg q.id b := ⟨p, hp, hpid, by rw [hqid]; exact hadep⟩
    have h4 := (hloop.1.w4 q.id hpopped).2 b hedge2
    rw [hkey, ← hqid]
    exact h4
  · intro x
    rw [hkey]
    exact sizeAt_depLoop_le
      (depFuel (DepState.mk incrs0 (initDeps cfg incrs0).1 (initDeps cfg incrs0).2 []))
      (DepState.mk incrs0 (initDeps cfg incrs0).1 (initDeps cfg incrs0).2 []) x

/-- The dependency-propagation theorem applied to the demo configuration:
its acyclicity, closure and distinct-id hypotheses hold there, and the
propagated size of project 2 dominates that of project 1. -/
theorem handle_deps_monotone_app :
    Size.le (sizeAt (handleDeps depsDemoCfg depsDemoIncrs) 1)
      (sizeAt (handleDeps depsDemoCfg depsDemoIncrs) 2) ∧
    (∀ x, Size.le (sizeAt depsDemoIncrs x)
      (sizeAt (handleDeps depsDemoCfg depsDemoIncrs) x)) := by
  have h := handle_deps_monotone depsDemoCfg depsDemoIncrs (fun x => x)
    (by decide)
    (by
      intro a b he
      rcases he with ⟨p, hp, hpid, hadep⟩
      have hp2 : p = ⟨1, "lib", "1.0.0", ["lib/"], []⟩ ∨
          p = ⟨2, "app", "1.0.0", ["app/"], [1]⟩ := by
        simpa [depsDemoCfg] using hp
      rcases hp2 with h1 | h1
      · rw [h1] at hadep
        exact absurd hadep (List.not_mem_nil a)
      · rw [h1] at hadep hpid
        have ha : a = 1 := by simpa using hadep
        have hb : b = 2 := by simpa using hpid.symm
        rw [ha, hb]
        decide)
    (by
      intro p hp c hc
      have hp2 : p = ⟨1, "lib", "1.0.0", ["lib/"], []⟩ ∨
          p = ⟨2, "app", "1.0.0", ["app/"], [1]⟩ := by
        simpa [depsDemoCfg] using hp
      rcases hp2 with h1 | h1
      · rw [h1] at hc
        exact absurd hc (List.not_mem_nil c)
      · rw [h1] at hc
        have hc1 : c = 1 := by simpa using hc
        refine ⟨⟨1, "lib", "1.0.0", ["lib/"], []⟩, by decide, ?_⟩
        rw [hc1])
  refine ⟨?_, h.2⟩
  exact h.1 1 2 ⟨⟨2, "app", "1.0.0", ["app/"], [1]⟩, by decide, rfl, by decide⟩

/-- The key sequence of an entry-or-insert is addKey of the old keys. -/
theorem map_fst_modEntry_addKey {β : Type} (m : List (Nat × β)) (k : Nat)
    (d : β) (f : β → β) :
    (modEntry m k d f).map Prod.fst = addKey (m.map Prod.fst) k := by
  induction m with
  | nil => simp [modEntry, addKey]
  | cons e t ih =>
    by_cases h0 : e.1 = k
    · rw [modEntry, if_pos h0]
      simp [addKey, h0]
    · rw [modEntry, if_neg h0]
      rw [List.map_cons, List.map_cons, ih]
      have hek : (k == e.1) = false := beq_eq_false_iff_ne.mpr (fun h => h0 h.symm)
      unfold addKey
      rw [List.contains_cons, hek, Bool.false_or]
      by_cases hc : (t.map Prod.fst).contains k
      · rw [if_pos hc, if_pos hc]
      · rw [if_neg hc, if_neg hc, List.cons_append]

/-- addKey preserves key-sequence duplicate-freedom. -/
theorem addKey_nodup (ks : List Nat) (k : Nat) (h : ks.Nodup) :
    (addKey ks k).Nodup := by
  unfold addKey
  by_cases hc : ks.contains k
  · rw [if_pos hc]
    exact h
  · rw [if_neg hc]
    refine List.Nodup.append h (List.nodup_singleton k) ?_
    intro x hx hxk
    rw [List.mem_singleton] at hxk
    rw [hxk] at hx
    exact hc (List.elem_eq_true_of_mem hx)

/-- Membership after addKey. -/
theorem mem_addKey (ks : List Nat) (k x : Nat) :
    x ∈ addKey ks k ↔ x ∈ ks ∨ x = k := by
  unfold addKey
  by_cases hc : ks.contains k
  · rw [if_pos hc]
    constructor
    · exact Or.inl
    · rintro (h | h)
      · exact h
      · rw [h]
        exact List.mem_of_elem_eq_true hc
  · rw [if_neg hc]
    simp

/-- Folding addKey preserves duplicate-freedom. -/
theorem foldl_addKey_nodup (dks : List Nat) :
    ∀ ks, ks.Nodup → (dks.foldl addKey ks).Nodup := by
  induction dks with
  | nil => intro ks h; exact h
  | cons d t ih =>
    intro ks h
    rw [List.foldl_cons]
    exact ih _ (addKey_nodup ks d h)

/-- Membership after folding addKey. -/
theorem mem_foldl_addKey (dks : List Nat) :
    ∀ ks x, x ∈ dks.foldl addKey ks ↔ x ∈ ks ∨ x ∈ dks := by
  induction dks with
  | nil => intro ks x; simp
  | cons d t ih =>
    intro ks x
    rw [List.foldl_cons, ih, mem_addKey]
    constructor
    · rintro ((h | h) | h)
      · exact Or.inl h
      · exact Or.inr (by rw [h]; exact List.mem_cons_self _ _)
      · exact Or.inr (List.mem_cons_of_mem _ h)
    · rintro (h | h)
      · exact Or.inl (Or.inl h)
      · rcases List.mem_cons.mp h with he | ht
        · exact Or.inl (Or.inr he)
        · exact Or.inr ht

/-- The key sequence after one drain step is addKey of the drained key. -/
theorem map_fst_finishPrStep (st : (List (Nat × (Size × ChangeLog))) × Bool)
    (e : Nat × LoggedPr) :
    ((finishPrStep st e).1).map Prod.fst = addKey (st.1.map Prod.fst) e.1 := by
  unfold finishPrStep
  cases hm : maxApplying e.2.commits with
  | none => exact map_fst_modEntry_addKey _ _ _ _
  | some s => exact map_fst_modEntry_addKey _ _ _ _

/-- The key sequence after the whole drain loop folds addKey over the
drained keys. -/
theorem map_fst_finishPrFold2 (drained : List (Nat × LoggedPr)) :
    ∀ (st : (List (Nat × (Size × ChangeLog))) × Bool),
      ((drained.foldl finishPrStep st).1).map Prod.fst =
        (drained.map Prod.fst).foldl addKey (st.1.map Prod.fst) := by
  induction drained with
  | nil => intro st; rfl
  | cons e t ih =>
    intro st
    rw [List.foldl_cons, ih, List.map_cons, List.foldl_cons, map_fst_finishPrStep]

/-- The commit fold of one PR preserves the tentative key sequence. -/
theorem map_fst_commitsFold (cfg : ConfigFile) (slices : Slices)
    (cs : List CommitInfoBuf) :
    ∀ (ops : List (Nat × LoggedPr)),
      ((cs.foldl (fun ops c => commitOps cfg slices c ops) ops)).map Prod.fst =
        ops.map Prod.fst := by
  induction cs with
  | nil => intro ops; rfl
  | cons c t ih =>
    intro ops
    rw [List.foldl_cons, ih, map_fst_commitOps]

/-- The tentative PRs drained by finish_pr carry exactly the current
project ids, in configuration order. -/
theorem map_fst_prOpsP (cfg : ConfigFile) (slices : Slices) (pr : FullPr) :
    (prOpsP cfg slices pr).map Prod.fst = cfg.projects.map (fun p => p.id) := by
  unfold prOpsP
  rw [map_fst_commitsFold, List.map_map]
  rfl

/-- The incrs key sequence after one PR round folds addKey over the
project ids. -/
theorem map_fst_prStepP (cfg : ConfigFile) (slices : Slices)
    (b : PlanBuilder) (pr : FullPr) :
    (prStepP cfg slices b pr).incrs.map Prod.fst =
      (cfg.projects.map (fun p => p.id)).foldl addKey (b.incrs.map Prod.fst) := by
  show ((finishPrFold (prOpsP cfg slices pr) b.incrs).1).map Prod.fst =
    (cfg.projects.map (fun p => p.id)).foldl addKey (b.incrs.map Prod.fst)
  unfold finishPrFold
  rw [map_fst_finishPrFold2, map_fst_prOpsP]

/-- Every tentative PR of the file loop keeps its closed-at stamp. -/
theorem fileFold_closedAt (prev : ConfigFile) (oid path : String)
    (ops : List (Nat × LoggedPr)) (v : Int)
    (h : ∀ e ∈ ops, e.2.closedAt = v) :
    ∀ e ∈ fileOpsP prev oid path ops, e.2.closedAt = v := by
  intro e he
  rcases fileFold_entries oid path prev.projects ops e he with ⟨e1, he1, -, hc, -⟩
  rw [hc]
  exact h e1 he1

/-- Every tentative PR of the per-commit file fold keeps its closed-at
stamp. -/
theorem filesFold_closedAt (prev : ConfigFile) (oid : String) (v : Int) :
    ∀ (paths : List String) (acc : List (Nat × LoggedPr)),
      (∀ e ∈ acc, e.2.closedAt = v) →
      ∀ e ∈ paths.foldl (fun acc path => fileOpsP prev oid path acc) acc,
        e.2.closedAt = v := by
  intro paths
  induction paths with
  | nil => intro acc h; exact h
  | cons p t ih =>
    intro acc h
    rw [List.foldl_cons]
    exact ih _ (fileFold_closedAt prev oid p acc v h)

/-- Every tentative PR of one commit round keeps its closed-at stamp. -/
theorem commitOps_closedAt (cfg : ConfigFile) (slices : Slices)
    (c : CommitInfoBuf) (ops : List (Nat × LoggedPr)) (v : Int)
    (h : ∀ e ∈ ops, e.2.closedAt = v) :
    ∀ e ∈ commitOps cfg slices c ops, e.2.closedAt = v := by
  have hpush : ∀ e ∈ ops.map (pushCommit cfg c), e.2.closedAt = v := by
    intro e he
    rcases List.mem_map.mp he with ⟨e0, he0, heq⟩
    rw [← heq, pushCommit_closedAt]
    exact h e0 he0
  exact filesFold_closedAt (slices c.id) c.id v c.files _ hpush

/-- Every tentative PR drained by finish_pr carries the PR closed-at
stamp. -/
theorem prOpsP_closedAt (cfg : ConfigFile) (slices : Slices) (pr : FullPr) :
    ∀ e ∈ prOpsP cfg slices pr, e.2.closedAt = pr.closedAt := by
  unfold prOpsP
  have hinit : ∀ e ∈ cfg.projects.map (fun p => (p.id, LoggedPr.capture pr)),
      e.2.closedAt = pr.closedAt := by
    intro e he
    rcases List.mem_map.mp he with ⟨p, -, heq⟩
    rw [← heq]
    rfl
  generalize cfg.projects.map (fun p => (p.id, LoggedPr.capture pr)) = ops0 at hinit
  induction pr.commits generalizing ops0 with
  | nil => exact hinit
  | cons c t ih =>
    rw [List.foldl_cons]
    exact ih _ (commitOps_closedAt cfg slices c ops0 pr.closedAt hinit)

/-- Looking up an untouched project after one PR round. -/
theorem alookup_prStepP_untouched (cfg : ConfigFile) (slices : Slices)
    (b : PlanBuilder) (pr : FullPr) (pid : Nat)
    (h : pid ∉ cfg.projects.map (fun p => p.id)) :
    alookup (prStepP cfg slices b pr).incrs pid = alookup b.incrs pid := by
  show alookup (finishPrFold (prOpsP cfg slices pr) b.incrs).1 pid = _
  unfold finishPrFold
  apply finishPrFold_untouched
  rw [map_fst_prOpsP]
  exact h

/-- Looking up a drained project after one PR round. -/
theorem alookup_prStepP_hit (cfg : ConfigFile) (slices : Slices)
    (hnodup : (cfg.projects.map (fun p => p.id)).Nodup)
    (b : PlanBuilder) (pr : FullPr) (pid : Nat) (lp : LoggedPr)
    (hmem : (pid, lp) ∈ prOpsP cfg slices pr) :
    alookup (prStepP cfg slices b pr).incrs pid =
      some (match maxApplying lp.commits with
            | some s =>
              (Size.max ((alookup b.incrs pid).getD (Size.None, [])).1 s,
               ((alookup b.incrs pid).getD (Size.None, [])).2 ++ [(lp, s)])
            | Option.none => (alookup b.incrs pid).getD (Size.None, [])) := by
  show alookup (finishPrFold (prOpsP cfg slices pr) b.incrs).1 pid = _
  unfold finishPrFold
  exact finishPrFold_hit _ _ pid lp hmem (by rw [map_fst_prOpsP]; exact hnodup)

/-- A current project always has a drained tentative PR. -/
theorem prOpsP_lookup (cfg : ConfigFile) (slices : Slices) (pr : FullPr)
    (pid : Nat) (h : pid ∈ cfg.projects.map (fun p => p.id)) :
    ∃ lp, (pid, lp) ∈ prOpsP cfg slices pr := by
  have h2 : pid ∈ (prOpsP cfg slices pr).map Prod.fst := by
    rw [map_fst_prOpsP]
    exact h
  rcases List.mem_map.mp h2 with ⟨e, he, heq⟩
  refine ⟨e.2, ?_⟩
  rw [← heq]
  exact he

/-- Equal lookups give equal logs. -/
theorem logAt_congr {l1 l2 : List (Nat × (Size × ChangeLog))} {pid : Nat}
    (h : alookup l1 pid = alookup l2 pid) : logAt l1 pid = logAt l2 pid := by
  unfold logAt
  rw [h]

/-- Equal mapped sizes give equal defaulted sizes. -/
theorem getD_fst_eq (o1 o2 : Option (Size × ChangeLog))
    (h : o1.map Prod.fst = o2.map Prod.fst) :
    (o1.getD (Size.None, [])).1 = (o2.getD (Size.None, [])).1 := by
  cases o1 with
  | none =>
    cases o2 with
    | none => rfl
    | some v => simp at h
  | some v =>
    cases o2 with
    | none => simp at h
    | some w =>
      simp at h
      simpa using h

/-- A known mapped size gives the defaulted size. -/
theorem getD_fst_of_map (o : Option (Size × ChangeLog)) (x : Size)
    (h : o.map Prod.fst = some x) : (o.getD (Size.None, [])).1 = x := by
  cases o with
  | none => simp at h
  | some v => simpa using h

/-- The observable effect of one PR round on a drained project: the size
becomes the max with the PR contribution, and the change log grows by the
PR entry exactly when some tentative commit applies. -/
theorem prStepP_obs (cfg : ConfigFile) (slices : Slices)
    (hnodup : (cfg.projects.map (fun p => p.id)).Nodup)
    (b : PlanBuilder) (pr : FullPr) (pid : Nat) (lp : LoggedPr)
    (hmem : (pid, lp) ∈ prOpsP cfg slices pr) :
    (alookup (prStepP cfg slices b pr).incrs pid).map Prod.fst =
      some (match maxApplying lp.commits with
            | some s => Size.max ((alookup b.incrs pid).getD (Size.None, [])).1 s
            | Option.none => ((alookup b.incrs pid).getD (Size.None, [])).1) ∧
    logAt (prStepP cfg slices b pr).incrs pid =
      logAt b.incrs pid ++ (match maxApplying lp.commits with
            | some s => [(lp, s)]
            | Option.none => []) := by
  have h1 := alookup_prStepP_hit cfg slices hnodup b pr pid lp hmem
  cases hm : maxApplying lp.commits with
  | some s =>
    rw [hm] at h1
    constructor
    · rw [h1]
      rfl
    · unfold logAt
      rw [h1]
      rfl
  | none =>
    rw [hm] at h1
    constructor
    · rw [h1]
      rfl
    · unfold logAt
      rw [h1]
      show ((alookup b.incrs pid).getD (Size.None, [])).2 =
        ((alookup b.incrs pid).getD (Size.None, [])).2 ++ []
      rw [List.append_nil]

/-- The found flag of finish_pr depends only on the PR group, not on the
accumulated builder. -/
theorem prFlag_indep (cfg : ConfigFile) (slices : Slices) (pr : FullPr)
    (l : List (Nat × (Size × ChangeLog))) :
    (finishPrFold (prOpsP cfg slices pr) l).2 =
      (prOpsP cfg slices pr).any (fun e => (maxApplying e.2.commits).isSome) := by
  unfold finishPrFold
  rw [finishPrFold_found]
  simp

/-- The ineffective list after one PR round: the PR capture is appended
exactly when no drained tentative commit applies. -/
theorem prStepP_ineffective (cfg : ConfigFile) (slices : Slices)
    (bb : PlanBuilder) (pr : FullPr) :
    (prStepP cfg slices bb pr).ineffective =
      bb.ineffective ++
        (if (prOpsP cfg slices pr).any (fun e => (maxApplying e.2.commits).isSome)
         then [] else [LoggedPr.capture pr]) := by
  show (if (finishPrFold (prOpsP cfg slices pr) bb.incrs).2 then bb.ineffective
        else bb.ineffective ++ [LoggedPr.capture pr]) = _
  rw [prFlag_indep]
  by_cases hf : (prOpsP cfg slices pr).any (fun e => (maxApplying e.2.commits).isSome) = true
  · rw [if_pos hf, if_pos hf, List.append_nil]
  · rw [if_neg hf, if_neg hf]

/-- The builder relation is reflexive. -/
theorem builderRel_refl (b : PlanBuilder) : BuilderRel b b :=
  ⟨⟨rfl, fun _ => ⟨rfl, List.Perm.refl _⟩⟩, List.Perm.refl _⟩

/-- The builder relation is transitive. -/
theorem builderRel_trans {b1 b2 b3 : PlanBuilder}
    (h1 : BuilderRel b1 b2) (h2 : BuilderRel b2 b3) : BuilderRel b1 b3 := by
  refine ⟨⟨h1.1.1.trans h2.1.1, fun pid => ?_⟩, h1.2.trans h2.2⟩
  exact ⟨(h1.1.2 pid).1.trans (h2.1.2 pid).1, (h1.1.2 pid).2.trans (h2.1.2 pid).2⟩

/-- One PR round preserves the builder relation. -/
theorem builderRel_step (cfg : ConfigFile) (slices : Slices)
    (hnodup : (cfg.projects.map (fun p => p.id)).Nodup)
    (b1 b2 : PlanBuilder) (pr : FullPr) (h : BuilderRel b1 b2) :
    BuilderRel (prStepP cfg slices b1 pr) (prStepP cfg slices b2 pr) := by
  obtain ⟨⟨hkeys, hpt⟩, hineff⟩ := h
  refine ⟨⟨?_, ?_⟩, ?_⟩
  · rw [map_fst_prStepP, map_fst_prStepP, hkeys]
  · intro pid
    by_cases hin : pid ∈ cfg.projects.map (fun p => p.id)
    · rcases prOpsP_lookup cfg slices pr pid hin with ⟨lp, hlp⟩
      have ho1 := prStepP_obs cfg slices hnodup b1 pr pid lp hlp
      have ho2 := prStepP_obs cfg slices hnodup b2 pr pid lp hlp
      have hfst : ((alookup b1.incrs pid).getD (Size.None, [])).1 =
          ((alookup b2.incrs pid).getD (Size.None, [])).1 :=
        getD_fst_eq _ _ (hpt pid).1
      constructor
      · rw [ho1.1, ho2.1, hfst]
      · rw [ho1.2, ho2.2]
        exact List.Perm.append (hpt pid).2 (List.Perm.refl _)
    · have h1 := alookup_prStepP_untouched cfg slices b1 pr pid hin
      have h2 := alookup_prStepP_untouched cfg slices b2 pr pid hin
      constructor
      · rw [h1, h2]
        exact (hpt pid).1
      · rw [logAt_congr h1, logAt_congr h2]
        exact (hpt pid).2
  · rw [prStepP_ineffective, prStepP_ineffective]
    exact List.Perm.append hineff (List.Perm.refl _)

/-- Two successive PR rounds commute up to the builder relation. -/
theorem builderRel_swap (cfg : ConfigFile) (slices : Slices)
    (hnodup : (cfg.projects.map (fun p => p.id)).Nodup)
    (b : PlanBuilder) (prA prB : FullPr) :
    BuilderRel (prStepP cfg slices (prStepP cfg slices b prA) prB)
      (prStepP cfg slices (prStepP cfg slices b prB) prA) := by
  refine ⟨⟨?_, ?_⟩, ?_⟩
  · rw [map_fst_prStepP, map_fst_prStepP, map_fst_prStepP, map_fst_prStepP]
  · intro pid
    by_cases hin : pid ∈ cfg.projects.map (fun p => p.id)
    · rcases prOpsP_lookup cfg slices prA pid hin with ⟨lpA, hlpA⟩
      rcases prOpsP_lookup cfg slices prB pid hin with ⟨lpB, hlpB⟩
      have hoA1 := prStepP_obs cfg slices hnodup b prA pid lpA hlpA
      have hoB1 := prStepP_obs cfg slices hnodup (prStepP cfg slices b prA) prB pid lpB hlpB
      have hoB2 := prStepP_obs cfg slices hnodup b prB pid lpB hlpB
      have hoA2 := prStepP_obs cfg slices hnodup (prStepP cfg slices b prB) prA pid lpA hlpA
      have hmidA : ((alookup (prStepP cfg slices b prA).incrs pid).getD (Size.None, [])).1 =
          (match maxApplying lpA.commits with
           | some s => Size.max ((alookup b.incrs pid).getD (Size.None, [])).1 s
           | Option.none => ((alookup b.incrs pid).getD (Size.None, [])).1) :=
        getD_fst_of_map _ _ hoA1.1
      have hmidB : ((alookup (prStepP cfg slices b prB).incrs pid).getD (Size.None, [])).1 =
          (match maxApplying lpB.commits with
           | some s => Size.max ((alookup b.incrs pid).getD (Size.None, [])).1 s
           | Option.none => ((alookup b.incrs pid).getD (Size.None, [])).1) :=
        getD_fst_of_map _ _ hoB2.1
      constructor
      · rw [hoB1.1, hoA2.1, hmidA, hmidB]
        cases hmA : maxApplying lpA.commits with
        | some sA =>
          cases hmB : maxApplying lpB.commits with
          | some sB =>
            show some (Size.max (Size.max ((alookup b.incrs pid).getD (Size.None, [])).1 sA) sB) =
              some (Size.max (Size.max ((alookup b.incrs pid).getD (Size.None, [])).1 sB) sA)
            rw [Size.max_assoc, Size.max_assoc, Size.max_comm sA sB]
          | none => rfl
        | none =>
          cases hmB : maxApplying lpB.commits with
          | some sB => rfl
          | none => rfl
      · rw [hoB1.2, hoA1.2, hoA2.2, hoB2.2, List.append_assoc, List.append_assoc]
        exact List.Perm.append_left _ List.perm_append_comm
    · have hA1 := alookup_prStepP_untouched cfg slices b prA pid hin
      have hB1 := alookup_prStepP_untouched cfg slices (prStepP cfg slices b prA) prB pid hin
      have hB2 := alookup_prStepP_untouched cfg slices b prB pid hin
      have hA2 := alookup_prStepP_untouched cfg slices (prStepP cfg slices b prB) prA pid hin
      constructor
      · rw [hB1, hA1, hA2, hB2]
      · rw [logAt_congr hB1, logAt_congr hA1, logAt_congr hA2, logAt_congr hB2]
  · rw [prStepP_ineffective, prStepP_ineffective, prStepP_ineffective,
      prStepP_ineffective, List.append_assoc, List.append_assoc]
    exact List.Perm.append_left _ List.perm_append_comm

/-- The PR fold preserves the builder relation. -/
theorem builderRel_fold (cfg : ConfigFile) (slices : Slices)
    (hnodup : (cfg.projects.map (fun p => p.id)).Nodup) (prs : List FullPr) :
    ∀ b1 b2, BuilderRel b1 b2 →
      BuilderRel (prs.foldl (prStepP cfg slices) b1)
        (prs.foldl (prStepP cfg slices) b2) := by
  induction prs with
  | nil => intro b1 b2 h; exact h
  | cons pr t ih =>
    intro b1 b2 h
    rw [List.foldl_cons, List.foldl_cons]
    exact ih _ _ (builderRel_step cfg slices hnodup b1 b2 pr h)

/-- Folding a permuted PR list yields related builders. -/
theorem builderRel_perm (cfg : ConfigFile) (slices : Slices)
    (hnodup : (cfg.projects.map (fun p => p.id)).Nodup)
    {prs1 prs2 : List FullPr} (hp : List.Perm prs1 prs2) :
    ∀ b1 b2, BuilderRel b1 b2 →
      BuilderRel (prs1.foldl (prStepP cfg slices) b1)
        (prs2.foldl (prStepP cfg slices) b2) := by
  induction hp with
  | nil => intro b1 b2 h; exact h
  | cons x hp2 ih =>
    intro b1 b2 h
    rw [List.foldl_cons, List.foldl_cons]
    exact ih _ _ (builderRel_step cfg slices hnodup b1 b2 x h)
  | swap x y l =>
    intro b1 b2 h
    rw [List.foldl_cons, List.foldl_cons, List.foldl_cons, List.foldl_cons]
    refine builderRel_fold cfg slices hnodup l _ _ ?_
    refine builderRel_trans (builderRel_swap cfg slices hnodup b1 y x) ?_
    exact builderRel_step cfg slices hnodup _ _ y
      (builderRel_step cfg slices hnodup b1 b2 x h)
  | trans hp1 hp2 ih1 ih2 =>
    intro b1 b2 h
    exact builderRel_trans (ih1 b1 b2 h) (ih2 _ _ (builderRel_refl _))

/-- Same keys, duplicate-free, pointwise related lookups: the two incrs
maps are entrywise related. -/
theorem incrsRel_forall2 :
    ∀ (l1 l2 : List (Nat × (Size × ChangeLog))),
      l1.map Prod.fst = l2.map Prod.fst → (l1.map Prod.fst).Nodup →
      (∀ pid, (alookup l1 pid).map Prod.fst = (alookup l2 pid).map Prod.fst ∧
        List.Perm (logAt l1 pid) (logAt l2 pid)) →
      List.Forall₂ entryRel l1 l2 := by
  intro l1
  induction l1 with
  | nil =>
    intro l2 hk _ _
    have : l2 = [] := by
      cases l2 with
      | nil => rfl
      | cons e t => simp at hk
    rw [this]
    exact List.Forall₂.nil
  | cons e1 t1 ih =>
    intro l2 hk hnd hpt
    cases l2 with
    | nil => simp at hk
    | cons e2 t2 =>
      rw [List.map_cons, List.map_cons] at hk
      injection hk with hk1 hk2
      have ha1 : alookup (e1 :: t1) e1.1 = some e1.2 := by
        show (if e1.1 = e1.1 then some e1.2 else alookup t1 e1.1) = some e1.2
        rw [if_pos rfl]
      have ha2 : alookup (e2 :: t2) e1.1 = some e2.2 := by
        show (if e2.1 = e1.1 then some e2.2 else alookup t2 e1.1) = some e2.2
        rw [if_pos hk1.symm]
      have hhead : entryRel e1 e2 := by
        refine ⟨hk1, ?_, ?_⟩
        · have h0 := (hpt e1.1).1
          rw [ha1, ha2] at h0
          simpa using h0
        · have h0 := (hpt e1.1).2
          unfold logAt at h0
          rw [ha1, ha2] at h0
          exact h0
      refine List.Forall₂.cons hhead (ih t2 hk2 ?_ ?_)
      · rw [List.map_cons] at hnd
        exact (List.nodup_cons.mp hnd).2
      · intro pid
        by_cases hp : e1.1 = pid
        · rw [List.map_cons] at hnd
          have hnin1 : pid ∉ t1.map Prod.fst := by
            rw [← hp]
            exact (List.nodup_cons.mp hnd).1
          have hnin2 : pid ∉ t2.map Prod.fst := by
            rw [← hk2]
            exact hnin1
          have hn1 : alookup t1 pid = Option.none := by
            rw [alookup_eq_none]
            intro e he hke
            exact hnin1 (hke ▸ List.mem_map_of_mem Prod.fst he)
          have hn2 : alookup t2 pid = Option.none := by
            rw [alookup_eq_none]
            intro e he hke
            exact hnin2 (hke ▸ List.mem_map_of_mem Prod.fst he)
          constructor
          · rw [hn1, hn2]
          · unfold logAt
            rw [hn1, hn2]
        · have hl1 : alookup (e1 :: t1) pid = alookup t1 pid := by
            show (if e1.1 = pid then some e1.2 else alookup t1 pid) = _
            rw [if_neg hp]
          have hl2 : alookup (e2 :: t2) pid = alookup t2 pid := by
            show (if e2.1 = pid then some e2.2 else alookup t2 pid) = _
            rw [if_neg (by rw [← hk1]; exact hp)]
          have h0 := hpt pid
          rw [hl1, hl2] at h0
          refine ⟨h0.1, ?_⟩
          have h1 := h0.2
          unfold logAt at h1 ⊢
          rw [hl1, hl2] at h1
          exact h1

/-- Entrywise-related maps look up to related values. -/
theorem forall2_alookup {l1 l2 : List (Nat × (Size × ChangeLog))}
    (h : List.Forall₂ entryRel l1 l2) (k : Nat) :
    (alookup l1 k = Option.none ∧ alookup l2 k = Option.none) ∨
    ∃ v1 v2, alookup l1 k = some v1 ∧ alookup l2 k = some v2 ∧
      v1.1 = v2.1 ∧ List.Perm v1.2 v2.2 := by
  induction h with
  | nil => exact Or.inl ⟨rfl, rfl⟩
  | cons hhead htail ih =>
    rename_i e1 e2 t1 t2
    by_cases hk : e1.1 = k
    · refine Or.inr ⟨e1.2, e2.2, ?_, ?_, hhead.2.1, hhead.2.2⟩
      · show (if e1.1 = k then some e1.2 else alookup t1 k) = some e1.2
        rw [if_pos hk]
      · show (if e2.1 = k then some e2.2 else alookup t2 k) = some e2.2
        rw [if_pos (hhead.1 ▸ hk)]
    · have hl1 : alookup (e1 :: t1) k = alookup t1 k := by
        show (if e1.1 = k then some e1.2 else alookup t1 k) = _
        rw [if_neg hk]
      have hl2 : alookup (e2 :: t2) k = alookup t2 k := by
        show (if e2.1 = k then some e2.2 else alookup t2 k) = _
        rw [if_neg (by rw [← hhead.1]; exact hk)]
      rw [hl1, hl2]
      exact ih

/-- Entrywise-related maps agree on every size. -/
theorem forall2_sizeAt {l1 l2 : List (Nat × (Size × ChangeLog))}
    (h : List.Forall₂ entryRel l1 l2) (k : Nat) : sizeAt l1 k = sizeAt l2 k := by
  unfold sizeAt
  rcases forall2_alookup h k with ⟨h1, h2⟩ | ⟨v1, v2, h1, h2, hs, -⟩
  · rw [h1, h2]
  · rw [h1, h2]
    exact hs

/-- Bumping a size preserves entrywise relatedness. -/
theorem forall2_bumpSize {l1 l2 : List (Nat × (Size × ChangeLog))}
    (h : List.Forall₂ entryRel l1 l2) (k : Nat) (sz : Size) :
    List.Forall₂ entryRel (bumpSize l1 k sz) (bumpSize l2 k sz) := by
  unfold bumpSize
  induction h with
  | nil =>
    exact List.Forall₂.cons ⟨rfl, rfl, List.Perm.refl _⟩ List.Forall₂.nil
  | cons hhead htail ih =>
    rename_i e1 e2 t1 t2
    by_cases hk : e1.1 = k
    · show List.Forall₂ entryRel
        (if e1.1 = k then (k, (Size.max e1.2.1 sz, e1.2.2)) :: t1
         else e1 :: modEntry t1 k (Size.None, []) (fun v => (Size.max v.1 sz, v.2)))
        (if e2.1 = k then (k, (Size.max e2.2.1 sz, e2.2.2)) :: t2
         else e2 :: modEntry t2 k (Size.None, []) (fun v => (Size.max v.1 sz, v.2)))
      rw [if_pos hk, if_pos (hhead.1 ▸ hk)]
      refine List.Forall₂.cons ⟨rfl, ?_, hhead.2.2⟩ htail
      rw [hhead.2.1]
    · show List.Forall₂ entryRel
        (if e1.1 = k then (k, (Size.max e1.2.1 sz, e1.2.2)) :: t1
         else e1 :: modEntry t1 k (Size.None, []) (fun v => (Size.max v.1 sz, v.2)))
        (if e2.1 = k then (k, (Size.max e2.2.1 sz, e2.2.2)) :: t2
         else e2 :: modEntry t2 k (Size.None, []) (fun v => (Size.max v.1 sz, v.2)))
      rw [if_neg hk, if_neg (by rw [← hhead.1]; exact hk)]
      exact List.Forall₂.cons hhead ih

/-- The seeding pass reads only presence and sizes, which related maps
share. -/
theorem initStep_congr {l1 l2 : List (Nat × (Size × ChangeLog))}
    (h : List.Forall₂ entryRel l1 l2)
    (st : (List (Nat × List Nat)) × List (Nat × Size)) (p : Project) :
    initStep l1 st p = initStep l2 st p := by
  unfold initStep
  rcases forall2_alookup h p.id with ⟨h1, h2⟩ | ⟨v1, v2, h1, h2, hs, -⟩
  · rw [h1, h2]
  · rw [h1, h2]
    obtain ⟨s1v, c1v⟩ := v1
    obtain ⟨s2v, c2v⟩ := v2
    have hs2 : s1v = s2v := hs
    subst hs2
    rfl

/-- The seeding pass agrees on related maps. -/
theorem initDeps_congr (cfg : ConfigFile)
    {l1 l2 : List (Nat × (Size × ChangeLog))}
    (h : List.Forall₂ entryRel l1 l2) :
    initDeps cfg l1 = initDeps cfg l2 := by
  unfold initDeps
  suffices h2 : ∀ (ps : List Project) (st : (List (Nat × List Nat)) × List (Nat × Size)),
      ps.foldl (initStep l1) st = ps.foldl (initStep l2) st by
    exact h2 _ _
  intro ps
  induction ps with
  | nil => intro st; rfl
  | cons p t ih =>
    intro st
    rw [List.foldl_cons, List.foldl_cons, initStep_congr h]
    exact ih _

/-- The cloned-dependents loop runs in lockstep on related states. -/
theorem stateRel_processDepds (size : Size) (i : Nat) :
    ∀ (depds : List Nat) (s1 s2 : DepState), StateRel s1 s2 →
      StateRel (processDepds size i depds s1) (processDepds size i depds s2) := by
  intro depds
  induction depds with
  | nil => intro s1 s2 h; exact h
  | cons d rest ih =>
    intro s1 s2 h
    obtain ⟨hf, hdep, hq, hpop⟩ := h
    rw [processDepds, processDepds]
    apply ih
    have hdeps1 : removeDependent s1.dependents i d = removeDependent s2.dependents i d := by
      rw [hdep]
    have hv : sizeAt (bumpSize s1.incrs d size) d = sizeAt (bumpSize s2.incrs d size) d :=
      forall2_sizeAt (forall2_bumpSize hf d size) d
    by_cases hc : inAnyDependents (removeDependent s1.dependents i d) d = true
    · have hc2 : inAnyDependents (removeDependent s2.dependents i d) d = true := by
        rw [← hdeps1]
        exact hc
      rw [if_pos hc, if_pos hc2]
      exact ⟨forall2_bumpSize hf d size, hdeps1, hq, hpop⟩
    · have hc2 : ¬ inAnyDependents (removeDependent s2.dependents i d) d = true := by
        rw [← hdeps1]
        exact hc
      rw [if_neg hc, if_neg hc2]
      refine ⟨forall2_bumpSize hf d size, hdeps1, ?_, hpop⟩
      rw [hq, hv]

/-- One pop runs in lockstep on related states. -/
theorem stateRel_depStep (s1 s2 : DepState) (h : StateRel s1 s2) :
    StateRel (depStep s1) (depStep s2) := by
  obtain ⟨hf, hdep, hq, hpop⟩ := h
  cases hq1 : s1.queue with
  | nil =>
    have hstep1 : depStep s1 = s1 := by
      unfold depStep
      rw [hq1]
    have hstep2 : depStep s2 = s2 := by
      unfold depStep
      rw [← hq, hq1]
    rw [hstep1, hstep2]
    exact ⟨hf, hdep, hq, hpop⟩
  | cons p rest =>
    obtain ⟨i0, sz0⟩ := p
    have hq2 : s2.queue = (i0, sz0) :: rest := by
      rw [← hq, hq1]
    have hstep1 : depStep s1 = (match alookup s1.dependents i0 with
        | Option.none => DepState.mk (bumpSize s1.incrs i0 sz0) s1.dependents rest
            (s1.popped ++ [i0])
        | some depds => processDepds sz0 i0 depds
            (DepState.mk (bumpSize s1.incrs i0 sz0) s1.dependents rest
              (s1.popped ++ [i0]))) := by
      unfold depStep
      rw [hq1]
    have hstep2 : depStep s2 = (match alookup s2.dependents i0 with
        | Option.none => DepState.mk (bumpSize s2.incrs i0 sz0) s2.dependents rest
            (s2.popped ++ [i0])
        | some depds => processDepds sz0 i0 depds
            (DepState.mk (bumpSize s2.incrs i0 sz0) s2.dependents rest
              (s2.popped ++ [i0]))) := by
      unfold depStep
      rw [hq2]
    rw [hstep1, hstep2, ← hdep]
    cases hd : alookup s1.dependents i0 with
    | none =>
      exact ⟨forall2_bumpSize hf i0 sz0, rfl, rfl, by rw [hpop]⟩
    | some depds =>
      apply stateRel_processDepds
      exact ⟨forall2_bumpSize hf i0 sz0, rfl, rfl, by rw [hpop]⟩

/-- The pop loop runs in lockstep on related states. -/
theorem stateRel_depLoop :
    ∀ (n : Nat) (s1 s2 : DepState), StateRel s1 s2 →
      StateRel (depLoop n s1) (depLoop n s2) := by
  intro n
  induction n with
  | zero => intro s1 s2 h; exact h
  | succ n ih =>
    intro s1 s2 h
    rw [depLoop, depLoop, ← h.2.2.1]
    by_cases hqe : s1.queue.isEmpty = true
    · rw [if_pos hqe, if_pos hqe]
      exact h
    · rw [if_neg hqe, if_neg hqe]
      exact ih _ _ (stateRel_depStep s1 s2 h)

/-- Dependency propagation preserves entrywise relatedness of the incrs. -/
theorem forall2_handleDeps (cfg : ConfigFile)
    {l1 l2 : List (Nat × (Size × ChangeLog))}
    (h : List.Forall₂ entryRel l1 l2) :
    List.Forall₂ entryRel (handleDeps cfg l1) (handleDeps cfg l2) := by
  have hinit := initDeps_congr cfg h
  have hs : StateRel (DepState.mk l1 (initDeps cfg l1).1 (initDeps cfg l1).2 [])
      (DepState.mk l2 (initDeps cfg l2).1 (initDeps cfg l2).2 []) := by
    refine ⟨h, ?_, ?_, rfl⟩
    · show (initDeps cfg l1).1 = (initDeps cfg l2).1
      rw [hinit]
    · show (initDeps cfg l1).2 = (initDeps cfg l2).2
      rw [hinit]
  have hfuel : depFuel (DepState.mk l1 (initDeps cfg l1).1 (initDeps cfg l1).2 []) =
      depFuel (DepState.mk l2 (initDeps cfg l2).1 (initDeps cfg l2).2 []) := by
    unfold depFuel
    rw [hinit]
  show List.Forall₂ entryRel
    (depLoop (depFuel (DepState.mk l1 (initDeps cfg l1).1 (initDeps cfg l1).2 []))
      (DepState.mk l1 (initDeps cfg l1).1 (initDeps cfg l1).2 [])).incrs
    (depLoop (depFuel (DepState.mk l2 (initDeps cfg l2).1 (initDeps cfg l2).2 []))
      (DepState.mk l2 (initDeps cfg l2).1 (initDeps cfg l2).2 [])).incrs
  rw [hfuel]
  exact (stateRel_depLoop _ _ _ hs).1

/-- Bumping a size preserves per-entry distinct closed-at stamps. -/
theorem entryLogsDistinct_bumpSize (l : List (Nat × (Size × ChangeLog)))
    (k : Nat) (sz : Size) (h : EntryLogsDistinct l) :
    EntryLogsDistinct (bumpSize l k sz) := by
  intro e he
  rcases mem_modEntry l k (Size.None, []) (fun v => (Size.max v.1 sz, v.2)) e he with
    heq | hm
  · rw [heq]
    show List.Pairwise (fun a b => a.1.closedAt ≠ b.1.closedAt)
      ((alookup l k).getD (Size.None, [])).2
    cases ho : alookup l k with
    | none => exact List.Pairwise.nil
    | some v =>
      show List.Pairwise (fun a b => a.1.closedAt ≠ b.1.closedAt) v.2
      exact h (k, v) (alookup_mem l k v ho)
  · exact h e hm

/-- The cloned-dependents loop preserves per-entry distinct closed-at
stamps. -/
theorem entryLogsDistinct_processDepds (size : Size) (i : Nat) :
    ∀ (depds : List Nat) (s : DepState), EntryLogsDistinct s.incrs →
      EntryLogsDistinct (processDepds size i depds s).incrs := by
  intro depds
  induction depds with
  | nil => intro s h; exact h
  | cons d rest ih =>
    intro s h
    rw [processDepds]
    by_cases hc : inAnyDependents (removeDependent s.dependents i d) d = true
    · have h2 := ih (DepState.mk (bumpSize s.incrs d size)
        (removeDependent s.dependents i d) s.queue s.popped)
        (entryLogsDistinct_bumpSize s.incrs d size h)
      simpa [hc] using h2
    · have h2 := ih (DepState.mk (bumpSize s.incrs d size)
        (removeDependent s.dependents i d)
        (s.queue ++ [(d, sizeAt (bumpSize s.incrs d size) d)]) s.popped)
        (entryLogsDistinct_bumpSize s.incrs d size h)
      simpa [hc] using h2

/-- One pop preserves per-entry distinct closed-at stamps. -/
theorem entryLogsDistinct_depStep (s : DepState)
    (h : EntryLogsDistinct s.incrs) : EntryLogsDistinct (depStep s).incrs := by
  obtain ⟨inc, dep, q, pop⟩ := s
  cases q with
  | nil => exact h
  | cons hd rest =>
    obtain ⟨i0, sz0⟩ := hd
    show EntryLogsDistinct (match alookup dep i0 with
      | Option.none => DepState.mk (bumpSize inc i0 sz0) dep rest (pop ++ [i0])
      | some depds => processDepds sz0 i0 depds
          (DepState.mk (bumpSize inc i0 sz0) dep rest (pop ++ [i0]))).incrs
    cases hd2 : alookup dep i0 with
    | none => exact entryLogsDistinct_bumpSize inc i0 sz0 h
    | some depds =>
      exact entryLogsDistinct_processDepds sz0 i0 depds
        (DepState.mk (bumpSize inc i0 sz0) dep rest (pop ++ [i0]))
        (entryLogsDistinct_bumpSize inc i0 sz0 h)

/-- The pop loop preserves per-entry distinct closed-at stamps. -/
theorem entryLogsDistinct_depLoop :
    ∀ (n : Nat) (s : DepState), EntryLogsDistinct s.incrs →
      EntryLogsDistinct (depLoop n s).incrs := by
  intro n
  induction n with
  | zero => intro s h; exact h
  | succ n ih =>
    intro s h
    rw [depLoop]
    by_cases hqe : s.queue.isEmpty = true
    · rw [if_pos hqe]
      exact h
    · rw [if_neg hqe]
      exact ih _ (entryLogsDistinct_depStep s h)

/-- Dependency propagation preserves per-entry distinct closed-at stamps. -/
theorem entryLogsDistinct_handleDeps (cfg : ConfigFile)
    (l : List (Nat × (Size × ChangeLog))) (h : EntryLogsDistinct l) :
    EntryLogsDistinct (handleDeps cfg l) := by
  show EntryLogsDistinct
    (depLoop (depFuel (DepState.mk l (initDeps cfg l).1 (initDeps cfg l).2 []))
      (DepState.mk l (initDeps cfg l).1 (initDeps cfg l).2 [])).incrs
  exact entryLogsDistinct_depLoop _ _ h

/-- The closed-at stamps of any project log stay a sublist of the closed-at
stamps of the PRs walked so far. -/
theorem foldPrs_log_sub (cfg : ConfigFile) (slices : Slices)
    (hnodup : (cfg.projects.map (fun p => p.id)).Nodup) (pid : Nat) :
    ∀ (prs : List FullPr) (b : PlanBuilder) (L : List Int),
      List.Sublist ((logAt b.incrs pid).map (fun e => e.1.closedAt)) L →
      List.Sublist
        ((logAt ((prs.foldl (prStepP cfg slices) b)).incrs pid).map
          (fun e => e.1.closedAt)) (L ++ prs.map FullPr.closedAt) := by
  intro prs
  induction prs with
  | nil =>
    intro b L h
    rw [List.map_nil, List.append_nil]
    exact h
  | cons pr rest ih =>
    intro b L h
    rw [List.foldl_cons]
    have hstep : List.Sublist
        ((logAt ((prStepP cfg slices b pr)).incrs pid).map (fun e => e.1.closedAt))
        (L ++ [pr.closedAt]) := by
      by_cases hin : pid ∈ cfg.projects.map (fun p => p.id)
      · rcases prOpsP_lookup cfg slices pr pid hin with ⟨lp, hlp⟩
        have ho := (prStepP_obs cfg slices hnodup b pr pid lp hlp).2
        cases hm : maxApplying lp.commits with
        | some s2 =>
          rw [hm] at ho
          have ho2 : logAt (prStepP cfg slices b pr).incrs pid =
              logAt b.incrs pid ++ [(lp, s2)] := ho
          rw [ho2, List.map_append]
          refine List.Sublist.append h ?_
          have hcl : lp.closedAt = pr.closedAt :=
            prOpsP_closedAt cfg slices pr (pid, lp) hlp
          have heq : ([(lp, s2)]).map (fun e => e.1.closedAt) = [pr.closedAt] := by
            simp [hcl]
          rw [heq]
        | none =>
          rw [hm] at ho
          have ho2 : logAt (prStepP cfg slices b pr).incrs pid =
              logAt b.incrs pid ++ [] := ho
          rw [ho2, List.append_nil]
          exact h.trans (List.sublist_append_left L [pr.closedAt])
      · have hu := alookup_prStepP_untouched cfg slices b pr pid hin
        rw [logAt_congr hu]
        exact h.trans (List.sublist_append_left L [pr.closedAt])
    have hfinal := ih (prStepP cfg slices b pr) (L ++ [pr.closedAt]) hstep
    have hassoc : (L ++ [pr.closedAt]) ++ rest.map FullPr.closedAt =
        L ++ (pr :: rest).map FullPr.closedAt := by
      rw [List.append_assoc]
      rfl
    rw [hassoc] at hfinal
    exact hfinal

/-- The PR fold keeps incrs keys duplicate-free. -/
theorem foldPrs_keys_nodup (cfg : ConfigFile) (slices : Slices) :
    ∀ (prs : List FullPr) (b : PlanBuilder),
      (b.incrs.map Prod.fst).Nodup →
      ((prs.foldl (prStepP cfg slices) b).incrs.map Prod.fst).Nodup := by
  intro prs
  induction prs with
  | nil => intro b h; exact h
  | cons pr rest ih =>
    intro b h
    rw [List.foldl_cons]
    apply ih
    rw [map_fst_prStepP]
    exact foldl_addKey_nodup _ _ h

/-- With pairwise-distinct PR closed-at stamps, every project log of the
walked builder has pairwise-distinct closed-at stamps. -/
theorem foldPrs_logsDistinct (cfg : ConfigFile) (slices : Slices)
    (prs : List FullPr)
    (hnodup : (cfg.projects.map (fun p => p.id)).Nodup)
    (hdist : (prs.map FullPr.closedAt).Pairwise (fun a b => a ≠ b)) :
    EntryLogsDistinct (prs.foldl (prStepP cfg slices) PlanBuilder.create).incrs := by
  have hknd := foldPrs_keys_nodup cfg slices prs PlanBuilder.create List.nodup_nil
  intro e he
  have ha : alookup (prs.foldl (prStepP cfg slices) PlanBuilder.create).incrs e.1 =
      some e.2 := alookup_of_mem_nodup _ _ _ hknd he
  have hlog : logAt (prs.foldl (prStepP cfg slices) PlanBuilder.create).incrs e.1 =
      e.2.2 := by
    unfold logAt
    rw [ha]
    rfl
  rw [← hlog]
  have hsub := foldPrs_log_sub cfg slices hnodup e.1 prs PlanBuilder.create []
    (List.nil_sublist _)
  rw [List.nil_append] at hsub
  have hpw := List.Pairwise.sublist hsub hdist
  rw [List.pairwise_map] at hpw
  exact hpw

/-- Two sorted permutations with pairwise-distinct sort keys coincide. -/
theorem sorted_perm_key_eq :
    ∀ (l1 l2 : ChangeLog), List.Perm l1 l2 → List.Sorted logLe l1 →
      List.Sorted logLe l2 →
      List.Pairwise (fun a b => a.1.closedAt ≠ b.1.closedAt) l1 → l1 = l2 := by
  intro l1
  induction l1 with
  | nil =>
    intro l2 hp _ _ _
    exact (hp.symm.eq_nil).symm
  | cons a t1 ih =>
    intro l2 hp hs1 hs2 hd
    cases l2 with
    | nil => exact absurd hp.eq_nil (by simp)
    | cons b t2 =>
      have hab : a = b := by
        have ham : a ∈ b :: t2 := hp.subset (List.mem_cons_self _ _)
        rcases List.mem_cons.mp ham with he | ht
        · exact he
        · have hbm : b ∈ a :: t1 := hp.symm.subset (List.mem_cons_self _ _)
          rcases List.mem_cons.mp hbm with he2 | ht2
          · exact he2.symm
          · have h1 : logLe a b := (List.sorted_cons.mp hs1).1 b ht2
            have h2 : logLe b a := (List.sorted_cons.mp hs2).1 a ht
            have hne : a.1.closedAt ≠ b.1.closedAt :=
              (List.pairwise_cons.mp hd).1 b ht2
            exact absurd (le_antisymm h1 h2) hne
      subst hab
      have hpt : List.Perm t1 t2 := hp.cons_inv
      rw [ih t2 hpt (List.sorted_cons.mp hs1).2 (List.sorted_cons.mp hs2).2
        (List.pairwise_cons.mp hd).2]

/-- sort_and_dedup maps entrywise-related incrs with distinct closed-at
stamps to equal results: the stable sort pins down one order, and the
duplicate marking follows it. -/
theorem sortAndDedup_congr :
    ∀ (l1 l2 : List (Nat × (Size × ChangeLog))),
      List.Forall₂ entryRel l1 l2 → EntryLogsDistinct l1 →
      sortAndDedup l1 = sortAndDedup l2 := by
  intro l1 l2 h
  unfold sortAndDedup
  induction h with
  | nil => intro _; rfl
  | cons hhead htail ih =>
    rename_i e1 e2 t1 t2
    intro hd
    rw [List.map_cons, List.map_cons]
    have htl := ih (fun e he => hd e (List.mem_cons_of_mem _ he))
    rw [htl]
    have hsort : List.insertionSort logLe e1.2.2 = List.insertionSort logLe e2.2.2 := by
      apply sorted_perm_key_eq
      · exact (List.perm_insertionSort logLe e1.2.2).trans
          (hhead.2.2.trans (List.perm_insertionSort logLe e2.2.2).symm)
      · exact List.sorted_insertionSort logLe e1.2.2
      · exact List.sorted_insertionSort logLe e2.2.2
      · exact ((List.perm_insertionSort logLe e1.2.2).pairwise_iff
          (fun hab => Ne.symm hab)).mpr (hd e1 (List.mem_cons_self _ _))
    show (e1.1, (e1.2.1, dedupEntries [] (List.insertionSort logLe e1.2.2))) ::
        t2.map (fun e => (e.1, (e.2.1, dedupEntries [] (List.insertionSort logLe e.2.2)))) =
      (e2.1, (e2.2.1, dedupEntries [] (List.insertionSort logLe e2.2.2))) ::
        t2.map (fun e => (e.1, (e.2.1, dedupEntries [] (List.insertionSort logLe e.2.2))))
    rw [hhead.1, hhead.2.1, hsort]

/-- C6 counterexample: the built Plan depends on the walk order of the PR
groups.  Two distinct PRs with the same closed-at stamp share commit X; the
stable sort keeps them in walk order, so the duplicate mark and the entry
size None land on whichever PR was walked second, and the two orders yield
different plans. -/
theorem plan_order_counterexample :
    buildPlanList ordCfg ordSlices [ordPrA, ordPrB] ≠
      buildPlanList ordCfg ordSlices [ordPrB, ordPrA] := by
  decide

/-- C6 (corrected): build_plan is a pure function of the walked PR list, so
re-planning the same state yields the same Plan; and when the PR groups
have pairwise-distinct closed-at stamps (and project ids are distinct),
the resulting incrs map - sizes and sorted, deduplicated change logs -
is identical for every walk order, while the ineffective list is the same
up to order.  Without distinct closed-at stamps the walk order can leak
into the plan (see the counterexample). -/
theorem plan_order_amended (cfg : ConfigFile) (slices : Slices)
    (prs1 prs2 : List FullPr)
    (hnodup : (cfg.projects.map (fun p => p.id)).Nodup)
    (hperm : List.Perm prs1 prs2)
    (hdist : (prs1.map FullPr.closedAt).Pairwise (fun a b => a ≠ b)) :
    ∃ p1 p2 : Plan, buildPlanList cfg slices prs1 = Except.ok p1 ∧
      buildPlanList cfg slices prs2 = Except.ok p2 ∧
      p1.incrs = p2.incrs ∧ List.Perm p1.ineffective p2.ineffective := by
  have hrel := builderRel_perm cfg slices hnodup hperm PlanBuilder.create
    PlanBuilder.create (builderRel_refl _)
  have hknd := foldPrs_keys_nodup cfg slices prs1 PlanBuilder.create List.nodup_nil
  have hf2 : List.Forall₂ entryRel
      (prs1.foldl (prStepP cfg slices) PlanBuilder.create).incrs
      (prs2.foldl (prStepP cfg slices) PlanBuilder.create).incrs :=
    incrsRel_forall2 _ _ hrel.1.1 hknd hrel.1.2
  have hHD := forall2_handleDeps cfg hf2
  have hdistinct := entryLogsDistinct_handleDeps cfg _
    (foldPrs_logsDistinct cfg slices prs1 hnodup hdist)
  refine ⟨_, _, buildPlanList_ok cfg slices prs1, buildPlanList_ok cfg slices prs2,
    ?_, ?_⟩
  · show sortAndDedup
        (handleDeps cfg (prs1.foldl (prStepP cfg slices) PlanBuilder.create).incrs) =
      sortAndDedup
        (handleDeps cfg (prs2.foldl (prStepP cfg slices) PlanBuilder.create).incrs)
    exact sortAndDedup_congr _ _ hHD hdistinct
  · show List.Perm (prs1.foldl (prStepP cfg slices) PlanBuilder.create).ineffective
      (prs2.foldl (prStepP cfg slices) PlanBuilder.create).ineffective
    exact hrel.2

/-- The corrected walk-order theorem applied to two concrete PRs with
distinct closed-at stamps: both orders build plans with identical incrs. -/
theorem plan_order_amended_app :
    ∃ p1 p2 : Plan,
      buildPlanList ordCfg ordSlices
        [⟨1, 3, [ordCommit]⟩, ⟨2, 7, [ordCommit]⟩] = Except.ok p1 ∧
      buildPlanList ordCfg ordSlices
        [⟨2, 7, [ordCommit]⟩, ⟨1, 3, [ordCommit]⟩] = Except.ok p2 ∧
      p1.incrs = p2.incrs ∧ List.Perm p1.ineffective p2.ineffective :=
  plan_order_amended ordCfg ordSlices _ _ (by decide)
    (List.Perm.swap (⟨2, 7, [ordCommit]⟩ : FullPr) (⟨1, 3, [ordCommit]⟩ : FullPr) [])
    (by decide)

end Versio
